import Mathlib

/-!
CodeFormat: enumeration dictionaries, the enumeration codec and validators.

A shallow embedding of `EnumerationProperTypes.{h,cpp}`, of the validators of
`PropertiesValidators.{h,cpp}` and of the member functions of `Property`, `ProperT`,
`RWProperT<bool>` and `Properties` of `Properties.h` that the theorems are about.

* `std::map<K, V>` is embedded as an association list kept in strictly
  ascending key order (`IsMap`); `mapFind` is `std::map::find`, `mapAssign` is
  `m[k] = v`.  The functions are total on every list; `IsMap` is the
  well-formedness of the C++ type and is assumed only where a statement needs it.
  The order of `MEtl::string` keys is taken to be lexicographic; the sources never
  iterate over a string-keyed map, so nothing observable depends on it.
* `int` is embedded as `Int` (no arithmetic is done on codes), `INT_MAX` is
  `2147483647`.
* `MEtl::string` is embedded as `String`, the sequence of its `char` elements;
  `size()` is the length.  Where the code goes through `c_str()` (with `strlen`,
  `sprintf("%s")` or a conversion back to a string) it sees the text before the
  first NUL character, which is `cStr`.
* The functions of `<cctype>` are those of the "C" locale, and `ss >> bigint` is
  the decimal extraction of the standard library (`extractLongLong`), which writes
  nothing when the text has no character other than white space.
* Undefined behaviour is the result `none`: a `sprintf` whose text and terminating
  NUL character do not fit in its buffer of 1024 bytes (`sprintfBuffer`), and a read
  of the local variable `bigint` that nothing was written to.
* The bodies of `Properties::load`, `_setProperty` and `setRejected` are outside the
  sources; the load protocol (`LoadRegistry`) is modelled from section 4.4 of the
  specification and its definitions say so.
* `const` member functions are pure functions of the object; mutating member
  functions return the successor object, and so do the `const` member functions of
  `ProperT`, whose members `loaded`, `modified` and `_val` can be written through
  `mutable` and casts.
* A pointer is an optional address, `none` being `NULL`; a member function that is
  pure virtual or defined outside the sources is a parameter.
* `fprintf(stderr, ...)` is embedded as a returned list of diagnostic lines.
* Threads that call `EnumDictionary::set` on one slot are embedded as a step function
  (`SetWorld.step`) over the atomic actions of a thread, run along a schedule that
  names the thread of each step; the atomic operations are sequentially consistent,
  which is the default memory order of the calls in the source.
-/

namespace CodeFormat

/-! ## `std::map` -/

/-- Well-formedness of a `std::map`: keys strictly ascending (hence unique). -/
def IsMap {κ ν : Type} [LT κ] (m : List (κ × ν)) : Prop :=
  m.Pairwise (fun a b => a.1 < b.1)

instance {κ ν : Type} [LT κ] [DecidableRel (fun (a b : κ) => a < b)] (m : List (κ × ν)) :
    Decidable (IsMap m) := by
  unfold IsMap; infer_instance

/-- The member function `std::map::find`: the value under `k`, `none` for `end()`. -/
def mapFind {κ ν : Type} [DecidableEq κ] : List (κ × ν) → κ → Option ν
  | [], _ => none
  | (k', v') :: t, k => if k = k' then some v' else mapFind t k

/-- The statement `m[k] = v` on a `std::map` whose key comparison is `less`:
overwrite the value of an existing key, otherwise insert the pair at its place
in key order. -/
def mapAssign {κ ν : Type} [DecidableEq κ] (less : κ → κ → Bool) :
    List (κ × ν) → κ → ν → List (κ × ν)
  | [], k, v => [(k, v)]
  | (k', v') :: t, k, v =>
    if k = k' then (k', v) :: t
    else if less k k' then (k, v) :: (k', v') :: t
    else (k', v') :: mapAssign less t k v

/-- The comparison `std::less<int>`. -/
def intLess (a b : Int) : Bool := decide (a < b)

/-- Lexicographic comparison of character sequences by character code. -/
def charsLess : List Char → List Char → Bool
  | [], [] => false
  | [], _ :: _ => true
  | _ :: _, [] => false
  | a :: as, b :: bs =>
    if a.toNat < b.toNat then true
    else if b.toNat < a.toNat then false
    else charsLess as bs

/-- The comparison `std::less<MEtl::string>`: lexicographic on the characters. -/
def strLess (a b : String) : Bool := charsLess a.data b.data

/-- The conversion `c_str()` followed by construction of a string from the
`const char*`: the text up to the first NUL character. -/
def cStr (s : String) : String :=
  String.mk (s.data.takeWhile (fun ch => ch ≠ Char.ofNat 0))

/-! ## `EnumDictionary` -/

/-- The typedef `EnumDictionary::IntToStr`, that is `std::map<int, MEtl::string>`. -/
abbrev IntToStr := List (Int × String)

/-- The typedef `EnumDictionary::StrToInt`, that is `std::map<MEtl::string, int>`. -/
abbrev StrToInt := List (String × Int)

/-- The constant `EnumDictionary::INVALID_VAL = INT_MAX`. -/
def INVALID_VAL : Int := 2147483647

/-- The constant `EnumDictionary::INVALID_STR_VAL = ""`. -/
def INVALID_STR_VAL : String := ""

/-- The data members of `class EnumDictionary`. -/
structure EnumDictionary where
  _startIntToStr : IntToStr
  _intToStr : IntToStr
  _strToInt : StrToInt
  _freeze : Bool
  deriving DecidableEq, Repr

namespace EnumDictionary

/-- The private constructor `EnumDictionary() : _freeze(false) {}`. -/
def new : EnumDictionary :=
  { _startIntToStr := [], _intToStr := [], _strToInt := [], _freeze := false }

/-- The member function `EnumDictionary::init`. -/
def init (d : EnumDictionary) (intToStr : IntToStr) (freeze : Bool) : EnumDictionary :=
  intToStr.foldl
    (fun s it =>
      { s with
        _strToInt := mapAssign strLess s._strToInt it.2 it.1
        _intToStr := mapAssign intLess s._intToStr it.1 it.2
        _startIntToStr := mapAssign intLess s._startIntToStr it.1 it.2 })
    { d with _freeze := freeze }

/-- The member function `EnumDictionary::reset`. -/
def reset (d : EnumDictionary) : EnumDictionary :=
  d._startIntToStr.foldl
    (fun s it =>
      { s with
        _strToInt := mapAssign strLess s._strToInt it.2 it.1
        _intToStr := mapAssign intLess s._intToStr it.1 it.2 })
    { d with _freeze := false, _intToStr := [], _strToInt := [] }

/-- The member function `EnumDictionary::append`. -/
def append (d : EnumDictionary) (intToStr : IntToStr) (freeze : Bool) : EnumDictionary :=
  if d._freeze then d
  else
    intToStr.foldl
      (fun s it =>
        if mapFind s._intToStr it.1 = none then
          { s with
            _intToStr := mapAssign intLess s._intToStr it.1 it.2
            _strToInt := mapAssign strLess s._strToInt it.2 it.1 }
        else s)
      { d with _freeze := freeze }

/-- The member function `EnumDictionary::isFreeze`. -/
def isFreeze (d : EnumDictionary) : Bool := d._freeze

/-- The member function `EnumDictionary::getListStr`: the names pushed onto `list`. -/
def getListStr (d : EnumDictionary) (list : List String) : List String :=
  d._intToStr.foldl (fun l it => l ++ [it.2]) list

/-- The member function `EnumDictionary::getListInts`: the codes pushed onto `list`. -/
def getListInts (d : EnumDictionary) (list : List Int) : List Int :=
  d._intToStr.foldl (fun l it => l ++ [it.1]) list

/-- The member function `EnumDictionary::operator[](int)`. -/
def indexInt (d : EnumDictionary) (val : Int) : String :=
  match mapFind d._intToStr val with
  | some s => s
  | none => INVALID_STR_VAL

/-- The member function `EnumDictionary::operator()(int)`. -/
def callInt (d : EnumDictionary) (val : Int) : String :=
  match mapFind d._intToStr val with
  | some s => s
  | none => INVALID_STR_VAL

/-- The member function `EnumDictionary::operator[](const MEtl::string&)`. -/
def indexStr (d : EnumDictionary) (strVal : String) : Int :=
  match mapFind d._strToInt strVal with
  | some c => c
  | none => INVALID_VAL

/-- One mutating call on a dictionary after its installation. -/
inductive Call where
  | append (intToStr : IntToStr) (freeze : Bool)
  | reset
  deriving DecidableEq, Repr

/-- Perform one call. -/
def call (d : EnumDictionary) : Call → EnumDictionary
  | Call.append m f => d.append m f
  | Call.reset => d.reset

/-- Perform a sequence of calls, first to last. -/
def run (d : EnumDictionary) (cs : List Call) : EnumDictionary :=
  cs.foldl call d

end EnumDictionary

/-! ## `OptimizeEnumeration` and its codec -/

/-- The data members of `class OptimizeEnumeration`; `_dictionary` is the
dictionary the object refers to. -/
structure OptimizeEnumeration where
  _val : Int
  _dictionary : EnumDictionary
  deriving DecidableEq, Repr

namespace OptimizeEnumeration

/-- The conversion `operator const int()`. -/
def toInt (t : OptimizeEnumeration) : Int := t._val

/-- The member function `OptimizeEnumeration::operator[](int)`. -/
def indexInt (t : OptimizeEnumeration) (val : Int) : String :=
  t._dictionary.indexInt val

/-- The member function `OptimizeEnumeration::operator[](const MEtl::string&)`. -/
def indexStr (t : OptimizeEnumeration) (strVal : String) : Int :=
  t._dictionary.indexStr strVal

end OptimizeEnumeration

/-- The function `atot(OptimizeEnumeration&, const MEtl::string&)`: the object after the call and
the lines written to `stderr`. -/
def atot (t : OptimizeEnumeration) (a : String) : OptimizeEnumeration × List String :=
  let t1 : OptimizeEnumeration := { t with _val := t.indexStr a }
  if t1._val = INVALID_VAL then
    (t1, ["can't find matching enumeration for string value " ++ cStr a ++ "\n"])
  else (t1, [])

/-- The function `ttoa(const OptimizeEnumeration&)`: the returned text and the lines written
to `stderr`. -/
def ttoa (t : OptimizeEnumeration) : String × List String :=
  let val : Int := t.toInt
  let strVal : String := t.indexInt val
  if strVal = INVALID_STR_VAL then
    (strVal, ["can't find matching enumeration for numeric value " ++ toString val ++ "\n"])
  else (strVal, [])

/-! ## `EnumerationValidator` -/

/-- The data member of `class EnumerationValidator`. -/
structure EnumerationValidator where
  _enumDictionary : EnumDictionary
  deriving DecidableEq, Repr

namespace EnumerationValidator

/-- The member function `EnumerationValidator::validateVal`. -/
def validateVal (v : EnumerationValidator) (keyval : String) : Bool :=
  if !v._enumDictionary.isFreeze then true
  else decide (v._enumDictionary.indexStr keyval ≠ INVALID_VAL)

/-- The member function `EnumerationValidator::validate`: the returned flag and the content of
`whyNot` after the call.  `ttoaList` is the encoder `ttoa(StrContainer)`, which is declared
outside these sources; the registry argument and the incoming content of `whyNot` are
never read by the body. -/
def validate {Properties : Type} (ttoaList : List String → String) (v : EnumerationValidator)
    (keyname keyval : String) (_container : Properties) (_whyNot : String) : Bool × String :=
  let whyNot := ""
  if v.validateVal keyval then (true, whyNot)
  else
    let list := v._enumDictionary.getListStr []
    let out := "can't set " ++ keyname ++ " to " ++ keyval
      ++ ". value must be in the range of " ++ ttoaList list
    (false, cStr out)

end EnumerationValidator

/-! ## `ProperT<T>` -/

/-- The data members of `ProperT<T>` (with those of its base `Property`) that the
embedded member functions read or write. -/
structure ProperT (T : Type) where
  name : String
  flags : Nat
  loaded : Nat
  modified : Bool
  _val : T
  _defaultVal : T

/-- The member function `ProperT<T, DefaultVerifier>::sync`: `atot(_val, val)`, then
`syncVerifiers`, which does nothing in `DefaultVerifier`.  `atotT` is the decoder of
`T`; the result is the property after the call and the lines written to `stderr`. -/
def ProperT.sync {T : Type} (atotT : T → String → T × List String) (p : ProperT T)
    (val : String) : ProperT T × List String :=
  ({ p with _val := (atotT p._val val).1 }, (atotT p._val val).2)

/-! ## `EnumDictionary::set` -/

/-- The memory `EnumDictionary::set` works on: the live `EnumDictionary` objects by
address and the slot `std::atomic<EnumDictionary*>`, where `none` is `NULL`. -/
structure DictMemory where
  heap : List (Nat × EnumDictionary)
  slot : Option Nat
  deriving DecidableEq, Repr

/-- An address that no live object has: the result of `new`. -/
def freshAddr : List (Nat × EnumDictionary) → Nat
  | [] => 0
  | (a, _) :: t => max (a + 1) (freshAddr t)

/-- The object at an address, `none` if no live object is there. -/
def DictMemory.deref (mem : DictMemory) (a : Nat) : Option EnumDictionary :=
  mapFind mem.heap a

/-- The loop `while(!dictionary.compare_exchange_strong(expected, newVal))` of
`EnumDictionary::set` in a single-threaded run; `fuel` bounds the number of
iterations and `none` means that the bound was reached. -/
def EnumDictionary.setLoop : Nat → DictMemory → Option Nat → Nat → Option DictMemory
  | 0, _, _, _ => none
  | fuel + 1, mem, expected, newVal =>
    if mem.slot = expected then
      -- the exchange succeeds: the slot takes `newVal` and the loop ends
      some { mem with slot := some newVal }
    else if mem.slot ≠ none then
      -- the exchange fails and the slot is not `NULL`: `delete newVal; break;`
      some { mem with heap := mem.heap.filter (fun o => o.1 ≠ newVal) }
    else
      -- the exchange fails: `expected = NULL;` and the loop goes on
      EnumDictionary.setLoop fuel mem none newVal

/-- The static member function `EnumDictionary::set` in a single-threaded run. -/
def EnumDictionary.set (fuel : Nat) (mem : DictMemory) (intToStr : IntToStr) (freeze : Bool) :
    Option DictMemory :=
  let expected : Option Nat := none
  let newVal : Nat := freshAddr mem.heap
  let mem1 : DictMemory :=
    { mem with heap := mem.heap ++ [(newVal, EnumDictionary.new.init intToStr freeze)] }
  EnumDictionary.setLoop fuel mem1 expected newVal

/-! ## `<cctype>` in the "C" locale and stream extraction -/

/-- The library function `isdigit`: `0` to `9`. -/
def isdigit (c : Char) : Bool := decide (48 ≤ c.toNat ∧ c.toNat ≤ 57)

/-- The library function `isalpha`: `A` to `Z` and `a` to `z`. -/
def isalpha (c : Char) : Bool :=
  decide ((65 ≤ c.toNat ∧ c.toNat ≤ 90) ∨ (97 ≤ c.toNat ∧ c.toNat ≤ 122))

/-- The library function `isxdigit`: `0` to `9`, `A` to `F` and `a` to `f`. -/
def isxdigit (c : Char) : Bool :=
  decide ((48 ≤ c.toNat ∧ c.toNat ≤ 57) ∨ (65 ≤ c.toNat ∧ c.toNat ≤ 70)
    ∨ (97 ≤ c.toNat ∧ c.toNat ≤ 102))

/-- The library function `isspace`: space, `\t`, `\n`, `\v`, `\f` and `\r`. -/
def isspace (c : Char) : Bool := decide (c.toNat = 32 ∨ (9 ≤ c.toNat ∧ c.toNat ≤ 13))

/-- The constant `LLONG_MAX`. -/
def LLONG_MAX : Int := 9223372036854775807

/-- The constant `LLONG_MIN`. -/
def LLONG_MIN : Int := -9223372036854775808

/-- The value of a sequence of decimal digits. -/
def digitsValue (ds : List Char) : Nat :=
  ds.foldl (fun acc d => 10 * acc + (d.toNat - 48)) 0

/-- The library operation `std::stringstream ss(str); ss >> bigint;` for a
`long long`: the value written to `bigint`, `none` when nothing is written.  Leading
white space is skipped; when no character is left after it the extraction stops
before it writes anything.  Otherwise an optional sign and the decimal digits that
follow are read; without a digit the value written is 0, and a value out of range
is replaced by `LLONG_MAX` or `LLONG_MIN`. -/
def extractLongLong (str : List Char) : Option Int :=
  let s1 := str.dropWhile isspace
  let neg : Bool := s1.head? == some '-'
  let s2 := if s1.head? == some '-' || s1.head? == some '+' then s1.tail else s1
  let ds := s2.takeWhile isdigit
  if s1 = [] then none
  else if ds = [] then some 0
  else if neg then
    some (if -(digitsValue ds : Int) < LLONG_MIN then LLONG_MIN else -(digitsValue ds : Int))
  else
    some (if (digitsValue ds : Int) > LLONG_MAX then LLONG_MAX else (digitsValue ds : Int))

/-! ## `sprintf` into a buffer of 1024 bytes -/

/-- The length of the arrays `char buffer[1024]` and `char buf[1024]`. -/
def bufferSize : Nat := 1024

/-- The statements `sprintf(buffer, format, ...); whyNot = buffer;` on a buffer of
1024 bytes, where `text` is what the format gives with its arguments: the content of
`whyNot` after them, `none` when the text and its terminating NUL character do not
fit in the buffer, which `sprintf` then overruns. -/
def sprintfBuffer (text : String) : Option String :=
  if text.length < bufferSize then some text else none

/-- The rejecting exit `sprintf(buffer, format, ...); whyNot = buffer; return false;`. -/
def rejectWith (text : String) : Option (Bool × String) :=
  match sprintfBuffer text with
  | some whyNot => some (false, whyNot)
  | none => none

/-! ## `HexStringValidator` -/

namespace HexStringValidator

/-- The member function `HexStringValidator::validate`: the returned flag and the content
of `whyNot` after the call. -/
def validate {Properties : Type} (keyname keyval : String) (_container : Properties)
    (_whyNot : String) : Bool × String :=
  let whyNot := ""
  if keyval = "0" then (true, whyNot)
  else if keyval.length % 2 ≠ 0 then
    (false, "Can't set " ++ keyname ++ " to " ++ keyval
      ++ ". Value is not a valid hex string (not whole bytes)")
  else if !(keyval.data.all isxdigit) then
    (false, "Can't set " ++ keyname ++ " to " ++ keyval ++ ". Value is not a valid hex string")
  else (true, whyNot)

end HexStringValidator

/-! ## `NumericValidator<T>` -/

/-- The data of `NumericValidator<T>`: `sizeofT` is `sizeof(T)`. -/
structure NumericValidator where
  sizeofT : Nat
  _isSigned : Bool
  deriving DecidableEq, Repr

namespace NumericValidator

/-- The scanning loop of `NumericValidator<T>::validate` from index `i` on, over the
characters `str[i], str[i+1], ...` that are left: the value of `i` when the loop ends. -/
def scanFrom (isHex : Bool) : List Char → Nat → Bool → Nat
  | [], i, _ => i
  | ch :: rest, i, checkForDecimal =>
    if isHex && !isxdigit ch then i
    else if !isHex && isalpha ch then i
    else if checkForDecimal then
      (if ch ≠ '0' then i else scanFrom isHex rest (i + 1) checkForDecimal)
    else if ch = '.' then scanFrom isHex rest (i + 1) true
    else scanFrom isHex rest (i + 1) checkForDecimal

/-- The test `isHex` of `NumericValidator<T>::validate` on the C string `str`. -/
def isHexLiteral (str : List Char) : Bool :=
  decide (str.length > 2) && str[0]? == some '0' && (str[1]? == some 'x' || str[1]? == some 'X')

/-- The text of the format `"Can't set %s to an empty value"`. -/
def emptyReason (keyname : String) : String :=
  "Can't set " ++ cStr keyname ++ " to an empty value"

/-- The text of the format `"Can't set %s to %s. %s cannot have a value over %s"`. -/
def boundReason (keyname keyval typeName bound : String) : String :=
  "Can't set " ++ cStr keyname ++ " to " ++ cStr keyval ++ ". " ++ cStr typeName
    ++ " cannot have a value over " ++ cStr bound

/-- The text of the format
`"Can't set %s to %s. Must be a non-decimal number without alphabetic characters."`. -/
def scanReason (keyname keyval : String) : String :=
  "Can't set " ++ cStr keyname ++ " to " ++ cStr keyval
    ++ ". Must be a non-decimal number without alphabetic characters."

/-- The member function `NumericValidator<T>::validate` (the branch compiled without
`PALLADIUM`): the returned flag and the content of `whyNot` after the call; `none` when
a `sprintf` overruns `buffer`, or when a bound test reads `bigint` and the extraction
wrote nothing to it. -/
def validate {Properties : Type} (v : NumericValidator) (keyname keyval : String)
    (_container : Properties) (_whyNot : String) : Option (Bool × String) :=
  let whyNot := ""
  let str := (cStr keyval).data
  let size := str.length
  let isHex := isHexLiteral str
  let i := scanFrom isHex (str.drop (if isHex then 2 else 0)) (if isHex then 2 else 0) false
  if keyval = "" then rejectWith (emptyReason keyname)
  else if i = size then
    match extractLongLong str with
    | none =>
      -- `bigint` is not initialised: the first test whose width matches reads it
      if v.sizeofT = 1 ∨ v.sizeofT = 2 ∨ v.sizeofT = 4 then none else some (true, whyNot)
    | some bigint =>
      if v.sizeofT = 1 ∧ (if v._isSigned then bigint > 127 else bigint > 255) then
        rejectWith (boundReason keyname keyval
          (if v._isSigned then "A char" else "An unsigned char")
          (if v._isSigned then "127" else "255"))
      else if v.sizeofT = 2 ∧ (if v._isSigned then bigint > 32767 else bigint > 65535) then
        rejectWith (boundReason keyname keyval
          (if v._isSigned then "A short" else "An unsigned short")
          (if v._isSigned then "32767" else "65535"))
      else if v.sizeofT = 4
          ∧ (if v._isSigned then bigint > 2147483647 else bigint > 4294967295) then
        rejectWith (boundReason keyname keyval
          (if v._isSigned then "A long" else "An unsigned long")
          (if v._isSigned then "2147483647" else "4294967295"))
      else some (true, whyNot)
  else rejectWith (scanReason keyname keyval)

end NumericValidator

/-! ## `RangeValidator<T>` -/

/-- The function `checkAlpha` on a C string. -/
def checkAlpha : List Char → Bool
  | [] => false
  | ch :: rest => if isalpha ch then true else checkAlpha rest

/-- The loop of `checkExpAlpha` over the characters that are left, with the current
value of `expAlphaFound`; `rest ≠ []` is the test `i < size-1`. -/
def checkExpAlphaFrom : List Char → Bool → Bool
  | [], expAlphaFound => expAlphaFound
  | ch :: rest, expAlphaFound =>
    if isalpha ch then
      if expAlphaFound then false
      else if decide (rest ≠ []) && (ch == 'E' || ch == 'e')
          && (rest.head? == some '-' || rest.head? == some '+') then
        checkExpAlphaFrom rest true
      else false
    else checkExpAlphaFrom rest expAlphaFound

/-- The function `checkExpAlpha` on a C string. -/
def checkExpAlpha (str : List Char) : Bool := checkExpAlphaFrom str false

namespace RangeValidator

/-- The text of the format
`"Can't set %s to %s. Value contains illegal alphabetic characters"`. -/
def alphaReason (keyname keyval : String) : String :=
  "Can't set " ++ cStr keyname ++ " to " ++ cStr keyval
    ++ ". Value contains illegal alphabetic characters"

/-- The text of the format `"Can't set %s to an empty value"`. -/
def emptyReason (keyname : String) : String :=
  "Can't set " ++ cStr keyname ++ " to an empty value"

/-- The member function `RangeValidator<T>::validate`: the returned flag and the content of
`whyNot` after the call; `none` when a `sprintf` overruns `buf`.  `rangeTest` stands for
the statements after the test for an empty value (decoding, `isInRange`, a `sprintf`
into `buffer` and the default validator of `T`), whose types `T` and `Range<T>` are
declared outside these sources. -/
def validate {Properties : Type}
    (rangeTest : String → String → Properties → Option (Bool × String))
    (keyname keyval : String) (container : Properties) (_whyNot : String) :
    Option (Bool × String) :=
  if checkAlpha (cStr keyval).data && !checkExpAlpha (cStr keyval).data then
    rejectWith (alphaReason keyname keyval)
  else if keyval = "" then rejectWith (emptyReason keyname)
  else rangeTest keyname keyval container

end RangeValidator

/-! ## `BooleanValidator` -/

/-- The data members of `BooleanValidator`, inherited from `DiscreteItemsValidator`. -/
structure BooleanValidator where
  _itemsList : List String
  _numOfPossibleVals : Int
  deriving DecidableEq, Repr

namespace BooleanValidator

/-- The constructor `BooleanValidator(pos, neg)`, on the empty list of items that the
base class starts with. -/
def new (pos neg : String) : BooleanValidator :=
  { _itemsList := ([] ++ [pos]) ++ [neg], _numOfPossibleVals := 2 }

/-- The text of the format `"Can't set %s to %s. Value must be %s or %s"`. -/
def reason (keyname keyval item0 item1 : String) : String :=
  "Can't set " ++ cStr keyname ++ " to " ++ cStr keyval ++ ". Value must be " ++ cStr item0
    ++ " or " ++ cStr item1

/-- The member function `BooleanValidator::validate`: the returned flag and the content of
`whyNot` after the call; `none` when `_itemsList[0]` or `_itemsList[1]` is read and does
not exist, or when `sprintf` overruns `buffer`. -/
def validate {Properties : Type} (v : BooleanValidator) (keyname keyval : String)
    (_container : Properties) (_whyNot : String) : Option (Bool × String) :=
  let whyNot := ""
  match v._itemsList[0]? with
  | none => none
  | some item0 =>
    if item0 = keyval then some (true, whyNot)
    else
      match v._itemsList[1]? with
      | none => none
      | some item1 =>
        if item1 = keyval then some (true, whyNot)
        else rejectWith (reason keyname keyval item0 item1)

end BooleanValidator

/-- The constructor `TrueFalseValidator()`, that is `BooleanValidator("true", "false")`. -/
def TrueFalseValidator : BooleanValidator := BooleanValidator.new "true" "false"

/-! ## `ExactNamesValidator`, `CharacterValidator`, `FiniteRangeValidator`, `FileValidator` -/

/-- The data members of `ExactNamesValidator`; the first two are inherited from
`DiscreteItemsValidator`. -/
structure ExactNamesValidator where
  _itemsList : List String
  _numOfPossibleVals : Int
  _InTheRange : String
  deriving DecidableEq, Repr

namespace ExactNamesValidator

/-- The loop of the constructor over `aNames[index], aNames[index + 1], ...`. -/
def ctorLoop : List String → Nat → ExactNamesValidator → ExactNamesValidator
  | [], _, v => v
  | name :: rest, index, v =>
    ctorLoop rest (index + 1)
      { v with
        _InTheRange := (v._InTheRange ++ (if index ≠ 0 then " " else "<")) ++ name
        _itemsList := v._itemsList ++ [name] }

/-- The constructor `ExactNamesValidator(aNames, len)`; the list `aNames` holds the
first `len` elements of the array, and the base class starts with no items. -/
def new (aNames : List String) : ExactNamesValidator :=
  let v0 : ExactNamesValidator :=
    { _itemsList := [], _numOfPossibleVals := 0,
      _InTheRange := ". value must be in the range of " }
  let v1 := ctorLoop aNames 0 v0
  { v1 with _InTheRange := v1._InTheRange ++ ">", _numOfPossibleVals := aNames.length }

/-- The loop of `ExactNamesValidator::validate` over the items that are left: whether one
of them equals `val`. -/
def findName : List String → String → Bool
  | [], _ => false
  | pName :: rest, val => if pName = val then true else findName rest val

/-- The member function `ExactNamesValidator::validate`: the returned flag and the content
of `whyNot` after the call. -/
def validate {Properties : Type} (v : ExactNamesValidator) (key val : String)
    (_container : Properties) (_whyNot : String) : Bool × String :=
  if findName v._itemsList val then
    let whyNot := ""
    (true, whyNot)
  else
    let whyNot := "can't set " ++ key ++ " to " ++ val ++ v._InTheRange
    (false, whyNot)

end ExactNamesValidator

namespace CharacterValidator

/-- The text of the format `"Can't set %s to %s. Value must be 1 character long"`. -/
def lengthReason (keyname keyval : String) : String :=
  "Can't set " ++ cStr keyname ++ " to " ++ cStr keyval ++ ". Value must be 1 character long"

/-- The member function `CharacterValidator::validate`: the returned flag and the content of
`whyNot` after the call; `none` when `sprintf` overruns `buffer`. -/
def validate {Properties : Type} (keyname keyval : String) (_container : Properties)
    (_whyNot : String) : Option (Bool × String) :=
  let whyNot := ""
  let str := (cStr keyval).data
  let size := str.length
  if size > 1 ∨ size = 0 then rejectWith (lengthReason keyname keyval)
  else some (true, whyNot)

end CharacterValidator

/-- The data members of `FiniteRangeValidator`; the first two are inherited from
`DiscreteItemsValidator`. -/
structure FiniteRangeValidator where
  _itemsList : List String
  _numOfPossibleVals : Int
  _validRange : String
  _dummyFiniteRangeValidatorFlag : Bool
  deriving DecidableEq, Repr

namespace FiniteRangeValidator

/-- The member function `FiniteRangeValidator::validate`: the returned flag and the content
of `whyNot` after the call. -/
def validate {Properties : Type} (v : FiniteRangeValidator) (keyname keyval : String)
    (_container : Properties) (_whyNot : String) : Bool × String :=
  let whyNot := ""
  if v._dummyFiniteRangeValidatorFlag then (true, whyNot)
  else
    let found : Bool := decide (keyval ∈ v._itemsList)
    if !found then
      let out := "can't set " ++ keyname ++ " to " ++ keyval
        ++ ". value must be in the range of " ++ v._validRange
      (found, cStr out)
    else (found, whyNot)

end FiniteRangeValidator

/-- The data members of `FileValidator`; the first two are inherited from
`DiscreteItemsValidator`. -/
structure FileValidator where
  _itemsList : List String
  _numOfPossibleVals : Int
  _validRange : String
  _allFilesFlag : Bool
  deriving DecidableEq, Repr

namespace FileValidator

/-- The member function `FileValidator::validate`: the returned flag and the content of
`whyNot` after the call. -/
def validate {Properties : Type} (v : FileValidator) (keyname keyval : String)
    (_container : Properties) (_whyNot : String) : Bool × String :=
  let whyNot := ""
  if v._allFilesFlag then (true, whyNot)
  else
    let found : Bool := decide (keyval ∈ v._itemsList)
    if !found then
      let out := "can't set " ++ keyname ++ " to " ++ keyval
        ++ ". value must be in the range of " ++ v._validRange
      (found, cStr out)
    else (found, whyNot)

end FileValidator

/-! ## `Property` -/

/-- The enumeration `VerificationStatus_e`. -/
inductive VerificationStatus_e where
  | E_VERIFICATION_SUCCEEDED
  | E_VERIFICATION_FAILED
  | E_VERIFICATION_INACTIVE
  | E_VERIFICATION_MANUALLY_DEACTIVATED
  deriving DecidableEq, Repr

/-- The data members of `class Property`; a pointer is an optional address, `none`
being `nullptr`. -/
structure Property where
  _container : Option Nat
  name : String
  desc : String
  flags : Nat
  loaded : Nat
  modified : Bool
  tboolshit : Bool
  mandatory : Bool
  _ownsValidator : Bool
  data : Option Nat
  _validator : Option Nat
  deriving DecidableEq, Repr

namespace Property

/-- The constructor of `Property` from a validator object `validator_`; `newValidator`
is the address returned by `new VALIDATOR(validator_)`. -/
def newFromObject (container_ : Option Nat) (name_ desc_ : String) (flags_ : Nat)
    (tboolshit_ : Bool) (data_ : Option Nat) (newValidator : Nat) (mandatory_ : Bool) :
    Property :=
  { _container := container_, name := name_, desc := desc_, flags := flags_, loaded := 0,
    modified := false, tboolshit := tboolshit_, mandatory := mandatory_,
    _ownsValidator := true, data := data_, _validator := some newValidator }

/-- The constructor of `Property` from a validator pointer `validator_`. -/
def newFromPointer (container_ : Option Nat) (name_ desc_ : String) (flags_ : Nat)
    (tboolshit_ : Bool) (data_ : Option Nat) (validator_ : Option Nat) (mandatory_ : Bool) :
    Property :=
  { _container := container_, name := name_, desc := desc_, flags := flags_, loaded := 0,
    modified := false, tboolshit := tboolshit_, mandatory := mandatory_,
    _ownsValidator := false, data := data_, _validator := validator_ }

/-- The constructor of `Property` without a validator. -/
def newWithoutValidator (container_ : Option Nat) (name_ desc_ : String) (flags_ : Nat)
    (tboolshit_ : Bool) (mandatory_ : Bool) : Property :=
  { _container := container_, name := name_, desc := desc_, flags := flags_, loaded := 0,
    modified := false, tboolshit := tboolshit_, mandatory := mandatory_,
    _ownsValidator := false, data := none, _validator := none }

/-- The member function template `Property::setValidator(const VALIDATOR&)`: the property
after the call and the pointer given to `delete`, if any; `newValidator` is the
address returned by `new VALIDATOR(validator)`. -/
def setValidatorObject (p : Property) (newValidator : Nat) : Property × Option Nat :=
  ({ p with _ownsValidator := true, _validator := some newValidator },
   if p._ownsValidator then p._validator else none)

/-- The member function `Property::setValidator(const Validator*)`: the property after the
call and the pointer given to `delete`, if any. -/
def setValidatorPointer (p : Property) (validator : Option Nat) : Property × Option Nat :=
  ({ p with _ownsValidator := false, _validator := validator },
   if p._ownsValidator then p._validator else none)

/-- The member function `Property::getValidator(bool* owns)`: the returned pointer and the
content of `*owns` after the call (`none` when `owns` is `nullptr`). -/
def getValidator (p : Property) (owns : Option Bool) : Option Nat × Option Bool :=
  (p._validator,
   match owns with
   | some _ => some p._ownsValidator
   | none => none)

/-- The member function `Property::requiresVerification`; `getVerification` is the result of
the pure virtual function of that name. -/
def requiresVerification (getVerification : Option Nat) : Bool :=
  decide (none ≠ getVerification)

/-- The member function `Property::verifyValIfRequired`; `getVerification` and `verifyVal`
are the pure virtual functions of those names, and `verifyVal` is called only when
verification is required. -/
def verifyValIfRequired (getVerification : Option Nat)
    (verifyVal : Unit → VerificationStatus_e) : Bool :=
  if requiresVerification getVerification then
    decide (VerificationStatus_e.E_VERIFICATION_SUCCEEDED = verifyVal ())
  else true

/-- The enumerator `Property::NOT_LOADED`. -/
def NOT_LOADED : Nat := 0

end Property

/-- The member function `ProperT<T, DefaultVerifier>::operator()(bool* hasValue) const`
(compiled without `CHECK_LOADED_PROPERTY`): the returned value, the content of
`*hasValue` after the call (`none` when `hasValue` is `nullptr`), and the property
after the call.  `verifyAuto` of `DefaultVerifier` does nothing. -/
def ProperT.call {T : Type} (p : ProperT T) (hasValue : Option Bool) :
    (T × Option Bool) × ProperT T :=
  let hasValue1 : Option Bool :=
    match hasValue with
    | some _ =>
      if Property.NOT_LOADED ≠ p.loaded ∨ true = p.modified then some true else some false
    | none => none
  ((p._val, hasValue1), p)

/-- The member function `RWProperT<bool>::operator()(const int& val)`: the result of
`setProperty` and the container after the call.  `setProperty` is
`Properties::setProperty<bool>` with its default flags, whose body is defined outside
these sources. -/
def RWProperTBool.callInt {Properties : Type}
    (setProperty : Properties → String → Bool → Bool × Properties) (container : Properties)
    (p : ProperT Bool) (val : Int) : Bool × Properties :=
  let boolVal := true
  let boolVal := if val ≤ 0 then false else boolVal
  setProperty container p.name boolVal

/-- The member function template `Properties::getProperty<T>` (compiled without
`CHECK_LOADED_PROPERTY`): the returned value, the content of `*pexist` after the call
(`none` when `pexist` is `nullptr`) and the lines written to `stderr`.  `_getProperty`
is the member function of that name, defined outside these sources (`none` is
`nullptr`); `atotT` is the decoder of `T`; `this` is the registry. -/
def Properties.getProperty {Properties T : Type} (_getProperty : Properties → String → Option String)
    (atotT : T → String → T × List String) (this : Properties) (var : String) (defaultVal : T)
    (pexist : Option Bool)
    (validator : Option (String → String → Properties → String → Bool × String)) :
    (T × Option Bool) × List String :=
  let valString := _getProperty this var
  let pexist1 : Option Bool :=
    match pexist with
    | some _ => some valString.isSome
    | none => none
  let rejected : Bool :=
    match validator, valString with
    | some validate, some vs => !(validate var vs this "").1
    | _, _ => false
  if rejected then ((defaultVal, pexist1), [])
  else
    match valString with
    | some vs => (((atotT defaultVal vs).1, pexist1), (atotT defaultVal vs).2)
    | none => ((defaultVal, pexist1), [])

/-! ## `AlwaysTrueValidator` -/

/-- The data members of `AlwaysTrueValidator`, inherited from `DiscreteItemsValidator`. -/
structure AlwaysTrueValidator where
  _itemsList : List String
  _numOfPossibleVals : Int
  deriving DecidableEq, Repr

namespace AlwaysTrueValidator

/-- The constructor `AlwaysTrueValidator()`, on the empty list of items that the base
class starts with. -/
def new : AlwaysTrueValidator :=
  { _itemsList := [], _numOfPossibleVals := -1 }

/-- The member function `AlwaysTrueValidator::validate`: the returned flag and the content
of `whyNot` after the call. -/
def validate {Properties : Type} (_v : AlwaysTrueValidator) (_keyname _keyval : String)
    (_container : Properties) (whyNot : String) : Bool × String :=
  (true, whyNot)

end AlwaysTrueValidator

/-! ## `DefaultVerifier` and the verification functions of `ProperT` -/

namespace DefaultVerifier

/-- The member function `DefaultVerifier::getLastStatus`. -/
def getLastStatus : VerificationStatus_e := VerificationStatus_e.E_VERIFICATION_INACTIVE

/-- The member function `DefaultVerifier::getPropVerification`: `nullptr`. -/
def getPropVerification : Option Nat := none

/-- The member function template `DefaultVerifier::verify`. -/
def verify {T : Type} (_val : T) : VerificationStatus_e :=
  VerificationStatus_e.E_VERIFICATION_INACTIVE

/-- The member function template `DefaultVerifier::verifyAuto`. -/
def verifyAuto {T : Type} (_val : T) : VerificationStatus_e :=
  VerificationStatus_e.E_VERIFICATION_INACTIVE

end DefaultVerifier

namespace ProperT

/-- The member function `ProperT<T, DefaultVerifier>::getVerification`. -/
def getVerification {T : Type} (_p : ProperT T) : Option Nat :=
  DefaultVerifier.getPropVerification

/-- The member function `ProperT<T, DefaultVerifier>::getLastVerificationStatus`. -/
def getLastVerificationStatus {T : Type} (_p : ProperT T) : VerificationStatus_e :=
  DefaultVerifier.getLastStatus

/-- The member function `ProperT<T, DefaultVerifier>::verifyVal`. -/
def verifyVal {T : Type} (p : ProperT T) : VerificationStatus_e :=
  DefaultVerifier.verify p._val

/-- The member function `Property::requiresVerification` on a `ProperT<T, DefaultVerifier>`. -/
def requiresVerification {T : Type} (p : ProperT T) : Bool :=
  Property.requiresVerification p.getVerification

/-- The member function `Property::verifyValIfRequired` on a `ProperT<T, DefaultVerifier>`. -/
def verifyValIfRequired {T : Type} (p : ProperT T) : Bool :=
  Property.verifyValIfRequired p.getVerification (fun _ => p.verifyVal)

end ProperT

/-! ## The load protocol of `Properties`

The bodies of `Properties::load`, `Properties::_setProperty` and
`Properties::setRejected` are outside these sources (the header only declares
them), so the protocol is modelled from section 4.4 of the specification. -/

/-- Modelled from the spec: one registered property as the load protocol of
`Properties` sees it (the body of `Properties::load` is missing): its name, its
validator if any (a function of key, candidate and the string mirror of the owning
registry), its decoder, its typed value and its provenance. -/
structure LoadProperty (V : Type) where
  name : String
  validator : Option (String → String → List (String × String) → Bool × String)
  decode : V → String → V
  val : V
  loaded : Nat
  modified : Bool

/-- Modelled from the spec: the members of `Properties` that the load protocol reads
or writes (the body of `Properties::load` is missing): the registered properties in
declaration order, the string mirror `_map`, the values held before the most recent
modification, the rejected fields, the unknown fields, the aggregate of the sources
and the section name. -/
structure LoadRegistry (V : Type) where
  _properTies : List (LoadProperty V)
  _map : List (String × String)
  _modified : List (String × String)
  _rejectedFields : List (String × String)
  unknownFields : List (String × String)
  _loaded : Nat
  _name : String

/-- Modelled from the spec: a raw line after step 1 of the commit algorithm (the
splitting itself is done by helpers that the spec leaves out): blank, a section
header `[name]`, or a pair `key<sep>value`. -/
inductive LoadLine where
  | blank
  | sectionHeader (name : String)
  | pair (key value : String)
  deriving DecidableEq, Repr

namespace LoadRegistry

/-- Modelled from the spec: step 3 of the commit algorithm, the lookup of `key`
among the registered properties (the body of `Properties::findProperty` is missing). -/
def findProperty {V : Type} (r : LoadRegistry V) (key : String) : Option (LoadProperty V) :=
  r._properTies.find? (fun p => p.name == key)

/-- Modelled from the spec: the accepting branch of step 4 on the property named
`key` (the body of `Properties::_setProperty` is missing): decode into the typed
cell, OR the source bit into `loaded`, set `modified` if the new text differs from
the previous one. -/
def commitProperty {V : Type} (key value : String) (source : Nat) (previous : Option String)
    (p : LoadProperty V) : LoadProperty V :=
  if p.name = key then
    { p with
      val := p.decode p.val value
      loaded := p.loaded ||| source
      modified := if previous = some value then p.modified else true }
  else p

/-- Modelled from the spec: steps 3 and 4 of the commit algorithm for one pair (the
bodies of `Properties::_setProperty` and `Properties::setRejected` are missing): the
registry after the pair and whether the pair was committed.  An unknown key is
recorded and does not count against success; a rejected value is appended to
`_rejectedFields` and leaves the stored value unchanged; an accepted value is decoded
into the typed cell and written to `_map`. -/
def commitEntry {V : Type} (r : LoadRegistry V) (key value : String) (source : Nat) :
    LoadRegistry V × Bool :=
  match r.findProperty key with
  | none => ({ r with unknownFields := r.unknownFields ++ [(key, value)] }, true)
  | some p =>
    let accepted : Bool :=
      match p.validator with
      | some validate => (validate key value r._map).1
      | none => true
    if accepted then
      ({ r with
         _properTies := r._properTies.map (commitProperty key value source (mapFind r._map key))
         _modified :=
           match mapFind r._map key with
           | some old => if old = value then r._modified else mapAssign strLess r._modified key old
           | none => r._modified
         _map := mapAssign strLess r._map key value
         _loaded := r._loaded ||| source }, true)
    else
      ({ r with _rejectedFields := r._rejectedFields ++ [(key, value)] }, false)

/-- Modelled from the spec: steps 1 to 4 over the lines of an input (the body of
`Properties::load` is missing): the registry after the lines and whether every pair
of the active section was committed.  `current` is the current section, `filter` the
section asked for, if any. -/
def loadLines {V : Type} (source : Nat) (filter : Option String) :
    List LoadLine → String → LoadRegistry V → Bool → LoadRegistry V × Bool
  | [], _, r, ok => (r, ok)
  | LoadLine.blank :: rest, current, r, ok => loadLines source filter rest current r ok
  | LoadLine.sectionHeader name :: rest, _, r, ok => loadLines source filter rest name r ok
  | LoadLine.pair key value :: rest, current, r, ok =>
    if filter.isSome && filter != some current then loadLines source filter rest current r ok
    else
      loadLines source filter rest current (r.commitEntry key value source).1
        (ok && (r.commitEntry key value source).2)

/-- Modelled from the spec: `Properties::load` on the lines of an input (the body of
`Properties::load` is missing); content before the first header belongs to the
unnamed section, and the hooks `onLoaded` and `postLoaded` do nothing by default. -/
def load {V : Type} (r : LoadRegistry V) (lines : List LoadLine) (filter : Option String)
    (source : Nat) : LoadRegistry V × Bool :=
  loadLines source filter lines "" r true

/-- The member function `Properties::rejectedFields`, on the registry modelled from the
spec. -/
def rejectedFields {V : Type} (r : LoadRegistry V) : List (String × String) :=
  r._rejectedFields

end LoadRegistry

/-! ## `EnumDictionary::set` called by several threads -/

/-- The place of one thread in the body of `EnumDictionary::set`: before the
statements `new EnumDictionary()` and `init` (`build`), before a call of
`compare_exchange_strong` (`exchange`), before the test `dictionary != NULL` that
follows a failed exchange (`load`), before `delete newVal` (`discard`), returned
after a successful exchange (`installed`), returned after the `break`
(`discarded`). -/
inductive SetPc where
  | build
  | exchange
  | load
  | discard
  | installed
  | discarded
  deriving DecidableEq, Repr

/-- The local variables `expected` and `newVal` of one thread in
`EnumDictionary::set`, with its place in the body; `newVal` is `none` before `new`. -/
structure SetThread where
  pc : SetPc
  expected : Option Nat
  newVal : Option Nat
  deriving DecidableEq, Repr

/-- The state that the threads calling `EnumDictionary::set` on one slot share: the
slot `std::atomic<EnumDictionary*>`, the live `EnumDictionary` objects, the number of
objects that `new` has made so far (an object is named by its rank among them,
so that an object made at an address that `delete` freed is another object), the
threads, and the reads and writes of objects so far, each as the thread and the
object. -/
structure SetWorld where
  slot : Option Nat
  heap : Nat → Option EnumDictionary
  next : Nat
  threads : Nat → SetThread
  accesses : List (Nat × Nat)

namespace SetWorld

/-- The state before any thread has entered `EnumDictionary::set`: the slot is
`NULL`. -/
def start : SetWorld :=
  { slot := none, heap := fun _ => none, next := 0,
    threads := fun _ => { pc := SetPc.build, expected := none, newVal := none },
    accesses := [] }

/-- The threads after thread `i` has become `t`. -/
def setThread (w : SetWorld) (i : Nat) (t : SetThread) : Nat → SetThread :=
  fun j => if j = i then t else w.threads j

/-- One step of thread `i` in `EnumDictionary::set(dictionary, intToStr, freeze)`,
where `args i` is the mapping and the flag that thread `i` passes.  The steps are
the thread-local construction and `init` of the candidate, one
`compare_exchange_strong`, one load of the slot for the test `dictionary != NULL`,
and the thread-local `delete newVal`; a thread that has returned does nothing. -/
def step (args : Nat → IntToStr × Bool) (w : SetWorld) (i : Nat) : SetWorld :=
  match (w.threads i).pc with
  | SetPc.build =>
    { slot := w.slot
      heap := fun a =>
        if a = w.next then some (EnumDictionary.new.init (args i).1 (args i).2) else w.heap a
      next := w.next + 1
      threads :=
        w.setThread i { pc := SetPc.exchange, expected := none, newVal := some w.next }
      accesses := w.accesses ++ [(i, w.next)] }
  | SetPc.exchange =>
    if w.slot = (w.threads i).expected then
      { w with
        slot := (w.threads i).newVal
        threads := w.setThread i { w.threads i with pc := SetPc.installed } }
    else
      { w with
        threads := w.setThread i { w.threads i with pc := SetPc.load, expected := w.slot } }
  | SetPc.load =>
    if w.slot ≠ none then
      { w with threads := w.setThread i { w.threads i with pc := SetPc.discard } }
    else
      { w with
        threads := w.setThread i { w.threads i with pc := SetPc.exchange, expected := none } }
  | SetPc.discard =>
    match (w.threads i).newVal with
    | some a =>
      { w with
        heap := fun b => if b = a then none else w.heap b
        threads := w.setThread i { w.threads i with pc := SetPc.discarded }
        accesses := w.accesses ++ [(i, a)] }
    | none => { w with threads := w.setThread i { w.threads i with pc := SetPc.discarded } }
  | SetPc.installed => w
  | SetPc.discarded => w

/-- The state after the steps of a schedule, which names the thread of each step in
turn. -/
def run (args : Nat → IntToStr × Bool) (w : SetWorld) (schedule : List Nat) : SetWorld :=
  schedule.foldl (step args) w

end SetWorld

/-! ## Specification predicates -/

/-- The name-to-code map `s` is contained in the inverse of the code-to-name map
`i`, and every name of `i` is a key of `s`. -/
def Linked (i : IntToStr) (s : StrToInt) : Prop :=
  (∀ n c, mapFind s n = some c → mapFind i c = some n)
  ∧ (∀ c n, mapFind i c = some n → ∃ c', mapFind s n = some c')

/-- No two codes of the code-to-name map `i` carry the same name. -/
def NamesDistinct (i : IntToStr) : Prop :=
  ∀ c1 c2 n, mapFind i c1 = some n → mapFind i c2 = some n → c1 = c2

/-- No pair of the mapping `m` has the code `INVALID_VAL` or the name
`INVALID_STR_VAL`. -/
def NoSentinel (m : IntToStr) : Prop :=
  ∀ p ∈ m, p.1 ≠ INVALID_VAL ∧ p.2 ≠ INVALID_STR_VAL

/-- The mapping passed by a call, if any, has no sentinel. -/
def CallNoSentinel : EnumDictionary.Call → Prop
  | EnumDictionary.Call.append m _ => NoSentinel m
  | EnumDictionary.Call.reset => True

/-- No entry of the dictionary (snapshot, code-to-name map, name-to-code map) has the
code `INVALID_VAL` or the name `INVALID_STR_VAL`. -/
def SentinelFree (d : EnumDictionary) : Prop :=
  NoSentinel d._startIntToStr ∧ NoSentinel d._intToStr
  ∧ ∀ p ∈ d._strToInt, p.2 ≠ INVALID_VAL ∧ p.1 ≠ INVALID_STR_VAL

/-- The hexadecimal digits. -/
def hexDigitChars : List Char := "0123456789abcdefABCDEF".data

/-- The value of `i` at the end of the scanning loop of `NumericValidator<T>::validate`
on the C string `str`. -/
def NumericValidator.scanEnd (str : List Char) : Nat :=
  NumericValidator.scanFrom (NumericValidator.isHexLiteral str)
    (str.drop (if NumericValidator.isHexLiteral str then 2 else 0))
    (if NumericValidator.isHexLiteral str then 2 else 0) false

/-- The three bound tests of `NumericValidator<T>::validate` on the extracted value. -/
def NumericValidator.overBound (v : NumericValidator) (bigint : Int) : Prop :=
  (v.sizeofT = 1 ∧ (if v._isSigned then bigint > 127 else bigint > 255))
  ∨ (v.sizeofT = 2 ∧ (if v._isSigned then bigint > 32767 else bigint > 65535))
  ∨ (v.sizeofT = 4 ∧ (if v._isSigned then bigint > 2147483647 else bigint > 4294967295))

/-- The maximum that the claim gives for a byte width and a sign setting; `none` when
the width has no bound. -/
def numericBound (sizeofT : Nat) (isSigned : Bool) : Option Nat :=
  if sizeofT = 1 then some (if isSigned then 127 else 255)
  else if sizeofT = 2 then some (if isSigned then 32767 else 65535)
  else if sizeofT = 4 then some (if isSigned then 2147483647 else 4294967295)
  else none

/-- The C string `str` is longer than two characters and starts with `0x` or `0X`. -/
def HexPrefixed (str : List Char) : Prop :=
  str.length > 2 ∧ (str.take 2 = ['0', 'x'] ∨ str.take 2 = ['0', 'X'])

/-- The C string `str` has exactly one alphabetic character, that character is `e` or
`E`, and the character right after it is `+` or `-`. -/
def ExpMarkerOnly (str : List Char) : Prop :=
  ∃ pre c n post, str = pre ++ c :: n :: post
    ∧ (∀ x ∈ pre, isalpha x = false) ∧ (c = 'e' ∨ c = 'E') ∧ (n = '+' ∨ n = '-')
    ∧ (∀ x ∈ post, isalpha x = false)

/-- The string starts with a character that is not NUL, so its C string is not empty. -/
def StartsVisible (a : String) : Prop :=
  ∃ c t, a.data = c :: t ∧ c ≠ Char.ofNat 0

/-- The code of the last pair of `L` whose name is `n`, if any. -/
def lastWith : IntToStr → String → Option Int
  | [], _ => none
  | (c, x) :: t, n =>
    match lastWith t n with
    | some c' => some c'
    | none => if x = n then some c else none

/-- Every character after the first `.` of `l` is the digit `0`. -/
def ZerosAfterPoint (l : List Char) : Prop :=
  ∀ c ∈ (l.dropWhile (fun ch => ch ≠ '.')).drop 1, c = '0'

/-- The text fits, with its terminating NUL character, in a buffer of 1024 bytes. -/
def FitsBuffer (text : String) : Prop := text.length < bufferSize

instance (text : String) : Decidable (FitsBuffer text) := by
  unfold FitsBuffer; infer_instance

/-- The reason that `NumericValidator<T>::validate` formats when the extracted value is
over the bound of the byte width of `T`. -/
def NumericValidator.overBoundReason (v : NumericValidator) (keyname keyval : String) :
    String :=
  if v.sizeofT = 1 then
    NumericValidator.boundReason keyname keyval
      (if v._isSigned then "A char" else "An unsigned char")
      (if v._isSigned then "127" else "255")
  else if v.sizeofT = 2 then
    NumericValidator.boundReason keyname keyval
      (if v._isSigned then "A short" else "An unsigned short")
      (if v._isSigned then "32767" else "65535")
  else
    NumericValidator.boundReason keyname keyval
      (if v._isSigned then "A long" else "An unsigned long")
      (if v._isSigned then "2147483647" else "4294967295")

/-- A text of `n` copies of the character `c`. -/
def repeated (n : Nat) (c : Char) : String := String.mk (List.replicate n c)

/-- The text `3.` followed by 1100 copies of the digit `5`. -/
def longDecimal : String := String.mk ('3' :: '.' :: List.replicate 1100 '5')

/-- The number of steps that a thread at this place of `EnumDictionary::set` has ahead
of it, at most. -/
def SetPc.stepsLeft : SetPc → Nat
  | SetPc.build => 4
  | SetPc.exchange => 3
  | SetPc.load => 2
  | SetPc.discard => 1
  | SetPc.installed => 0
  | SetPc.discarded => 0

/-- The invariant of the threads that run `EnumDictionary::set` on a slot that was
`NULL` at the start. -/
structure SetWorld.Inv (args : Nat → IntToStr × Bool) (w : SetWorld) : Prop where
  build_newVal : ∀ i, (w.threads i).pc = SetPc.build ↔ (w.threads i).newVal = none
  lt_next : ∀ i a, (w.threads i).newVal = some a → a < w.next
  distinct : ∀ i j a, (w.threads i).newVal = some a → (w.threads j).newVal = some a → i = j
  exchange_expected : ∀ i, (w.threads i).pc = SetPc.exchange → (w.threads i).expected = none
  empty_slot : w.slot = none →
    ∀ i, (w.threads i).pc = SetPc.build ∨ (w.threads i).pc = SetPc.exchange
  installed_slot : ∀ i, (w.threads i).pc = SetPc.installed → w.slot = (w.threads i).newVal
  slot_installed : ∀ a, w.slot = some a →
    ∃ i, (w.threads i).pc = SetPc.installed ∧ (w.threads i).newVal = some a
  accesses_owner : ∀ p ∈ w.accesses, (w.threads p.1).newVal = some p.2
  live : ∀ i a, (w.threads i).newVal = some a → (w.threads i).pc ≠ SetPc.discarded →
    w.heap a = some (EnumDictionary.new.init (args i).1 (args i).2)
  dead : ∀ i a, (w.threads i).newVal = some a → (w.threads i).pc = SetPc.discarded →
    w.heap a = none ∧ (i, a) ∈ w.accesses

/-- The current section after the lines `lines`, when it was `current` before them. -/
def LoadRegistry.sectionAfter : List LoadLine → String → String
  | [], current => current
  | LoadLine.blank :: rest, current => LoadRegistry.sectionAfter rest current
  | LoadLine.sectionHeader name :: rest, _ => LoadRegistry.sectionAfter rest name
  | LoadLine.pair _ _ :: rest, current => LoadRegistry.sectionAfter rest current

/-- The registry `rs` still has the property `p` under `key`, the mirror entry and
the rejected fields of `key` that `r` has, and each of its properties has the name
and the validator of a property of `r`. -/
def LoadRegistry.Keeps {V : Type} (r : LoadRegistry V) (p : LoadProperty V) (key : String)
    (rs : LoadRegistry V) : Prop :=
  rs.findProperty key = some p
  ∧ mapFind rs._map key = mapFind r._map key
  ∧ rs._rejectedFields.filter (fun e => decide (e.1 = key))
      = r._rejectedFields.filter (fun e => decide (e.1 = key))
  ∧ ∀ q ∈ rs._properTies, ∃ q0 ∈ r._properTies, q0.name = q.name ∧ q0.validator = q.validator

/-- Every pair of `lines` has a value that the validator of each property of `r` with
the name of its key accepts, whatever the string mirror is. -/
def LoadRegistry.AcceptsPairs {V : Type} (r : LoadRegistry V) (lines : List LoadLine) : Prop :=
  ∀ k v, LoadLine.pair k v ∈ lines → ∀ q ∈ r._properTies, q.name = k →
    ∀ f, q.validator = some f → ∀ mirror, (f k v mirror).1 = true

/-- Modelled from the spec: the registry of the scenario of section 8 (the bodies of
the registration functions are missing), with values kept as their text: `retries`,
an integer from 0 to 5 with the default 1, and `mode`, one of `fast` and `slow` with
the default `fast`. -/
def LoadRegistry.scenario : LoadRegistry String :=
  { _properTies :=
      [{ name := "retries",
         validator := some (fun _ v _ => (decide (v ∈ ["0", "1", "2", "3", "4", "5"]), "")),
         decode := fun _ v => v, val := "1", loaded := 0, modified := false },
       { name := "mode",
         validator := some (fun _ v _ => (decide (v = "fast" ∨ v = "slow"), "")),
         decode := fun _ v => v, val := "fast", loaded := 0, modified := false }],
    _map := [], _modified := [], _rejectedFields := [], unknownFields := [], _loaded := 0,
    _name := "net" }

/-! ## Lemmas on `std::map` -/

theorem mapFind_mapAssign_self {κ ν : Type} [DecidableEq κ] (less : κ → κ → Bool)
    (m : List (κ × ν)) (k : κ) (v : ν) :
    mapFind (mapAssign less m k v) k = some v := by
  induction m with
  | nil => simp [mapAssign, mapFind]
  | cons p t ih =>
    obtain ⟨k', v'⟩ := p
    by_cases h1 : k = k'
    · simp [mapAssign, mapFind, h1]
    · by_cases h2 : less k k' = true
      · simp [mapAssign, mapFind, h1, h2]
      · simp [mapAssign, mapFind, h1, h2, ih]

theorem mapFind_mapAssign_ne {κ ν : Type} [DecidableEq κ] (less : κ → κ → Bool)
    (m : List (κ × ν)) (k j : κ) (v : ν) (hj : j ≠ k) :
    mapFind (mapAssign less m k v) j = mapFind m j := by
  induction m with
  | nil => simp [mapAssign, mapFind, hj]
  | cons p t ih =>
    obtain ⟨k', v'⟩ := p
    by_cases h1 : k = k'
    · subst h1
      simp [mapAssign, mapFind, hj]
    · by_cases h2 : less k k' = true
      · simp [mapAssign, mapFind, h1, h2, hj]
      · simp [mapAssign, mapFind, h1, h2, ih]

theorem mapFind_mapAssign {κ ν : Type} [DecidableEq κ] (less : κ → κ → Bool)
    (m : List (κ × ν)) (k j : κ) (v : ν) :
    mapFind (mapAssign less m k v) j = if j = k then some v else mapFind m j := by
  by_cases hj : j = k
  · subst hj
    simp [mapFind_mapAssign_self]
  · simp [hj, mapFind_mapAssign_ne less m k j v hj]

theorem mapFind_eq_none_iff {κ ν : Type} [DecidableEq κ] (m : List (κ × ν)) (k : κ) :
    mapFind m k = none ↔ ∀ v, (k, v) ∉ m := by
  induction m with
  | nil => simp [mapFind]
  | cons p t ih =>
    obtain ⟨k', v'⟩ := p
    by_cases h : k = k'
    · subst h
      simp only [mapFind, if_true]
      constructor
      · intro hn
        exact Option.noConfusion hn
      · intro hall
        exact absurd (List.mem_cons_self _ _) (hall v')
    · simp only [mapFind, h, if_false, ih, List.mem_cons, Prod.mk.injEq, false_and, false_or]

theorem mapFind_mem {κ ν : Type} [DecidableEq κ] (m : List (κ × ν)) (k : κ) (v : ν)
    (h : mapFind m k = some v) : (k, v) ∈ m := by
  induction m with
  | nil => simp [mapFind] at h
  | cons p t ih =>
    obtain ⟨k', v'⟩ := p
    by_cases hk : k = k'
    · subst hk
      simp only [mapFind, if_true, Option.some.injEq] at h
      simp [h]
    · simp only [mapFind, hk, if_false] at h
      exact List.mem_cons_of_mem _ (ih h)

theorem mapFind_of_mem {κ ν : Type} [DecidableEq κ] (m : List (κ × ν)) (k : κ) (v : ν)
    (hu : (m.map Prod.fst).Nodup) (h : (k, v) ∈ m) : mapFind m k = some v := by
  induction m with
  | nil => simp at h
  | cons p t ih =>
    obtain ⟨k', v'⟩ := p
    rw [List.map_cons, List.nodup_cons] at hu
    rcases List.mem_cons.1 h with e | ht
    · simp only [Prod.mk.injEq] at e
      simp [mapFind, e.1, e.2]
    · have hk : k ≠ k' := by
        intro e
        apply hu.1
        rw [← e]
        exact List.mem_map.2 ⟨(k, v), ht, rfl⟩
      simp only [mapFind, hk, if_false]
      exact ih hu.2 ht

theorem mapAssign_intLess_last (acc : IntToStr) (k : Int) (v : String)
    (h : ∀ q ∈ acc, q.1 < k) : mapAssign intLess acc k v = acc ++ [(k, v)] := by
  induction acc with
  | nil => rfl
  | cons p t ih =>
    obtain ⟨k', v'⟩ := p
    have hk : k' < k := h (k', v') (List.mem_cons_self _ _)
    have h1 : ¬ k = k' := by omega
    have h2 : ¬ k < k' := by omega
    have ih' := ih (fun q hq => h q (List.mem_cons_of_mem _ hq))
    simp [mapAssign, intLess, h1, h2, ih']

theorem foldl_mapAssign_sorted (L acc : IntToStr) (h : IsMap (acc ++ L)) :
    L.foldl (fun l it => mapAssign intLess l it.1 it.2) acc = acc ++ L := by
  induction L generalizing acc with
  | nil => simp
  | cons p t ih =>
    have hlt : ∀ q ∈ acc, q.1 < p.1 := by
      intro q hq
      unfold IsMap at h
      rw [List.pairwise_append] at h
      exact h.2.2 q hq p (List.mem_cons_self _ _)
    rw [List.foldl_cons, mapAssign_intLess_last acc p.1 p.2 hlt, ih]
    · simp
    · simpa using h

theorem foldl_field {σ α β : Type} (g : σ → α → σ) (proj : σ → β) (step : β → α → β)
    (hg : ∀ s a, proj (g s a) = step (proj s) a) (L : List α) (s : σ) :
    proj (L.foldl g s) = L.foldl step (proj s) := by
  induction L generalizing s with
  | nil => rfl
  | cons a t ih => rw [List.foldl_cons, List.foldl_cons, ih, hg]

theorem foldl_field_const {σ α β : Type} (g : σ → α → σ) (proj : σ → β)
    (hg : ∀ s a, proj (g s a) = proj s) (L : List α) (s : σ) :
    proj (L.foldl g s) = proj s := by
  induction L generalizing s with
  | nil => rfl
  | cons a t ih => rw [List.foldl_cons, ih, hg]

theorem linked_nil : Linked [] [] := by
  constructor
  · intro n c h
    simp [mapFind] at h
  · intro c n h
    simp [mapFind] at h

theorem linked_step (i : IntToStr) (s : StrToInt) (k : Int) (v : String)
    (hl : Linked i s) (hk : mapFind i k = none) :
    Linked (mapAssign intLess i k v) (mapAssign strLess s v k) := by
  obtain ⟨h1, h2⟩ := hl
  constructor
  · intro n c hn
    rw [mapFind_mapAssign] at hn
    rw [mapFind_mapAssign]
    by_cases hnv : n = v
    · simp only [hnv, if_true, Option.some.injEq] at hn
      simp [hn.symm, hnv]
    · simp only [hnv, if_false] at hn
      have hc := h1 n c hn
      have hck : c ≠ k := by
        intro e
        rw [e, hk] at hc
        exact Option.noConfusion hc
      simp [hck, hc]
  · intro c n hc
    rw [mapFind_mapAssign] at hc
    by_cases hck : c = k
    · simp only [hck, if_true, Option.some.injEq] at hc
      exact ⟨k, by rw [mapFind_mapAssign]; simp [hc.symm]⟩
    · simp only [hck, if_false] at hc
      obtain ⟨c', hc'⟩ := h2 c n hc
      by_cases hnv : n = v
      · exact ⟨k, by rw [mapFind_mapAssign]; simp [hnv]⟩
      · exact ⟨c', by rw [mapFind_mapAssign]; simp [hnv, hc']⟩

/-- Rebuilding both maps from a well-formed mapping whose keys are all absent
keeps them linked. -/
theorem linked_foldl (L : IntToStr) (i : IntToStr) (s : StrToInt) (hL : IsMap L)
    (habs : ∀ p ∈ L, mapFind i p.1 = none) (hl : Linked i s) :
    Linked (L.foldl (fun l it => mapAssign intLess l it.1 it.2) i)
      (L.foldl (fun l it => mapAssign strLess l it.2 it.1) s) := by
  induction L generalizing i s with
  | nil => exact hl
  | cons p t ih =>
    unfold IsMap at hL
    rw [List.pairwise_cons] at hL
    rw [List.foldl_cons, List.foldl_cons]
    apply ih
    · exact hL.2
    · intro q hq
      have hne : q.1 ≠ p.1 := by
        have := hL.1 q hq
        omega
      rw [mapFind_mapAssign_ne intLess i p.1 q.1 p.2 hne]
      exact habs q (List.mem_cons_of_mem _ hq)
    · exact linked_step i s p.1 p.2 hl (habs p (List.mem_cons_self _ _))

/-! ## Lemmas on `EnumDictionary::append` -/

namespace EnumDictionary

/-- The body of the loop of `append`. -/
theorem append_loop_intToStr (m : IntToStr) (s : EnumDictionary) (c : Int) :
    mapFind (m.foldl
      (fun s it =>
        if mapFind s._intToStr it.1 = none then
          { s with
            _intToStr := mapAssign intLess s._intToStr it.1 it.2
            _strToInt := mapAssign strLess s._strToInt it.2 it.1 }
        else s) s)._intToStr c
      = match mapFind s._intToStr c with
        | some n => some n
        | none => mapFind m c := by
  induction m generalizing s with
  | nil =>
    simp only [List.foldl_nil, mapFind]
    cases mapFind s._intToStr c <;> rfl
  | cons p t ih =>
    obtain ⟨k, v⟩ := p
    rw [List.foldl_cons, ih]
    by_cases hk : mapFind s._intToStr k = none
    · simp only [hk, if_true, mapFind_mapAssign]
      by_cases hc : c = k
      · subst hc
        simp [hk, mapFind]
      · simp only [hc, if_false, mapFind]
    · simp only [hk, if_false, mapFind]
      by_cases hc : c = k
      · subst hc
        cases h : mapFind s._intToStr c with
        | none => exact absurd h hk
        | some n => rfl
      · simp only [hc, if_false]

theorem append_loop_freeze (m : IntToStr) (s : EnumDictionary) :
    (m.foldl
      (fun s it =>
        if mapFind s._intToStr it.1 = none then
          { s with
            _intToStr := mapAssign intLess s._intToStr it.1 it.2
            _strToInt := mapAssign strLess s._strToInt it.2 it.1 }
        else s) s)._freeze = s._freeze
    ∧ (m.foldl
      (fun s it =>
        if mapFind s._intToStr it.1 = none then
          { s with
            _intToStr := mapAssign intLess s._intToStr it.1 it.2
            _strToInt := mapAssign strLess s._strToInt it.2 it.1 }
        else s) s)._startIntToStr = s._startIntToStr := by
  induction m generalizing s with
  | nil => simp
  | cons p t ih =>
    rw [List.foldl_cons]
    refine ⟨(ih _).1.trans ?_, (ih _).2.trans ?_⟩ <;> split <;> rfl

theorem init_intToStr (d : EnumDictionary) (m : IntToStr) (f : Bool) :
    (d.init m f)._intToStr = m.foldl (fun l it => mapAssign intLess l it.1 it.2) d._intToStr :=
  foldl_field _ (fun s : EnumDictionary => s._intToStr) _ (fun _ _ => rfl) m _

theorem init_startIntToStr (d : EnumDictionary) (m : IntToStr) (f : Bool) :
    (d.init m f)._startIntToStr
      = m.foldl (fun l it => mapAssign intLess l it.1 it.2) d._startIntToStr :=
  foldl_field _ (fun s : EnumDictionary => s._startIntToStr) _ (fun _ _ => rfl) m _

theorem init_strToInt (d : EnumDictionary) (m : IntToStr) (f : Bool) :
    (d.init m f)._strToInt = m.foldl (fun l it => mapAssign strLess l it.2 it.1) d._strToInt :=
  foldl_field _ (fun s : EnumDictionary => s._strToInt) _ (fun _ _ => rfl) m _

theorem init_freeze (d : EnumDictionary) (m : IntToStr) (f : Bool) :
    (d.init m f)._freeze = f := by
  unfold init
  exact foldl_field_const _ (fun s : EnumDictionary => s._freeze) (by intros; rfl) _ _

theorem reset_intToStr (d : EnumDictionary) :
    d.reset._intToStr = d._startIntToStr.foldl (fun l it => mapAssign intLess l it.1 it.2) [] :=
  foldl_field _ (fun s : EnumDictionary => s._intToStr) _ (fun _ _ => rfl) _ _

theorem reset_strToInt (d : EnumDictionary) :
    d.reset._strToInt = d._startIntToStr.foldl (fun l it => mapAssign strLess l it.2 it.1) [] :=
  foldl_field _ (fun s : EnumDictionary => s._strToInt) _ (fun _ _ => rfl) _ _

theorem reset_startIntToStr (d : EnumDictionary) :
    d.reset._startIntToStr = d._startIntToStr := by
  unfold reset
  exact foldl_field_const _ (fun s : EnumDictionary => s._startIntToStr) (by intros; rfl) _ _

theorem reset_freeze (d : EnumDictionary) : d.reset._freeze = false := by
  unfold reset
  exact foldl_field_const _ (fun s : EnumDictionary => s._freeze) (by intros; rfl) _ _

theorem append_startIntToStr (d : EnumDictionary) (m : IntToStr) (f : Bool) :
    (d.append m f)._startIntToStr = d._startIntToStr := by
  unfold append
  split
  · rfl
  · rw [(append_loop_freeze m _).2]

theorem run_startIntToStr (d : EnumDictionary) (cs : List Call) :
    (d.run cs)._startIntToStr = d._startIntToStr := by
  induction cs generalizing d with
  | nil => rfl
  | cons c t ih =>
    have e : d.run (c :: t) = (d.call c).run t := rfl
    rw [e, ih]
    cases c with
    | append m f => exact append_startIntToStr d m f
    | reset => exact reset_startIntToStr d

theorem append_loop_linked (m : IntToStr) (s : EnumDictionary)
    (hl : Linked s._intToStr s._strToInt) :
    Linked
      (m.foldl
        (fun s it =>
          if mapFind s._intToStr it.1 = none then
            { s with
              _intToStr := mapAssign intLess s._intToStr it.1 it.2
              _strToInt := mapAssign strLess s._strToInt it.2 it.1 }
          else s) s)._intToStr
      (m.foldl
        (fun s it =>
          if mapFind s._intToStr it.1 = none then
            { s with
              _intToStr := mapAssign intLess s._intToStr it.1 it.2
              _strToInt := mapAssign strLess s._strToInt it.2 it.1 }
          else s) s)._strToInt := by
  induction m generalizing s with
  | nil => exact hl
  | cons p t ih =>
    rw [List.foldl_cons]
    apply ih
    by_cases hk : mapFind s._intToStr p.1 = none
    · simp only [hk, if_true]
      exact linked_step _ _ _ _ hl hk
    · simp only [hk, if_false]
      exact hl

theorem append_linked (d : EnumDictionary) (m : IntToStr) (f : Bool)
    (hl : Linked d._intToStr d._strToInt) :
    Linked (d.append m f)._intToStr (d.append m f)._strToInt := by
  unfold append
  split
  · exact hl
  · exact append_loop_linked m _ hl

theorem reset_linked (d : EnumDictionary) (hs : IsMap d._startIntToStr) :
    Linked d.reset._intToStr d.reset._strToInt := by
  rw [reset_intToStr, reset_strToInt]
  exact linked_foldl _ _ _ hs (fun _ _ => rfl) linked_nil

theorem init_new_linked (m : IntToStr) (f : Bool) (hm : IsMap m) :
    Linked (new.init m f)._intToStr (new.init m f)._strToInt := by
  rw [init_intToStr, init_strToInt]
  exact linked_foldl _ _ _ hm (fun _ _ => rfl) linked_nil

theorem init_new_startIntToStr (m : IntToStr) (f : Bool) (hm : IsMap m) :
    (new.init m f)._startIntToStr = m := by
  rw [init_startIntToStr]
  exact foldl_mapAssign_sorted m [] (by simpa using hm)

theorem init_new_intToStr (m : IntToStr) (f : Bool) (hm : IsMap m) :
    (new.init m f)._intToStr = m := by
  rw [init_intToStr]
  exact foldl_mapAssign_sorted m [] (by simpa using hm)

/-- Every dictionary reached from `init` on a fresh object by `append` and
`reset` calls has linked maps. -/
theorem run_linked (m : IntToStr) (f : Bool) (cs : List Call) (hm : IsMap m) :
    Linked ((new.init m f).run cs)._intToStr ((new.init m f).run cs)._strToInt := by
  have gen : ∀ (cs : List Call) (d : EnumDictionary), IsMap d._startIntToStr →
      Linked d._intToStr d._strToInt → Linked (d.run cs)._intToStr (d.run cs)._strToInt := by
    intro cs
    induction cs with
    | nil => intro d _ hl; exact hl
    | cons c t ih =>
      intro d hs hl
      have e : d.run (c :: t) = (d.call c).run t := rfl
      rw [e]
      cases c with
      | append m f =>
        exact ih _ (by rw [show d.call (Call.append m f) = d.append m f from rfl,
          append_startIntToStr]; exact hs) (append_linked d m f hl)
      | reset =>
        exact ih _ (by rw [show d.call Call.reset = d.reset from rfl,
          reset_startIntToStr]; exact hs) (reset_linked d hs)
  exact gen cs _ (by rw [init_new_startIntToStr m f hm]; exact hm) (init_new_linked m f hm)

end EnumDictionary

/-! ## Theorems -/

/-- C1 (counterexample): the frozen dictionary built from the mapping
`2147483647 -> "max"` holds the name `"max"`, yet the validator rejects `"max"`,
because the code found for it equals `INVALID_VAL`. -/
theorem enumerationValidator_rejects_held_name :
    (EnumDictionary.new.init [(2147483647, "max")] true).isFreeze = true
    ∧ mapFind (EnumDictionary.new.init [(2147483647, "max")] true)._strToInt "max"
        = some 2147483647
    ∧ (EnumerationValidator.validate String.join
        { _enumDictionary := EnumDictionary.new.init [(2147483647, "max")] true }
        "mode" "max" () "").1 = false := by
  decide

/-- C1 (amended): for a frozen dictionary `d`, `EnumerationValidator(d).validate`
returns true if and only if the candidate is a key of the name-to-code map of `d`
whose code is not `INVALID_VAL`. -/
theorem enumerationValidator_validate_frozen {Properties : Type}
    (ttoaList : List String → String) (d : EnumDictionary) (keyname s : String)
    (container : Properties) (whyNot : String) (h : d.isFreeze = true) :
    (EnumerationValidator.validate ttoaList { _enumDictionary := d }
        keyname s container whyNot).1 = true
      ↔ ∃ c, mapFind d._strToInt s = some c ∧ c ≠ INVALID_VAL := by
  unfold EnumerationValidator.validate EnumerationValidator.validateVal EnumDictionary.indexStr
  simp only [h, Bool.not_true]
  cases hf : mapFind d._strToInt s with
  | none => simp
  | some c =>
    by_cases hc : c = INVALID_VAL
    · simp [hc]
    · simp [hc]

/-- C1 (witness): with the frozen dictionary whose names are `fast` and `slow`,
`fast` is accepted and `turbo` is rejected. -/
theorem enumerationValidator_validate_frozen_witness :
    (EnumDictionary.new.init [(0, "fast"), (1, "slow")] true).isFreeze = true
    ∧ ((EnumerationValidator.validate String.join
          { _enumDictionary := EnumDictionary.new.init [(0, "fast"), (1, "slow")] true }
          "mode" "fast" () "").1 = true
        ↔ ∃ c, mapFind (EnumDictionary.new.init [(0, "fast"), (1, "slow")] true)._strToInt
            "fast" = some c ∧ c ≠ INVALID_VAL)
    ∧ (EnumerationValidator.validate String.join
          { _enumDictionary := EnumDictionary.new.init [(0, "fast"), (1, "slow")] true }
          "mode" "fast" () "").1 = true
    ∧ (EnumerationValidator.validate String.join
          { _enumDictionary := EnumDictionary.new.init [(0, "fast"), (1, "slow")] true }
          "mode" "turbo" () "").1 = false :=
  ⟨by decide,
   enumerationValidator_validate_frozen String.join _ "mode" "fast" () "" (by decide),
   by decide, by decide⟩

/-- C2: for a dictionary that is not frozen, `EnumerationValidator(d).validate`
returns true for every candidate and leaves the reason string empty, whatever
the reason string held before. -/
theorem enumerationValidator_validate_unfrozen {Properties : Type}
    (ttoaList : List String → String) (d : EnumDictionary) (keyname s : String)
    (container : Properties) (whyNot : String) (h : d.isFreeze = false) :
    EnumerationValidator.validate ttoaList { _enumDictionary := d }
      keyname s container whyNot = (true, "") := by
  simp [EnumerationValidator.validate, EnumerationValidator.validateVal, h]

/-- C2 (witness): the unfrozen dictionary with the names `fast` and `slow` accepts
`turbo` although it is not one of its names, also with a stale reason string. -/
theorem enumerationValidator_validate_unfrozen_witness :
    (EnumDictionary.new.init [(0, "fast"), (1, "slow")] false).isFreeze = false
    ∧ mapFind (EnumDictionary.new.init [(0, "fast"), (1, "slow")] false)._strToInt "turbo" = none
    ∧ EnumerationValidator.validate String.join
        { _enumDictionary := EnumDictionary.new.init [(0, "fast"), (1, "slow")] false }
        "mode" "turbo" () "stale" = (true, "") :=
  ⟨by decide, by decide,
   enumerationValidator_validate_unfrozen String.join _ "mode" "turbo" () "stale" (by decide)⟩

/-- C3: on a frozen dictionary `append(m, f)` is a no-op for every mapping and
flag: the object (snapshot, both maps and the freeze flag) is unchanged, and so
are both lookups, the listings and `isFreeze`. -/
theorem append_frozen_noop (d : EnumDictionary) (m : IntToStr) (f : Bool)
    (h : d.isFreeze = true) :
    d.append m f = d
    ∧ (∀ c, (d.append m f).indexInt c = d.indexInt c)
    ∧ (∀ n, (d.append m f).indexStr n = d.indexStr n)
    ∧ (∀ l, (d.append m f).getListStr l = d.getListStr l)
    ∧ (∀ l, (d.append m f).getListInts l = d.getListInts l)
    ∧ (d.append m f).isFreeze = d.isFreeze := by
  have e : d.append m f = d := by
    unfold EnumDictionary.isFreeze at h
    simp [EnumDictionary.append, h]
  simp [e]

/-- C3 (witness): a frozen dictionary with code 1 ignores an appended mapping that
renames code 1 and adds code 2. -/
theorem append_frozen_noop_witness :
    (EnumDictionary.new.init [(1, "a")] true).isFreeze = true
    ∧ (EnumDictionary.new.init [(1, "a")] true).append [(1, "z"), (2, "b")] false
        = EnumDictionary.new.init [(1, "a")] true :=
  ⟨by decide,
   (append_frozen_noop (EnumDictionary.new.init [(1, "a")] true) [(1, "z"), (2, "b")] false
      (by decide)).1⟩

/-- C4: on a dictionary that is not frozen, after `append(m, f)` every code that
was present keeps its name (also when `m` maps it to another name), every code
that was absent is looked up as in `m` (its name in `m` if it is a key of `m`,
absent otherwise), and `isFreeze()` equals `f`. -/
theorem append_unfrozen (d : EnumDictionary) (m : IntToStr) (f : Bool)
    (h : d.isFreeze = false) :
    (∀ c n, mapFind d._intToStr c = some n →
        mapFind (d.append m f)._intToStr c = some n ∧ (d.append m f).indexInt c = n)
    ∧ (∀ c, mapFind d._intToStr c = none →
        mapFind (d.append m f)._intToStr c = mapFind m c)
    ∧ (∀ c n, mapFind d._intToStr c = none → mapFind m c = some n →
        (d.append m f).indexInt c = n)
    ∧ (∀ c, mapFind d._intToStr c = none → mapFind m c = none →
        (d.append m f).indexInt c = INVALID_STR_VAL)
    ∧ (d.append m f).isFreeze = f := by
  unfold EnumDictionary.isFreeze at h
  have key : ∀ c, mapFind (d.append m f)._intToStr c
      = match mapFind d._intToStr c with
        | some n => some n
        | none => mapFind m c := by
    intro c
    simp only [EnumDictionary.append, h, Bool.false_eq_true, if_false]
    rw [EnumDictionary.append_loop_intToStr]
  refine ⟨?_, ?_, ?_, ?_, ?_⟩
  · intro c n hc
    have := key c
    rw [hc] at this
    simp [EnumDictionary.indexInt, this]
  · intro c hc
    have := key c
    rw [hc] at this
    exact this
  · intro c n hc hm
    have := key c
    rw [hc] at this
    simp [EnumDictionary.indexInt, this, hm]
  · intro c hc hm
    have := key c
    rw [hc] at this
    simp [EnumDictionary.indexInt, this, hm]
  · simp only [EnumDictionary.append, h, Bool.false_eq_true, if_false, EnumDictionary.isFreeze]
    rw [(EnumDictionary.append_loop_freeze m _).1]

/-- C4 (witness): appending `1 -> "z", 2 -> "b"` with `freeze = true` to the
unfrozen dictionary `1 -> "a"` keeps `1 -> "a"`, adds `2 -> "b"`, leaves 3 absent
and freezes. -/
theorem append_unfrozen_witness :
    (EnumDictionary.new.init [(1, "a")] false).isFreeze = false
    ∧ ((EnumDictionary.new.init [(1, "a")] false).append [(1, "z"), (2, "b")] true).indexInt 1
        = "a"
    ∧ ((EnumDictionary.new.init [(1, "a")] false).append [(1, "z"), (2, "b")] true).indexInt 2
        = "b"
    ∧ ((EnumDictionary.new.init [(1, "a")] false).append [(1, "z"), (2, "b")] true).indexInt 3
        = INVALID_STR_VAL
    ∧ ((EnumDictionary.new.init [(1, "a")] false).append [(1, "z"), (2, "b")] true).isFreeze
        = true :=
  have w := append_unfrozen (EnumDictionary.new.init [(1, "a")] false) [(1, "z"), (2, "b")] true
    (by decide)
  ⟨by decide, (w.1 1 "a" (by decide)).2, w.2.2.1 2 "b" (by decide) (by decide),
   w.2.2.2.1 3 (by decide) (by decide), w.2.2.2.2⟩

/-- C5: after `init(m0, f)` on a fresh dictionary and any later sequence of calls,
`reset()` leaves the dictionary unfrozen with exactly the maps that `init` built:
a code lookup gives `m0[c]` for a key of `m0` and the invalid-string sentinel
otherwise, and every name lookup gives what it gave right after `init`. -/
theorem reset_restores_init (m0 : IntToStr) (f : Bool) (cs : List EnumDictionary.Call)
    (hm : IsMap m0) :
    ((EnumDictionary.new.init m0 f).run cs).reset.isFreeze = false
    ∧ ((EnumDictionary.new.init m0 f).run cs).reset._intToStr
        = (EnumDictionary.new.init m0 f)._intToStr
    ∧ ((EnumDictionary.new.init m0 f).run cs).reset._strToInt
        = (EnumDictionary.new.init m0 f)._strToInt
    ∧ (∀ c, ((EnumDictionary.new.init m0 f).run cs).reset.indexInt c
        = match mapFind m0 c with
          | some n => n
          | none => INVALID_STR_VAL)
    ∧ (∀ n, ((EnumDictionary.new.init m0 f).run cs).reset.indexStr n
        = (EnumDictionary.new.init m0 f).indexStr n) := by
  have hstart : ((EnumDictionary.new.init m0 f).run cs)._startIntToStr = m0 := by
    rw [EnumDictionary.run_startIntToStr, EnumDictionary.init_new_startIntToStr m0 f hm]
  have hi : ((EnumDictionary.new.init m0 f).run cs).reset._intToStr = m0 := by
    rw [EnumDictionary.reset_intToStr, hstart]
    exact foldl_mapAssign_sorted m0 [] (by simpa using hm)
  have hs : ((EnumDictionary.new.init m0 f).run cs).reset._strToInt
      = (EnumDictionary.new.init m0 f)._strToInt := by
    rw [EnumDictionary.reset_strToInt, hstart, EnumDictionary.init_strToInt]
    rfl
  refine ⟨EnumDictionary.reset_freeze _, ?_, hs, ?_, ?_⟩
  · rw [hi, EnumDictionary.init_new_intToStr m0 f hm]
  · intro c
    unfold EnumDictionary.indexInt
    rw [hi]
  · intro n
    unfold EnumDictionary.indexStr
    rw [hs]

/-- C5 (witness): `init` with `1 -> "a", 2 -> "b"`, then an `append` that adds code 3,
then `reset()`: the maps are those of `init` again and code 3 is gone. -/
theorem reset_restores_init_witness :
    IsMap [((1 : Int), "a"), (2, "b")]
    ∧ (((EnumDictionary.new.init [(1, "a"), (2, "b")] false).run
          [EnumDictionary.Call.append [(1, "z"), (3, "c")] true]).indexInt 3 = "c"
      ∧ ((EnumDictionary.new.init [(1, "a"), (2, "b")] false).run
          [EnumDictionary.Call.append [(1, "z"), (3, "c")] true]).reset.isFreeze = false
      ∧ ((EnumDictionary.new.init [(1, "a"), (2, "b")] false).run
          [EnumDictionary.Call.append [(1, "z"), (3, "c")] true]).reset._intToStr
          = (EnumDictionary.new.init [(1, "a"), (2, "b")] false)._intToStr) :=
  have w := reset_restores_init [(1, "a"), (2, "b")] false
    [EnumDictionary.Call.append [(1, "z"), (3, "c")] true] (by decide)
  ⟨by decide, by decide, w.1, w.2.1⟩

/-- C6 (counterexample): after `init` with `1 -> "a", 2 -> "a"` the code-to-name map
holds `1 -> "a"`, but the name-to-code map holds `"a" -> 2`: the two maps are not
inverse of one another. -/
theorem maps_not_inverse :
    IsMap [((1 : Int), "a"), (2, "a")]
    ∧ ¬ (∀ (c : Int) (n : String),
        mapFind (EnumDictionary.new.init [(1, "a"), (2, "a")] false)._intToStr c = some n
          ↔ mapFind (EnumDictionary.new.init [(1, "a"), (2, "a")] false)._strToInt n = some c) := by
  refine ⟨by decide, ?_⟩
  intro h
  have h1 := (h 1 "a").1 (by decide)
  revert h1
  decide

/-- C6 (amended): in every state reached by `init(m, f)` on a fresh dictionary
followed by `append` and `reset` calls, every entry `n -> c` of the name-to-code
map has its inverse `c -> n` in the code-to-name map; and when no two codes of the
code-to-name map carry the same name, the two maps are inverse of one another. -/
theorem maps_inverse_when_names_distinct (m : IntToStr) (f : Bool)
    (cs : List EnumDictionary.Call) (hm : IsMap m) :
    (∀ n c, mapFind ((EnumDictionary.new.init m f).run cs)._strToInt n = some c →
        mapFind ((EnumDictionary.new.init m f).run cs)._intToStr c = some n)
    ∧ (NamesDistinct ((EnumDictionary.new.init m f).run cs)._intToStr →
        ∀ c n, mapFind ((EnumDictionary.new.init m f).run cs)._intToStr c = some n
          ↔ mapFind ((EnumDictionary.new.init m f).run cs)._strToInt n = some c) := by
  obtain ⟨h1, h2⟩ := EnumDictionary.run_linked m f cs hm
  refine ⟨h1, ?_⟩
  intro hd c n
  constructor
  · intro hc
    obtain ⟨c', hc'⟩ := h2 c n hc
    rw [hc', hd c' c n (h1 n c' hc') hc]
  · exact h1 n c

/-- C6 (witness): `init` with `1 -> "a", 2 -> "b"`, an `append` of `3 -> "c"`, a
`reset()` and an `append` of `4 -> "d"`. -/
theorem maps_inverse_when_names_distinct_witness :
    IsMap [((1 : Int), "a"), (2, "b")]
    ∧ (∀ n c, mapFind ((EnumDictionary.new.init [(1, "a"), (2, "b")] false).run
          [EnumDictionary.Call.append [(3, "c")] false, EnumDictionary.Call.reset,
           EnumDictionary.Call.append [(4, "d")] true])._strToInt n = some c →
        mapFind ((EnumDictionary.new.init [(1, "a"), (2, "b")] false).run
          [EnumDictionary.Call.append [(3, "c")] false, EnumDictionary.Call.reset,
           EnumDictionary.Call.append [(4, "d")] true])._intToStr c = some n) :=
  ⟨by decide,
   (maps_inverse_when_names_distinct [(1, "a"), (2, "b")] false
      [EnumDictionary.Call.append [(3, "c")] false, EnumDictionary.Call.reset,
       EnumDictionary.Call.append [(4, "d")] true] (by decide)).1⟩

/-- C7 (counterexample): in the dictionary built by `init` with `1 -> "a", 2 -> "a"`
code 1 is present, `ttoa` encodes it as `"a"`, and `atot` decodes `"a"` to 2. -/
theorem codec_round_trip_fails :
    IsMap [((1 : Int), "a"), (2, "a")]
    ∧ mapFind (EnumDictionary.new.init [(1, "a"), (2, "a")] false)._intToStr 1 = some "a"
    ∧ (ttoa { _val := 1, _dictionary := EnumDictionary.new.init [(1, "a"), (2, "a")] false }).1
        = "a"
    ∧ (atot { _val := 1, _dictionary := EnumDictionary.new.init [(1, "a"), (2, "a")] false }
        (ttoa { _val := 1,
                _dictionary := EnumDictionary.new.init [(1, "a"), (2, "a")] false }).1).1._val
        = 2 := by
  decide

/-- C7 (amended): for a dictionary reached by `init` on a fresh dictionary followed
by `append` and `reset` calls, and a code `c` present in it whose name is carried
by no other code, decoding the encoding of `c` gives `c` back. -/
theorem codec_round_trip (m : IntToStr) (f : Bool) (cs : List EnumDictionary.Call)
    (t : OptimizeEnumeration) (c : Int) (n : String) (hm : IsMap m)
    (ht : t._dictionary = (EnumDictionary.new.init m f).run cs)
    (hc : mapFind t._dictionary._intToStr c = some n)
    (hu : ∀ c', mapFind t._dictionary._intToStr c' = some n → c' = c) :
    (atot t (ttoa { _val := c, _dictionary := t._dictionary }).1).1._val = c := by
  have hl : Linked t._dictionary._intToStr t._dictionary._strToInt := by
    rw [ht]
    exact EnumDictionary.run_linked m f cs hm
  obtain ⟨c', hc'⟩ := hl.2 c n hc
  have e : c' = c := hu c' (hl.1 n c' hc')
  subst e
  have henc : (ttoa { _val := c', _dictionary := t._dictionary }).1 = n := by
    unfold ttoa
    simp only [OptimizeEnumeration.toInt, OptimizeEnumeration.indexInt, EnumDictionary.indexInt, hc]
    split <;> rfl
  rw [henc]
  unfold atot
  simp only [OptimizeEnumeration.indexStr, EnumDictionary.indexStr, hc']
  split <;> rfl

/-- C7 (witness): code 2 of the dictionary `1 -> "a", 2 -> "b"` survives the round trip. -/
theorem codec_round_trip_witness :
    IsMap [((1 : Int), "a"), (2, "b")]
    ∧ (atot { _val := 1, _dictionary := (EnumDictionary.new.init [(1, "a"), (2, "b")] true).run [] }
        (ttoa { _val := 2,
                _dictionary :=
                  (EnumDictionary.new.init [(1, "a"), (2, "b")] true).run [] }).1).1._val = 2 :=
  ⟨by decide,
   codec_round_trip [(1, "a"), (2, "b")] true []
     { _val := 1, _dictionary := (EnumDictionary.new.init [(1, "a"), (2, "b")] true).run [] }
     2 "b" (by decide) rfl (by decide)
     (by
       intro c' h
       have hmem := mapFind_mem _ _ _ h
       revert hmem
       simp only [show ((EnumDictionary.new.init [(1, "a"), (2, "b")] true).run [])._intToStr
         = [(1, "a"), (2, "b")] from by decide]
       simp)⟩

/-- C8: lookup by code returns the name stored under the code when the code is a
key of the code-to-name map and `INVALID_STR_VAL` (the empty string) otherwise;
lookup by name returns the code stored under the name when the name is a key of
the name-to-code map and `INVALID_VAL` (`INT_MAX`) otherwise.  In terms of the
entries: with unique keys, an entry `(c, n)` makes the lookup of `c` return `n`,
and a key without entry gives the sentinel.  The lookups are `const` member
functions: they are functions of the dictionary and yield no successor state. -/
theorem lookup_hit_or_sentinel (d : EnumDictionary) :
    (∀ c, d.indexInt c = (match mapFind d._intToStr c with
        | some n => n
        | none => "")
      ∧ d.callInt c = d.indexInt c)
    ∧ (∀ n, d.indexStr n = (match mapFind d._strToInt n with
        | some c => c
        | none => 2147483647))
    ∧ ((d._intToStr.map Prod.fst).Nodup → ∀ c n, (c, n) ∈ d._intToStr → d.indexInt c = n)
    ∧ (∀ c, (∀ n, (c, n) ∉ d._intToStr) → d.indexInt c = INVALID_STR_VAL)
    ∧ ((d._strToInt.map Prod.fst).Nodup → ∀ n c, (n, c) ∈ d._strToInt → d.indexStr n = c)
    ∧ (∀ n, (∀ c, (n, c) ∉ d._strToInt) → d.indexStr n = INVALID_VAL) := by
  refine ⟨fun c => ⟨rfl, rfl⟩, fun n => rfl, ?_, ?_, ?_, ?_⟩
  · intro hu c n hmem
    simp [EnumDictionary.indexInt, mapFind_of_mem _ c n hu hmem]
  · intro c hno
    simp [EnumDictionary.indexInt, (mapFind_eq_none_iff _ c).2 hno]
  · intro hu n c hmem
    simp [EnumDictionary.indexStr, mapFind_of_mem _ n c hu hmem]
  · intro n hno
    simp [EnumDictionary.indexStr, (mapFind_eq_none_iff _ n).2 hno]

/-- C9: after `atot(t, a)` the stored integer of `t` is the code stored under `a`
when `a` is a key of the name-to-code map of the dictionary of `t`, and
`INVALID_VAL` otherwise; the dictionary `t` refers to is unchanged. -/
theorem atot_stores_code_or_invalid (t : OptimizeEnumeration) (a : String) :
    (atot t a).1._val = (match mapFind t._dictionary._strToInt a with
      | some c => c
      | none => INVALID_VAL)
    ∧ (atot t a).1._dictionary = t._dictionary := by
  unfold atot
  simp only [OptimizeEnumeration.indexStr, EnumDictionary.indexStr]
  split <;> exact ⟨rfl, rfl⟩

/-- C10: `ttoa(t)` returns the name stored under the integer of `t` when that
integer is a key of the code-to-name map of the dictionary of `t`, and
`INVALID_STR_VAL`, the empty string, otherwise.  The argument is a `const`
reference: the function yields no successor object. -/
theorem ttoa_returns_name_or_invalid (t : OptimizeEnumeration) :
    (ttoa t).1 = (match mapFind t._dictionary._intToStr t._val with
      | some n => n
      | none => INVALID_STR_VAL)
    ∧ INVALID_STR_VAL = "" := by
  unfold ttoa
  simp only [OptimizeEnumeration.toInt, OptimizeEnumeration.indexInt, EnumDictionary.indexInt]
  split <;> exact ⟨rfl, rfl⟩

/-! ## Lemmas on the sentinels and on the freeze flag -/

theorem mem_mapAssign {κ ν : Type} [DecidableEq κ] (less : κ → κ → Bool)
    (m : List (κ × ν)) (k : κ) (v : ν) (p : κ × ν) (h : p ∈ mapAssign less m k v) :
    p ∈ m ∨ p = (k, v) := by
  induction m with
  | nil =>
    simp only [mapAssign, List.mem_singleton] at h
    exact Or.inr h
  | cons q t ih =>
    obtain ⟨k', v'⟩ := q
    simp only [mapAssign] at h
    split_ifs at h with h1 h2
    · subst h1
      simp only [List.mem_cons] at h ⊢
      tauto
    · simp only [List.mem_cons] at h ⊢
      tauto
    · simp only [List.mem_cons] at h ⊢
      rcases h with h | h
      · tauto
      · have := ih h
        tauto

theorem foldl_preserves {σ α : Type} (Inv : σ → Prop) (g : σ → α → σ) (L : List α)
    (hg : ∀ s a, a ∈ L → Inv s → Inv (g s a)) (s : σ) (hs : Inv s) : Inv (L.foldl g s) := by
  induction L generalizing s with
  | nil => exact hs
  | cons a t ih =>
    rw [List.foldl_cons]
    exact ih (fun s b hb => hg s b (List.mem_cons_of_mem _ hb)) _
      (hg s a (List.mem_cons_self _ _) hs)

theorem noSentinel_mapAssign (m : IntToStr) (k : Int) (v : String) (hm : NoSentinel m)
    (hk : k ≠ INVALID_VAL) (hv : v ≠ INVALID_STR_VAL) :
    NoSentinel (mapAssign intLess m k v) := by
  intro p hp
  rcases mem_mapAssign intLess m k v p hp with h | h
  · exact hm p h
  · rw [h]
    exact ⟨hk, hv⟩

theorem noSentinel_mapAssign_str (m : StrToInt) (k : Int) (v : String)
    (hm : ∀ p ∈ m, p.2 ≠ INVALID_VAL ∧ p.1 ≠ INVALID_STR_VAL)
    (hk : k ≠ INVALID_VAL) (hv : v ≠ INVALID_STR_VAL) :
    ∀ p ∈ mapAssign strLess m v k, p.2 ≠ INVALID_VAL ∧ p.1 ≠ INVALID_STR_VAL := by
  intro p hp
  rcases mem_mapAssign strLess m v k p hp with h | h
  · exact hm p h
  · rw [h]
    exact ⟨hk, hv⟩

namespace EnumDictionary

theorem init_sentinelFree (d : EnumDictionary) (m : IntToStr) (f : Bool)
    (hd : SentinelFree d) (hm : NoSentinel m) : SentinelFree (d.init m f) := by
  unfold init
  apply foldl_preserves SentinelFree
  · intro s it hit hs
    obtain ⟨h1, h2, h3⟩ := hs
    obtain ⟨hk, hv⟩ := hm it hit
    exact ⟨noSentinel_mapAssign _ _ _ h1 hk hv, noSentinel_mapAssign _ _ _ h2 hk hv,
      noSentinel_mapAssign_str _ _ _ h3 hk hv⟩
  · exact hd

theorem reset_sentinelFree (d : EnumDictionary) (hd : SentinelFree d) :
    SentinelFree d.reset := by
  unfold reset
  have hstart := hd.1
  apply foldl_preserves (fun s => SentinelFree s)
  · intro s it hit hs
    obtain ⟨h1, h2, h3⟩ := hs
    obtain ⟨hk, hv⟩ := hstart it hit
    exact ⟨h1, noSentinel_mapAssign _ _ _ h2 hk hv, noSentinel_mapAssign_str _ _ _ h3 hk hv⟩
  · refine ⟨hd.1, ?_, ?_⟩
    · intro p hp
      simp at hp
    · intro p hp
      simp at hp

theorem append_sentinelFree (d : EnumDictionary) (m : IntToStr) (f : Bool)
    (hd : SentinelFree d) (hm : NoSentinel m) : SentinelFree (d.append m f) := by
  unfold append
  split
  · exact hd
  · apply foldl_preserves SentinelFree
    · intro s it hit hs
      obtain ⟨h1, h2, h3⟩ := hs
      obtain ⟨hk, hv⟩ := hm it hit
      split
      · exact ⟨h1, noSentinel_mapAssign _ _ _ h2 hk hv, noSentinel_mapAssign_str _ _ _ h3 hk hv⟩
      · exact ⟨h1, h2, h3⟩
    · exact hd

theorem run_sentinelFree (d : EnumDictionary) (cs : List Call) (hd : SentinelFree d)
    (hcs : ∀ c ∈ cs, CallNoSentinel c) : SentinelFree (d.run cs) := by
  unfold run
  apply foldl_preserves SentinelFree
  · intro s c hc hs
    cases c with
    | append m f => exact append_sentinelFree s m f hs (hcs _ hc)
    | reset => exact reset_sentinelFree s hs
  · exact hd

theorem new_sentinelFree : SentinelFree new := by
  refine ⟨?_, ?_, ?_⟩ <;> intro p hp <;> simp [new] at hp

theorem append_of_frozen (d : EnumDictionary) (m : IntToStr) (f : Bool)
    (h : d._freeze = true) : d.append m f = d := by
  simp [append, h]

theorem run_appends_of_frozen (d : EnumDictionary) (cs : List Call) (h : d._freeze = true)
    (hcs : ∀ c ∈ cs, c ≠ Call.reset) : d.run cs = d := by
  induction cs with
  | nil => rfl
  | cons c t ih =>
    have e : d.run (c :: t) = (d.call c).run t := rfl
    cases c with
    | append m f =>
      rw [e, show d.call (Call.append m f) = d.append m f from rfl, append_of_frozen d m f h]
      exact ih (fun c hc => hcs c (List.mem_cons_of_mem _ hc))
    | reset => exact absurd rfl (hcs Call.reset (List.mem_cons_self _ _))

end EnumDictionary

/-! ## Theorems on failed decoding, freezing, sentinels and installation -/

/-- C11 (counterexample): with the dictionary `0 -> "fast", 1 -> "slow"` and the stored
integer 0, `"turbo"` is not a name, and after `atot`, as after `sync`, the stored
integer is `INVALID_VAL` (2147483647), not 0. -/
theorem atot_miss_overwrites_value :
    mapFind (EnumDictionary.new.init [(0, "fast"), (1, "slow")] true)._strToInt "turbo" = none
    ∧ (atot { _val := 0,
              _dictionary := EnumDictionary.new.init [(0, "fast"), (1, "slow")] true }
        "turbo").1._val = 2147483647
    ∧ (ProperT.sync atot
        { name := "mode", flags := 0, loaded := 0, modified := false,
          _val := { _val := 0,
                    _dictionary := EnumDictionary.new.init [(0, "fast"), (1, "slow")] true },
          _defaultVal := { _val := 0,
                           _dictionary := EnumDictionary.new.init [(0, "fast"), (1, "slow")] true } }
        "turbo").1._val._val = 2147483647 := by
  decide

/-- C11 (amended): a failed decode replaces the value: when `a` is not a name of the
dictionary of `t`, after `atot(t, a)`, and so after `sync(a)` on a property holding
`t`, the stored integer is `INVALID_VAL`; it is still the previous integer only
when that was `INVALID_VAL` already. -/
theorem atot_miss_stores_invalid (p : ProperT OptimizeEnumeration) (a : String)
    (h : mapFind p._val._dictionary._strToInt a = none) :
    (atot p._val a).1._val = INVALID_VAL
    ∧ ((atot p._val a).1._val = p._val._val ↔ p._val._val = INVALID_VAL)
    ∧ (ProperT.sync atot p a).1._val._val = INVALID_VAL := by
  have e : (atot p._val a).1._val = INVALID_VAL := by
    unfold atot
    simp only [OptimizeEnumeration.indexStr, EnumDictionary.indexStr, h]
    split <;> rfl
  refine ⟨e, ?_, ?_⟩
  · rw [e]
    exact eq_comm
  · simp only [ProperT.sync]
    exact e

/-- C11 (witness): the property `mode` holding 0 over the dictionary
`0 -> "fast", 1 -> "slow"`, synchronised with `"turbo"`. -/
theorem atot_miss_stores_invalid_witness :
    (atot { _val := 0,
            _dictionary := EnumDictionary.new.init [(0, "fast"), (1, "slow")] true }
        "turbo").1._val = INVALID_VAL :=
  (atot_miss_stores_invalid
    { name := "mode", flags := 0, loaded := 0, modified := false,
      _val := { _val := 0,
                _dictionary := EnumDictionary.new.init [(0, "fast"), (1, "slow")] true },
      _defaultVal := { _val := 0,
                       _dictionary := EnumDictionary.new.init [(0, "fast"), (1, "slow")] true } }
    "turbo" (by decide)).1

/-- C12 (counterexample): the frozen dictionary built by `init` with `freeze = true` is
not frozen any more after the single call `reset()`. -/
theorem reset_unfreezes_frozen :
    (EnumDictionary.new.init [(1, "a")] true).isFreeze = true
    ∧ ((EnumDictionary.new.init [(1, "a")] true).run [EnumDictionary.Call.reset]).isFreeze
        = false := by
  decide

/-- C12 (amended): freeze is monotonic under `append`: once `isFreeze()` is true it is
true after every later call of a sequence of `append` calls; `reset()` makes
`isFreeze()` false. -/
theorem freeze_monotonic_under_append (d : EnumDictionary) (cs : List EnumDictionary.Call)
    (h : d.isFreeze = true) (hcs : ∀ c ∈ cs, c ≠ EnumDictionary.Call.reset) :
    (∀ k, (d.run (cs.take k)).isFreeze = true) ∧ d.reset.isFreeze = false := by
  refine ⟨?_, EnumDictionary.reset_freeze d⟩
  intro k
  rw [EnumDictionary.run_appends_of_frozen d (cs.take k) h
    (fun c hc => hcs c (List.mem_of_mem_take hc))]
  exact h

/-- C12 (witness): a frozen dictionary stays frozen through two `append` calls, the
second of which asks for `freeze = false`. -/
theorem freeze_monotonic_under_append_witness :
    (EnumDictionary.new.init [(1, "a")] true).isFreeze = true
    ∧ ((EnumDictionary.new.init [(1, "a")] true).run
        ([EnumDictionary.Call.append [(2, "b")] true,
          EnumDictionary.Call.append [(3, "c")] false].take 2)).isFreeze = true :=
  ⟨by decide,
   (freeze_monotonic_under_append (EnumDictionary.new.init [(1, "a")] true)
      [EnumDictionary.Call.append [(2, "b")] true, EnumDictionary.Call.append [(3, "c")] false]
      (by decide) (by decide)).1 2⟩

/-- C13 (counterexample): `init` with the mapping `2147483647 -> ""` gives a dictionary
that holds the code `INVALID_VAL` and the name `INVALID_STR_VAL`; both lookups
return a sentinel although the entry exists. -/
theorem sentinels_collide :
    mapFind (EnumDictionary.new.init [(2147483647, "")] false)._intToStr INVALID_VAL
        = some INVALID_STR_VAL
    ∧ mapFind (EnumDictionary.new.init [(2147483647, "")] false)._strToInt INVALID_STR_VAL
        = some INVALID_VAL
    ∧ (EnumDictionary.new.init [(2147483647, "")] false).indexInt 2147483647 = INVALID_STR_VAL
    ∧ (EnumDictionary.new.init [(2147483647, "")] false).indexStr "" = INVALID_VAL := by
  decide

/-- C13 (amended): when no mapping passed to `init` or `append` has the code
`INVALID_VAL` or the name `INVALID_STR_VAL`, no dictionary reached by
`init`/`append`/`reset` holds that code or that name, and a lookup result equal to
a sentinel means that there is no such entry. -/
theorem sentinels_absent_when_not_passed (m : IntToStr) (f : Bool)
    (cs : List EnumDictionary.Call) (hm : NoSentinel m) (hcs : ∀ c ∈ cs, CallNoSentinel c) :
    mapFind ((EnumDictionary.new.init m f).run cs)._intToStr INVALID_VAL = none
    ∧ mapFind ((EnumDictionary.new.init m f).run cs)._strToInt INVALID_STR_VAL = none
    ∧ (∀ c n, mapFind ((EnumDictionary.new.init m f).run cs)._intToStr c = some n →
        n ≠ INVALID_STR_VAL)
    ∧ (∀ n c, mapFind ((EnumDictionary.new.init m f).run cs)._strToInt n = some c →
        c ≠ INVALID_VAL)
    ∧ (∀ c, ((EnumDictionary.new.init m f).run cs).indexInt c = INVALID_STR_VAL
        ↔ mapFind ((EnumDictionary.new.init m f).run cs)._intToStr c = none)
    ∧ (∀ n, ((EnumDictionary.new.init m f).run cs).indexStr n = INVALID_VAL
        ↔ mapFind ((EnumDictionary.new.init m f).run cs)._strToInt n = none) := by
  obtain ⟨_, h2, h3⟩ := EnumDictionary.run_sentinelFree _ cs
    (EnumDictionary.init_sentinelFree _ m f EnumDictionary.new_sentinelFree hm) hcs
  generalize (EnumDictionary.new.init m f).run cs = d at h2 h3
  have a1 : ∀ c n, mapFind d._intToStr c = some n → c ≠ INVALID_VAL ∧ n ≠ INVALID_STR_VAL :=
    fun c n hc => h2 (c, n) (mapFind_mem _ _ _ hc)
  have a2 : ∀ n c, mapFind d._strToInt n = some c → c ≠ INVALID_VAL ∧ n ≠ INVALID_STR_VAL :=
    fun n c hn => h3 (n, c) (mapFind_mem _ _ _ hn)
  refine ⟨?_, ?_, fun c n hc => (a1 c n hc).2, fun n c hn => (a2 n c hn).1, ?_, ?_⟩
  · cases hc : mapFind d._intToStr INVALID_VAL with
    | none => rfl
    | some n => exact absurd rfl (a1 _ n hc).1
  · cases hn : mapFind d._strToInt INVALID_STR_VAL with
    | none => rfl
    | some c => exact absurd rfl (a2 _ c hn).2
  · intro c
    unfold EnumDictionary.indexInt
    cases hc : mapFind d._intToStr c with
    | none => simp
    | some n => simpa using (a1 c n hc).2
  · intro n
    unfold EnumDictionary.indexStr
    cases hn : mapFind d._strToInt n with
    | none => simp
    | some c => simpa using (a2 n c hn).1

/-- C13 (witness): `init` with `1 -> "a"`, an `append` of `2 -> "b"` and a `reset()`. -/
theorem sentinels_absent_when_not_passed_witness :
    NoSentinel [(1, "a")]
    ∧ mapFind ((EnumDictionary.new.init [(1, "a")] false).run
        [EnumDictionary.Call.append [(2, "b")] false, EnumDictionary.Call.reset])._intToStr
        INVALID_VAL = none :=
  have hm : NoSentinel [(1, "a")] := by
    intro p hp
    simp only [List.mem_singleton] at hp
    subst hp
    exact ⟨by decide, by decide⟩
  ⟨hm,
   (sentinels_absent_when_not_passed [(1, "a")] false
      [EnumDictionary.Call.append [(2, "b")] false, EnumDictionary.Call.reset] hm
      (by
        intro c hc
        simp only [List.mem_cons, List.mem_singleton, List.not_mem_nil, or_false] at hc
        rcases hc with e | e
        · subst e
          intro p hp
          simp only [List.mem_singleton] at hp
          subst hp
          exact ⟨by decide, by decide⟩
        · subst e
          trivial)).1⟩

/-! ## `EnumDictionary::set` -/

theorem lt_freshAddr (heap : List (Nat × EnumDictionary)) :
    ∀ o ∈ heap, o.1 < freshAddr heap := by
  induction heap with
  | nil => intro o ho; simp at ho
  | cons q t ih =>
    obtain ⟨a, d⟩ := q
    intro o ho
    simp only [freshAddr]
    rcases List.mem_cons.1 ho with e | ht
    · subst e
      simp only
      omega
    · have := ih o ht
      omega

theorem filter_append_fresh (heap : List (Nat × EnumDictionary)) (d : EnumDictionary) :
    (heap ++ [(freshAddr heap, d)]).filter (fun o => o.1 ≠ freshAddr heap) = heap := by
  rw [List.filter_append]
  have h1 : heap.filter (fun o => decide (o.1 ≠ freshAddr heap)) = heap := by
    apply List.filter_eq_self.2
    intro o ho
    have := lt_freshAddr heap o ho
    simp only [ne_eq, decide_not, Bool.not_eq_true', decide_eq_false_iff_not]
    omega
  rw [h1]
  simp

theorem mapFind_append {κ ν : Type} [DecidableEq κ] (l1 l2 : List (κ × ν)) (k : κ) :
    mapFind (l1 ++ l2) k = match mapFind l1 k with
      | some v => some v
      | none => mapFind l2 k := by
  induction l1 with
  | nil => rfl
  | cons q t ih =>
    obtain ⟨k', v'⟩ := q
    by_cases h : k = k'
    · simp [mapFind, h]
    · simp only [List.cons_append, mapFind, h, if_false]
      exact ih

theorem mapFind_freshAddr (heap : List (Nat × EnumDictionary)) :
    mapFind heap (freshAddr heap) = none := by
  rw [mapFind_eq_none_iff]
  intro d hd
  have := lt_freshAddr heap _ hd
  simp at this

/-- C14: `EnumDictionary::set` in a single-threaded run.  On an empty slot the slot
takes the address of a new object, which is the dictionary built by `init(m, freeze)`:
its code-to-name map is `m`, its name-to-code map is linked to `m`, `isFreeze()` is
`freeze`, and every other object is untouched.  On an occupied slot the memory is
unchanged: the slot holds the same address, the objects are the same and the
candidate is deleted.  In both cases the loop ends in its first iteration. -/
theorem set_single_threaded (fuel : Nat) (mem : DictMemory) (m : IntToStr) (freeze : Bool)
    (hm : IsMap m) :
    (mem.slot = none →
      EnumDictionary.set (fuel + 1) mem m freeze
        = some { heap := mem.heap ++ [(freshAddr mem.heap, EnumDictionary.new.init m freeze)],
                 slot := some (freshAddr mem.heap) }
      ∧ mem.deref (freshAddr mem.heap) = none
      ∧ DictMemory.deref
          { heap := mem.heap ++ [(freshAddr mem.heap, EnumDictionary.new.init m freeze)],
            slot := some (freshAddr mem.heap) } (freshAddr mem.heap)
          = some (EnumDictionary.new.init m freeze)
      ∧ (∀ a, a ≠ freshAddr mem.heap →
          DictMemory.deref
            { heap := mem.heap ++ [(freshAddr mem.heap, EnumDictionary.new.init m freeze)],
              slot := some (freshAddr mem.heap) } a = mem.deref a))
    ∧ (EnumDictionary.new.init m freeze)._intToStr = m
    ∧ (∀ c, (EnumDictionary.new.init m freeze).indexInt c = match mapFind m c with
        | some n => n
        | none => INVALID_STR_VAL)
    ∧ Linked m (EnumDictionary.new.init m freeze)._strToInt
    ∧ (EnumDictionary.new.init m freeze).isFreeze = freeze
    ∧ (∀ a, mem.slot = some a → EnumDictionary.set (fuel + 1) mem m freeze = some mem) := by
  have hi := EnumDictionary.init_new_intToStr m freeze hm
  refine ⟨?_, hi, ?_, ?_, EnumDictionary.init_freeze _ m freeze, ?_⟩
  · intro hs
    refine ⟨?_, mapFind_freshAddr mem.heap, ?_, ?_⟩
    · simp [EnumDictionary.set, EnumDictionary.setLoop, hs]
    · simp only [DictMemory.deref]
      rw [mapFind_append, mapFind_freshAddr]
      simp [mapFind]
    · intro a ha
      simp only [DictMemory.deref]
      rw [mapFind_append]
      cases mapFind mem.heap a with
      | none => simp [mapFind, ha]
      | some d => rfl
  · intro c
    unfold EnumDictionary.indexInt
    rw [hi]
  · have hl := EnumDictionary.init_new_linked m freeze hm
    rw [hi] at hl
    exact hl
  · intro a hs
    simp only [EnumDictionary.set, EnumDictionary.setLoop, hs]
    simp only [reduceCtorEq, if_false, ne_eq, not_false_eq_true, if_true]
    rw [filter_append_fresh]
    cases mem with
    | mk heap slot =>
      simp only at hs
      rw [hs]

/-- C14 (witness): installing `1 -> "a"` in empty memory puts the new dictionary at the
slot; installing `2 -> "b"` afterwards leaves the memory as it is. -/
theorem set_single_threaded_witness :
    IsMap [((1 : Int), "a")]
    ∧ EnumDictionary.set 1 { heap := [], slot := none } [(1, "a")] true
        = some { heap := [(0, EnumDictionary.new.init [(1, "a")] true)], slot := some 0 }
    ∧ EnumDictionary.set 1
        { heap := [(0, EnumDictionary.new.init [(1, "a")] true)], slot := some 0 }
        [(2, "b")] true
        = some { heap := [(0, EnumDictionary.new.init [(1, "a")] true)], slot := some 0 } :=
  ⟨by decide,
   ((set_single_threaded 0 { heap := [], slot := none } [(1, "a")] true (by decide)).1 rfl).1,
   by decide⟩

/-! ## Lemmas on the validators -/

theorem isxdigit_iff_mem (c : Char) : isxdigit c = true ↔ c ∈ hexDigitChars := by
  constructor
  · intro h
    have hc : c = Char.ofNat c.toNat := (Char.ofNat_toNat c).symm
    simp only [isxdigit, decide_eq_true_eq] at h
    generalize c.toNat = n at h hc
    subst hc
    rcases h with ⟨h1, h2⟩ | ⟨h1, h2⟩ | ⟨h1, h2⟩ <;> interval_cases n <;> decide
  · intro h
    simp only [hexDigitChars, List.mem_cons, List.mem_singleton] at h
    rcases h with h | h | h | h | h | h | h | h | h | h | h | h | h | h | h | h | h | h | h | h
      | h | h | h <;>
      first
        | (subst h; decide)
        | simp at h

theorem cStr_of_no_nul (s : String) (h : ∀ c ∈ s.data, c ≠ Char.ofNat 0) : cStr s = s := by
  unfold cStr
  have : s.data.takeWhile (fun ch => decide (ch ≠ Char.ofNat 0)) = s.data := by
    rw [List.takeWhile_eq_self_iff]
    intro c hc
    simpa using h c hc
  rw [this]

theorem isdigit_facts (c : Char) (h : isdigit c = true) :
    c ≠ Char.ofNat 0 ∧ isalpha c = false ∧ isspace c = false ∧ c ≠ '.' ∧ c ≠ '-' ∧ c ≠ '+'
      ∧ c ≠ 'x' ∧ c ≠ 'X' := by
  simp only [isdigit, decide_eq_true_eq] at h
  refine ⟨?_, ?_, ?_, ?_, ?_, ?_, ?_, ?_⟩
  · intro e; rw [e] at h; revert h; decide
  · simp only [isalpha, decide_eq_false_iff_not]; omega
  · simp only [isspace, decide_eq_false_iff_not]; omega
  · intro e; rw [e] at h; revert h; decide
  · intro e; rw [e] at h; revert h; decide
  · intro e; rw [e] at h; revert h; decide
  · intro e; rw [e] at h; revert h; decide
  · intro e; rw [e] at h; revert h; decide

theorem rejectWith_of_fits (text : String) (h : FitsBuffer text) :
    rejectWith text = some (false, text) := by
  unfold FitsBuffer at h
  simp [rejectWith, sprintfBuffer, h]

theorem rejectWith_of_overrun (text : String) (h : ¬ FitsBuffer text) :
    rejectWith text = none := by
  unfold FitsBuffer at h
  simp [rejectWith, sprintfBuffer, h]

theorem rejectWith_eq_some (text : String) (r : Bool × String) (h : rejectWith text = some r) :
    r = (false, text) ∧ FitsBuffer text := by
  unfold rejectWith sprintfBuffer at h
  unfold FitsBuffer
  split_ifs at h with hl
  simp only [Option.some.injEq] at h
  exact ⟨h.symm, hl⟩

theorem repeated_length (n : Nat) (c : Char) : (repeated n c).length = n := by
  simp [repeated, String.length]

theorem repeated_data_length (n : Nat) (c : Char) : (repeated n c).data.length = n := by
  simp [repeated]

theorem cStr_repeated (n : Nat) (c : Char) (hc : c ≠ Char.ofNat 0) :
    cStr (repeated n c) = repeated n c := by
  apply cStr_of_no_nul
  intro x hx
  simp only [repeated, List.mem_replicate] at hx
  rw [hx.2]
  exact hc

theorem not_fits_of_le (text : String) (h : bufferSize ≤ text.length) : ¬ FitsBuffer text := by
  unfold FitsBuffer
  omega

theorem digitsValue_foldl_ge (l : List Char) (acc : Nat) :
    acc ≤ l.foldl (fun acc d => 10 * acc + (d.toNat - 48)) acc := by
  induction l generalizing acc with
  | nil => exact le_refl _
  | cons c t ih =>
    simp only [List.foldl_cons]
    have := ih (10 * acc + (c.toNat - 48))
    omega

namespace NumericValidator

theorem validate_empty {Properties : Type} (v : NumericValidator)
    (keyname : String) (container : Properties) (whyNot : String) :
    v.validate keyname "" container whyNot = rejectWith (emptyReason keyname) := by
  simp [validate]

theorem validate_of_scan_break {Properties : Type} (v : NumericValidator)
    (keyname s : String) (container : Properties) (whyNot : String)
    (h : scanEnd (cStr s).data ≠ (cStr s).data.length) :
    v.validate keyname s container whyNot = rejectWith (scanReason keyname s) := by
  have hs : s ≠ "" := by
    intro e
    apply h
    rw [e]
    decide
  unfold scanEnd at h
  unfold validate
  simp only [hs, if_false, h]

theorem validate_of_scan_end_accept {Properties : Type} (v : NumericValidator)
    (keyname s : String) (container : Properties) (whyNot : String) (hs : s ≠ "")
    (h : scanEnd (cStr s).data = (cStr s).data.length) (b : Int)
    (hb : extractLongLong (cStr s).data = some b) (hn : ¬ v.overBound b) :
    v.validate keyname s container whyNot = some (true, "") := by
  unfold scanEnd at h
  unfold overBound at hn
  have h1 := fun x => hn (Or.inl x)
  have h2 := fun x => hn (Or.inr (Or.inl x))
  have h3 := fun x => hn (Or.inr (Or.inr x))
  unfold validate
  simp only [hs, if_false, h, if_true, hb]
  rw [if_neg h1, if_neg h2, if_neg h3]

theorem validate_of_scan_end_reject {Properties : Type} (v : NumericValidator)
    (keyname s : String) (container : Properties) (whyNot : String) (hs : s ≠ "")
    (h : scanEnd (cStr s).data = (cStr s).data.length) (b : Int)
    (hb : extractLongLong (cStr s).data = some b) (ho : v.overBound b) :
    v.validate keyname s container whyNot = rejectWith (v.overBoundReason keyname s) := by
  unfold scanEnd at h
  unfold validate overBoundReason
  simp only [hs, if_false, h, if_true, hb]
  unfold overBound at ho
  rcases ho with ⟨e, ho⟩ | ⟨e, ho⟩ | ⟨e, ho⟩
  · rw [if_pos ⟨e, ho⟩, if_pos e]
  · have n1 : ¬ v.sizeofT = 1 := by omega
    rw [if_neg (fun x => n1 x.1), if_pos ⟨e, ho⟩, if_neg n1, if_pos e]
  · have n1 : ¬ v.sizeofT = 1 := by omega
    have n2 : ¬ v.sizeofT = 2 := by omega
    rw [if_neg (fun x => n1 x.1), if_neg (fun x => n2 x.1), if_pos ⟨e, ho⟩, if_neg n1,
      if_neg n2]

theorem validate_of_unwritten {Properties : Type} (v : NumericValidator)
    (keyname s : String) (container : Properties) (whyNot : String) (hs : s ≠ "")
    (h : scanEnd (cStr s).data = (cStr s).data.length)
    (hb : extractLongLong (cStr s).data = none) :
    v.validate keyname s container whyNot
      = if v.sizeofT = 1 ∨ v.sizeofT = 2 ∨ v.sizeofT = 4 then none else some (true, "") := by
  unfold scanEnd at h
  unfold validate
  simp only [hs, if_false, h, if_true, hb]

theorem scanFrom_digits (l : List Char) (i : Nat) (h : ∀ c ∈ l, isdigit c = true) :
    scanFrom false l i false = i + l.length := by
  induction l generalizing i with
  | nil => rfl
  | cons c t ih =>
    obtain ⟨_, ha, _, hdot, _⟩ := isdigit_facts c (h c (List.mem_cons_self _ _))
    simp only [scanFrom, ha, hdot]
    simp only [Bool.false_and, Bool.not_false, Bool.and_false, Bool.false_eq_true, if_false]
    rw [ih (i + 1) (fun c hc => h c (List.mem_cons_of_mem _ hc))]
    simp only [List.length_cons]
    omega

theorem isHexLiteral_digits (l : List Char) (h : ∀ c ∈ l, isdigit c = true) :
    isHexLiteral l = false := by
  unfold isHexLiteral
  cases h1 : l[1]? with
  | none => simp
  | some c =>
    have hc : c ∈ l := List.getElem?_mem h1
    obtain ⟨_, _, _, _, _, _, hx, hX⟩ := isdigit_facts c (h c hc)
    simp [hx, hX]

theorem scanEnd_digits (l : List Char) (h : ∀ c ∈ l, isdigit c = true) :
    scanEnd l = l.length := by
  unfold scanEnd
  rw [isHexLiteral_digits l h]
  simp only [Bool.false_eq_true, if_false, List.drop_zero]
  rw [scanFrom_digits l 0 h]
  omega

end NumericValidator

theorem extractLongLong_digits (l : List Char) (hne : l ≠ []) (h : ∀ c ∈ l, isdigit c = true) :
    extractLongLong l
      = some (if (digitsValue l : Int) > LLONG_MAX then LLONG_MAX else (digitsValue l : Int)) := by
  obtain ⟨c, t, rfl⟩ := List.exists_cons_of_ne_nil hne
  obtain ⟨_, _, hsp, _, hm, hp, _⟩ := isdigit_facts c (h c (List.mem_cons_self _ _))
  have htw : (c :: t).takeWhile isdigit = c :: t := by
    rw [List.takeWhile_eq_self_iff]
    exact h
  unfold extractLongLong
  simp only [List.dropWhile_cons, hsp, Bool.false_eq_true, if_false, List.head?_cons]
  have e1 : (some c == some '-') = false := by simpa using hm
  have e2 : (some c == some '+') = false := by simpa using hp
  simp only [e1, e2, Bool.or_self, Bool.false_eq_true, if_false, htw]
  simp

theorem NumericValidator.overBound_clamp_iff (v : NumericValidator) (n : Nat) :
    v.overBound (if (n : Int) > LLONG_MAX then LLONG_MAX else (n : Int))
      ↔ ∃ b, numericBound v.sizeofT v._isSigned = some b ∧ n > b := by
  have key : ∀ b : Nat, b ≤ 4294967295 →
      ((if (n : Int) > LLONG_MAX then LLONG_MAX else (n : Int)) > (b : Int) ↔ n > b) := by
    intro b hb
    unfold LLONG_MAX
    split_ifs <;> omega
  have k1 := key 127 (by omega)
  have k2 := key 255 (by omega)
  have k3 := key 32767 (by omega)
  have k4 := key 65535 (by omega)
  have k5 := key 2147483647 (by omega)
  have k6 := key 4294967295 (by omega)
  simp only [Nat.cast_ofNat] at k1 k2 k3 k4 k5 k6
  obtain ⟨sz, sg⟩ := v
  simp only [NumericValidator.overBound, numericBound]
  by_cases h1 : sz = 1
  · subst h1
    cases sg <;> simp [k1, k2]
  · by_cases h2 : sz = 2
    · subst h2
      cases sg <;> simp [k3, k4]
    · by_cases h4 : sz = 4
      · subst h4
        cases sg <;> simp [k5, k6]
      · simp [h1, h2, h4]

/-- C15: `HexStringValidator.validate` returns true if and only if the candidate is
exactly `"0"`, or it has an even number of characters and every character of it is
a hexadecimal digit. -/
theorem hexStringValidator_accepts_iff {Properties : Type} (keyname s : String)
    (container : Properties) (whyNot : String) :
    (HexStringValidator.validate keyname s container whyNot).1 = true
      ↔ s = "0" ∨ (s.length % 2 = 0 ∧ ∀ c ∈ s.data, c ∈ hexDigitChars) := by
  unfold HexStringValidator.validate
  by_cases h0 : s = "0"
  · simp [h0]
  · by_cases h1 : s.length % 2 = 0
    · by_cases h2 : s.data.all isxdigit = true
      · have h2' : ∀ c ∈ s.data, c ∈ hexDigitChars := fun c hc =>
          (isxdigit_iff_mem c).1 (List.all_eq_true.1 h2 c hc)
        simp only [h0, h1, h2, if_false, ne_eq, not_true_eq_false, Bool.not_true,
          Bool.false_eq_true, true_and, false_or, true_iff]
        exact h2'
      · have h2' : ¬ ∀ c ∈ s.data, c ∈ hexDigitChars := by
          intro hall
          apply h2
          exact List.all_eq_true.2 (fun c hc => (isxdigit_iff_mem c).2 (hall c hc))
        simp [h0, h1, h2, h2']
    · simp [h0, h1]

/-- C16 (the code on the candidates whose reason fits the buffer): for a candidate
made of one or more decimal digits, with value `v`, `NumericValidator<T>::validate`
accepts it if and only if the byte width of `T` has no bound (127/255 for 1 byte,
32767/65535 for 2 bytes, 2147483647/4294967295 for 4 bytes, signed/unsigned) that `v`
exceeds; when `v` exceeds the bound, it rejects the candidate if the reason fits the
buffer and overruns the buffer if the reason does not fit. -/
theorem numericValidator_rejects_iff_over_bound {Properties : Type} (v : NumericValidator)
    (keyname s : String) (container : Properties) (whyNot : String)
    (hne : s.data ≠ []) (hd : ∀ c ∈ s.data, isdigit c = true) :
    (v.validate keyname s container whyNot = some (true, "")
      ↔ ¬ ∃ b, numericBound v.sizeofT v._isSigned = some b ∧ digitsValue s.data > b)
    ∧ ((∃ b, numericBound v.sizeofT v._isSigned = some b ∧ digitsValue s.data > b) →
        FitsBuffer (v.overBoundReason keyname s) →
        v.validate keyname s container whyNot = some (false, v.overBoundReason keyname s))
    ∧ ((∃ b, numericBound v.sizeofT v._isSigned = some b ∧ digitsValue s.data > b) →
        ¬ FitsBuffer (v.overBoundReason keyname s) →
        v.validate keyname s container whyNot = none) := by
  have hc : cStr s = s := cStr_of_no_nul s (fun c hc => (isdigit_facts c (hd c hc)).1)
  have hs : s ≠ "" := by
    intro e
    apply hne
    rw [e]
  have hscan : NumericValidator.scanEnd (cStr s).data = (cStr s).data.length := by
    rw [hc]
    exact NumericValidator.scanEnd_digits s.data hd
  have hb : extractLongLong (cStr s).data
      = some (if (digitsValue s.data : Int) > LLONG_MAX then LLONG_MAX
          else (digitsValue s.data : Int)) := by
    rw [hc]
    exact extractLongLong_digits s.data hne hd
  have hiff := NumericValidator.overBound_clamp_iff v (digitsValue s.data)
  have hrej : (∃ b, numericBound v.sizeofT v._isSigned = some b ∧ digitsValue s.data > b) →
      v.validate keyname s container whyNot = rejectWith (v.overBoundReason keyname s) :=
    fun ho => NumericValidator.validate_of_scan_end_reject v keyname s container whyNot hs hscan
      _ hb (hiff.2 ho)
  refine ⟨?_, ?_, ?_⟩
  · constructor
    · intro hacc ho
      rw [hrej ho] at hacc
      have := (rejectWith_eq_some _ _ hacc).1
      simp at this
    · intro hno
      exact NumericValidator.validate_of_scan_end_accept v keyname s container whyNot hs hscan
        _ hb (fun ho => hno (hiff.1 ho))
  · intro ho hfit
    rw [hrej ho]
    exact rejectWith_of_fits _ hfit
  · intro ho hfit
    rw [hrej ho]
    exact rejectWith_of_overrun _ hfit

/-- C16 (the example values): for a signed 1-byte type `"128"` is rejected and `"127"`,
the bound itself, is accepted; for an 8-byte type a value of twenty digits is
accepted. -/
theorem numericValidator_rejects_iff_over_bound_examples :
    NumericValidator.validate { sizeofT := 1, _isSigned := true } "k" "128" () ""
      = some (false, "Can't set k to 128. A char cannot have a value over 127")
    ∧ NumericValidator.validate { sizeofT := 1, _isSigned := true } "k" "127" () ""
      = some (true, "")
    ∧ NumericValidator.validate { sizeofT := 8, _isSigned := true } "k"
        "99999999999999999999" () "" = some (true, "") := by
  refine ⟨by decide, by decide, by decide⟩

/-- C16 (the code at the failing input): the candidate of 1100 digits `9` is a decimal
literal whose value exceeds 127, the bound of a signed 1-byte type, and the call of
`NumericValidator<T>::validate` on it does not return false: the reason does not fit
the buffer that `sprintf` writes it to. -/
theorem numericValidator_bound_reason_overruns :
    (∀ c ∈ (repeated 1100 '9').data, isdigit c = true)
    ∧ (∃ b, numericBound 1 true = some b ∧ digitsValue (repeated 1100 '9').data > b)
    ∧ NumericValidator.validate { sizeofT := 1, _isSigned := true } "k" (repeated 1100 '9')
        () "" = none := by
  have hd : ∀ c ∈ (repeated 1100 '9').data, isdigit c = true := by
    intro c hc
    simp only [repeated, List.mem_replicate] at hc
    rw [hc.2]
    decide
  have hval : digitsValue (repeated 1100 '9').data > 127 := by
    have e : (repeated 1100 '9').data = ['9', '9', '9'] ++ List.replicate 1097 '9' := by
      simp only [repeated]
      rw [show (1100 : Nat) = 3 + 1097 from rfl, List.replicate_add]
      rfl
    rw [e]
    unfold digitsValue
    rw [List.foldl_append]
    have := digitsValue_foldl_ge (List.replicate 1097 '9')
      (List.foldl (fun acc d => 10 * acc + (d.toNat - 48)) 0 ['9', '9', '9'])
    have h999 : List.foldl (fun acc (d : Char) => 10 * acc + (d.toNat - 48)) 0 ['9', '9', '9']
        = 999 := by decide
    rw [h999] at this ⊢
    omega
  have hover : ∃ b, numericBound 1 true = some b ∧ digitsValue (repeated 1100 '9').data > b :=
    ⟨127, by decide, hval⟩
  refine ⟨hd, hover, ?_⟩
  have hne : (repeated 1100 '9').data ≠ [] := by
    intro e
    have hl := repeated_data_length 1100 '9'
    rw [e] at hl
    exact absurd hl (by decide)
  apply (numericValidator_rejects_iff_over_bound { sizeofT := 1, _isSigned := true } "k"
    (repeated 1100 '9') () "" hne hd).2.2 hover
  apply not_fits_of_le
  have hlen := repeated_length 1100 '9'
  rw [← cStr_repeated 1100 '9' (by decide)] at hlen
  simp only [NumericValidator.overBoundReason, NumericValidator.boundReason, if_true,
    String.length_append, hlen, bufferSize]
  omega

/-! ## Lemmas on the scanning loops -/

namespace NumericValidator

theorem scanFrom_lt_of_break (isHex : Bool) (l : List Char) (i : Nat) (cd : Bool)
    (h : ∃ c ∈ l, (isHex && !isxdigit c) = true ∨ (!isHex && isalpha c) = true) :
    scanFrom isHex l i cd < i + l.length := by
  induction l generalizing i cd with
  | nil =>
    obtain ⟨c, hc, _⟩ := h
    simp at hc
  | cons a t ih =>
    by_cases h1 : (isHex && !isxdigit a) = true
    · simp only [scanFrom, h1, if_true, List.length_cons]
      omega
    · by_cases h2 : (!isHex && isalpha a) = true
      · simp only [scanFrom, List.length_cons]
        rw [if_neg h1, if_pos h2]
        omega
      · have ht : ∃ c ∈ t, (isHex && !isxdigit c) = true ∨ (!isHex && isalpha c) = true := by
          obtain ⟨c, hc, hb⟩ := h
          rcases List.mem_cons.1 hc with e | hct
          · subst e
            rcases hb with hb | hb
            · exact absurd hb h1
            · exact absurd hb h2
          · exact ⟨c, hct, hb⟩
        have r1 := ih (i + 1) cd ht
        have r2 := ih (i + 1) true ht
        simp only [scanFrom, h1, h2, if_false, List.length_cons]
        split_ifs <;> omega

theorem isHexLiteral_iff (str : List Char) : isHexLiteral str = true ↔ HexPrefixed str := by
  unfold isHexLiteral HexPrefixed
  match str with
  | [] => simp
  | [a] => simp
  | a :: b :: t =>
    simp only [List.length_cons, List.getElem?_cons_zero, List.getElem?_cons_succ,
      List.take_succ_cons, List.take_zero, Bool.and_eq_true, decide_eq_true_eq,
      Bool.or_eq_true, beq_iff_eq, Option.some.injEq, List.cons.injEq, and_true]
    tauto

theorem scanEnd_ne_of_alpha (str : List Char) (hh : isHexLiteral str = false)
    (h : ∃ c ∈ str, isalpha c = true) : scanEnd str ≠ str.length := by
  unfold scanEnd
  simp only [hh, Bool.false_eq_true, if_false, List.drop_zero]
  have := scanFrom_lt_of_break false str 0 false
    (by
      obtain ⟨c, hc, ha⟩ := h
      exact ⟨c, hc, Or.inr (by simp [ha])⟩)
  omega

theorem scanEnd_ne_of_not_xdigit (str : List Char) (hh : isHexLiteral str = true)
    (h : ∃ c ∈ str.drop 2, isxdigit c = false) : scanEnd str ≠ str.length := by
  unfold scanEnd
  simp only [hh, if_true]
  have := scanFrom_lt_of_break true (str.drop 2) 2 false
    (by
      obtain ⟨c, hc, ha⟩ := h
      exact ⟨c, hc, Or.inl (by simp [ha])⟩)
  have hlen : str.length > 2 := ((isHexLiteral_iff str).1 hh).1
  simp only [List.length_drop] at this
  omega

end NumericValidator

/-- C17 (counterexample): the candidate made of `1`, a NUL character and `a` is not
empty, contains the alphabetic character `a` and does not start with `0x`, yet
`NumericValidator<T>::validate` accepts it: the scan runs over `c_str()`, which ends at
the NUL character. -/
theorem numericValidator_accepts_alpha_after_nul :
    isalpha 'a' = true
    ∧ 'a' ∈ (String.mk ['1', Char.ofNat 0, 'a']).data
    ∧ ¬ HexPrefixed (String.mk ['1', Char.ofNat 0, 'a']).data
    ∧ NumericValidator.validate { sizeofT := 4, _isSigned := true } "k"
        (String.mk ['1', Char.ofNat 0, 'a']) () "" = some (true, "") := by
  refine ⟨by decide, by decide, ?_, by decide⟩
  intro h
  have := h.2
  revert this
  decide

/-- C17 (amended): where the reason fits the buffer of 1024 bytes,
`NumericValidator<T>::validate` rejects the empty string; it rejects every string
whose text before the first NUL character is not a `0x`/`0X`-prefixed literal and
contains an alphabetic character, an exponent form such as `"1e+5"` included; and
when that text is longer than two characters and starts with `0x` or `0X`, it rejects
whenever a character after the prefix is not a hexadecimal digit. -/
theorem numericValidator_rejects_alpha {Properties : Type} (v : NumericValidator)
    (keyname s : String) (container : Properties) (whyNot : String) :
    (FitsBuffer (NumericValidator.emptyReason keyname) →
        v.validate keyname "" container whyNot
          = some (false, NumericValidator.emptyReason keyname))
    ∧ (¬ HexPrefixed (cStr s).data → (∃ c ∈ (cStr s).data, isalpha c = true) →
        FitsBuffer (NumericValidator.scanReason keyname s) →
        v.validate keyname s container whyNot
          = some (false, NumericValidator.scanReason keyname s))
    ∧ (HexPrefixed (cStr s).data → (∃ c ∈ (cStr s).data.drop 2, c ∉ hexDigitChars) →
        FitsBuffer (NumericValidator.scanReason keyname s) →
        v.validate keyname s container whyNot
          = some (false, NumericValidator.scanReason keyname s))
    ∧ (FitsBuffer (NumericValidator.scanReason keyname "1e+5") →
        v.validate keyname "1e+5" container whyNot
          = some (false, NumericValidator.scanReason keyname "1e+5")) := by
  refine ⟨?_, ?_, ?_, ?_⟩
  · intro hfit
    rw [NumericValidator.validate_empty]
    exact rejectWith_of_fits _ hfit
  · intro hp ha hfit
    rw [NumericValidator.validate_of_scan_break]
    · exact rejectWith_of_fits _ hfit
    · apply NumericValidator.scanEnd_ne_of_alpha _ _ ha
      rw [← Bool.not_eq_true, NumericValidator.isHexLiteral_iff]
      exact hp
  · intro hp hx hfit
    rw [NumericValidator.validate_of_scan_break]
    · exact rejectWith_of_fits _ hfit
    · apply NumericValidator.scanEnd_ne_of_not_xdigit _
        ((NumericValidator.isHexLiteral_iff _).2 hp)
      obtain ⟨c, hc, hn⟩ := hx
      refine ⟨c, hc, ?_⟩
      rw [← Bool.not_eq_true, isxdigit_iff_mem]
      exact hn
  · intro hfit
    rw [NumericValidator.validate_of_scan_break _ _ _ _ _ (by decide)]
    exact rejectWith_of_fits _ hfit

/-- C17 (witness): with the key `k`, the empty string, `abc`, `0xZZ` and `1e+5` are
rejected. -/
theorem numericValidator_rejects_alpha_witness :
    NumericValidator.validate { sizeofT := 4, _isSigned := true } "k" "" () ""
      = some (false, "Can't set k to an empty value")
    ∧ NumericValidator.validate { sizeofT := 4, _isSigned := true } "k" "abc" () ""
      = some (false,
          "Can't set k to abc. Must be a non-decimal number without alphabetic characters.")
    ∧ NumericValidator.validate { sizeofT := 4, _isSigned := true } "k" "0xZZ" () ""
      = some (false,
          "Can't set k to 0xZZ. Must be a non-decimal number without alphabetic characters.")
    ∧ NumericValidator.validate { sizeofT := 4, _isSigned := true } "k" "1e+5" () ""
      = some (false,
          "Can't set k to 1e+5. Must be a non-decimal number without alphabetic characters.") :=
  have w1 := numericValidator_rejects_alpha { sizeofT := 4, _isSigned := true } "k" "abc" () ""
  have w2 := numericValidator_rejects_alpha { sizeofT := 4, _isSigned := true } "k" "0xZZ" () ""
  ⟨w1.1 (by decide),
   w1.2.1 (by intro h; have := h.2; revert this; decide) ⟨'a', by decide, by decide⟩
     (by decide),
   w2.2.2.1 ⟨by decide, Or.inl (by decide)⟩ ⟨'Z', by decide, by decide⟩ (by decide),
   w1.2.2.2 (by decide)⟩

/-! ## Lemmas on `checkAlpha` and `checkExpAlpha` -/

theorem checkAlpha_iff (str : List Char) :
    checkAlpha str = true ↔ ∃ c ∈ str, isalpha c = true := by
  induction str with
  | nil => simp [checkAlpha]
  | cons a t ih =>
    by_cases ha : isalpha a = true
    · simp [checkAlpha, ha]
    · simp only [checkAlpha, ha, Bool.false_eq_true, if_false, ih, List.mem_cons,
        exists_eq_or_imp, false_or]

theorem checkExpAlphaFrom_true_iff (str : List Char) :
    checkExpAlphaFrom str true = true ↔ ∀ c ∈ str, isalpha c = false := by
  induction str with
  | nil => simp [checkExpAlphaFrom]
  | cons a t ih =>
    by_cases ha : isalpha a = true
    · simp [checkExpAlphaFrom, ha]
    · simp only [Bool.not_eq_true] at ha
      simp [checkExpAlphaFrom, ha, ih]

theorem isalpha_sign (n : Char) (h : n = '+' ∨ n = '-') : isalpha n = false := by
  rcases h with e | e <;> subst e <;> decide

theorem isalpha_exp (c : Char) (h : c = 'e' ∨ c = 'E') : isalpha c = true := by
  rcases h with e | e <;> subst e <;> decide

theorem checkExpAlpha_iff (str : List Char) :
    checkExpAlpha str = true ↔ ExpMarkerOnly str := by
  unfold checkExpAlpha ExpMarkerOnly
  induction str with
  | nil => simp [checkExpAlphaFrom]
  | cons a t ih =>
    by_cases ha : isalpha a = true
    · simp only [checkExpAlphaFrom, ha, if_true, Bool.false_eq_true, if_false]
      constructor
      · intro h
        split_ifs at h with hc
        · simp only [Bool.and_eq_true, decide_eq_true_eq, Bool.or_eq_true, beq_iff_eq] at hc
          obtain ⟨⟨hne, hE⟩, hsign⟩ := hc
          obtain ⟨n, post, rfl⟩ := List.exists_cons_of_ne_nil hne
          simp only [List.head?_cons, Option.some.injEq] at hsign
          have hall := (checkExpAlphaFrom_true_iff _).1 h
          exact ⟨[], a, n, post, rfl, by simp, hE.symm, hsign.symm,
            fun x hx => hall x (List.mem_cons_of_mem _ hx)⟩
      · rintro ⟨pre, c, n, post, he, hpre, hc, hn, hpost⟩
        cases pre with
        | nil =>
          simp only [List.nil_append, List.cons.injEq] at he
          obtain ⟨rfl, rfl⟩ := he
          have hcond : (decide (n :: post ≠ []) && (a == 'E' || a == 'e')
              && ((n :: post).head? == some '-' || (n :: post).head? == some '+')) = true := by
            rcases hc with e | e <;> rcases hn with e' | e' <;> subst e <;> subst e' <;> simp
          rw [if_pos hcond, checkExpAlphaFrom_true_iff]
          intro x hx
          rcases List.mem_cons.1 hx with e | hx
          · rw [e]
            exact isalpha_sign n hn
          · exact hpost x hx
        | cons b pre' =>
          simp only [List.cons_append, List.cons.injEq] at he
          have := hpre b (List.mem_cons_self _ _)
          rw [← he.1, ha] at this
          exact absurd this (by decide)
    · have ha' : isalpha a = false := by simpa using ha
      simp only [checkExpAlphaFrom, ha', Bool.false_eq_true, if_false]
      rw [ih]
      constructor
      · rintro ⟨pre, c, n, post, he, hpre, hc, hn, hpost⟩
        refine ⟨a :: pre, c, n, post, by rw [he]; rfl, ?_, hc, hn, hpost⟩
        intro x hx
        rcases List.mem_cons.1 hx with e | hx
        · rw [e]
          exact ha'
        · exact hpre x hx
      · rintro ⟨pre, c, n, post, he, hpre, hc, hn, hpost⟩
        cases pre with
        | nil =>
          simp only [List.nil_append, List.cons.injEq] at he
          rw [he.1, isalpha_exp c hc] at ha'
          exact absurd ha' (by decide)
        | cons b pre' =>
          simp only [List.cons_append, List.cons.injEq] at he
          exact ⟨pre', c, n, post, he.2, fun x hx => hpre x (List.mem_cons_of_mem _ hx),
            hc, hn, hpost⟩

theorem expMarkerOnly_alpha (str : List Char) (h : ExpMarkerOnly str) :
    (∃ c ∈ str, isalpha c = true) ∧ ∀ x ∈ str, isalpha x = true → x = 'e' ∨ x = 'E' := by
  obtain ⟨pre, c, n, post, rfl, hpre, hc, hn, hpost⟩ := h
  refine ⟨⟨c, by simp, isalpha_exp c hc⟩, ?_⟩
  intro x hx hax
  simp only [List.mem_append, List.mem_cons] at hx
  rcases hx with hx | hx | hx | hx
  · rw [hpre x hx] at hax
    exact absurd hax (by decide)
  · rw [hx]
    exact hc
  · rw [hx, isalpha_sign n hn] at hax
    exact absurd hax (by decide)
  · rw [hpost x hx] at hax
    exact absurd hax (by decide)

theorem expMarkerOnly_not_hexPrefixed (str : List Char) (h : ExpMarkerOnly str) :
    ¬ HexPrefixed str := by
  intro hp
  obtain ⟨hlen, htake⟩ := hp
  have hx : ∃ x ∈ str, x = 'x' ∨ x = 'X' := by
    match str, hlen, htake with
    | a :: b :: t, _, htake =>
      simp only [List.take_succ_cons, List.take_zero, List.cons.injEq, and_true] at htake
      exact ⟨b, by simp, by tauto⟩
  obtain ⟨x, hmem, hxx⟩ := hx
  have hax : isalpha x = true := by
    rcases hxx with e | e <;> subst e <;> decide
  have := (expMarkerOnly_alpha str h).2 x hmem hax
  rcases hxx with e | e <;> subst e <;> revert this <;> decide

/-! ## Theorems on `RangeValidator`, exponent markers and `BooleanValidator` -/

/-- C18 (the code on the candidates whose reason fits the buffer):
`RangeValidator<T>::validate` takes the exit for alphabetic characters, before any range
test, exactly when `checkAlpha` holds and `checkExpAlpha` does not hold on the
candidate's C string; otherwise an empty candidate takes the exit for an empty
value and any other candidate goes on to the range test.  Either exit returns false
with its reason if the reason fits the buffer, and overruns the buffer if it does
not.  `checkAlpha` holds iff the C string contains an alphabetic character, and
`checkExpAlpha` holds iff it contains exactly one alphabetic character, that
character is `e` or `E`, and the character right after it is `+` or `-`. -/
theorem rangeValidator_alpha_test {Properties : Type}
    (rangeTest : String → String → Properties → Option (Bool × String)) (keyname s : String)
    (container : Properties) (whyNot : String) :
    ((checkAlpha (cStr s).data = true ∧ checkExpAlpha (cStr s).data = false) →
        (FitsBuffer (RangeValidator.alphaReason keyname s) →
          RangeValidator.validate rangeTest keyname s container whyNot
            = some (false, RangeValidator.alphaReason keyname s))
        ∧ (¬ FitsBuffer (RangeValidator.alphaReason keyname s) →
          RangeValidator.validate rangeTest keyname s container whyNot = none))
    ∧ (¬ (checkAlpha (cStr s).data = true ∧ checkExpAlpha (cStr s).data = false) → s = "" →
        (FitsBuffer (RangeValidator.emptyReason keyname) →
          RangeValidator.validate rangeTest keyname s container whyNot
            = some (false, RangeValidator.emptyReason keyname))
        ∧ (¬ FitsBuffer (RangeValidator.emptyReason keyname) →
          RangeValidator.validate rangeTest keyname s container whyNot = none))
    ∧ (¬ (checkAlpha (cStr s).data = true ∧ checkExpAlpha (cStr s).data = false) → s ≠ "" →
        RangeValidator.validate rangeTest keyname s container whyNot
          = rangeTest keyname s container)
    ∧ (∀ str, checkAlpha str = true ↔ ∃ c ∈ str, isalpha c = true)
    ∧ (∀ str, checkExpAlpha str = true ↔ ExpMarkerOnly str) := by
  refine ⟨?_, ?_, ?_, checkAlpha_iff, checkExpAlpha_iff⟩
  · rintro ⟨h1, h2⟩
    have hv : RangeValidator.validate rangeTest keyname s container whyNot
        = rejectWith (RangeValidator.alphaReason keyname s) := by
      simp [RangeValidator.validate, h1, h2]
    rw [hv]
    exact ⟨rejectWith_of_fits _, rejectWith_of_overrun _⟩
  · intro hn hs
    have hc : (checkAlpha (cStr s).data && !checkExpAlpha (cStr s).data) = false := by
      cases h1 : checkAlpha (cStr s).data <;> cases h2 : checkExpAlpha (cStr s).data <;>
        simp_all
    have hv : RangeValidator.validate rangeTest keyname s container whyNot
        = rejectWith (RangeValidator.emptyReason keyname) := by
      unfold RangeValidator.validate
      rw [hc]
      simp only [Bool.false_eq_true, if_false, hs, if_true]
    rw [hv]
    exact ⟨rejectWith_of_fits _, rejectWith_of_overrun _⟩
  · intro hn hs
    have hc : (checkAlpha (cStr s).data && !checkExpAlpha (cStr s).data) = false := by
      cases h1 : checkAlpha (cStr s).data <;> cases h2 : checkExpAlpha (cStr s).data <;>
        simp_all
    simp only [RangeValidator.validate, hc, Bool.false_eq_true, if_false, hs]

theorem checkAlpha_cons_alpha (c : Char) (l : List Char) (h : isalpha c = true) :
    checkAlpha (c :: l) = true := by
  simp [checkAlpha, h]

theorem checkExpAlpha_cons_alpha (c : Char) (l : List Char) (h : isalpha c = true)
    (he : c ≠ 'E' ∧ c ≠ 'e') : checkExpAlpha (c :: l) = false := by
  simp [checkExpAlpha, checkExpAlphaFrom, h, he]

/-- C18 (the code at the failing input): on the candidate of 1100 letters `a`
`checkAlpha` holds and `checkExpAlpha` does not, and the call of
`RangeValidator<T>::validate` does not return false: the reason does not fit the buffer
that `sprintf` writes it to. -/
theorem rangeValidator_alpha_reason_overruns {Properties : Type}
    (rangeTest : String → String → Properties → Option (Bool × String))
    (container : Properties) :
    checkAlpha (cStr (repeated 1100 'a')).data = true
    ∧ checkExpAlpha (cStr (repeated 1100 'a')).data = false
    ∧ RangeValidator.validate rangeTest "k" (repeated 1100 'a') container "" = none := by
  have hc := cStr_repeated 1100 'a' (by decide)
  have hdata : (repeated 1100 'a').data = 'a' :: List.replicate 1099 'a' := rfl
  have h1 : checkAlpha (cStr (repeated 1100 'a')).data = true := by
    rw [hc, hdata]
    exact checkAlpha_cons_alpha 'a' _ (by decide)
  have h2 : checkExpAlpha (cStr (repeated 1100 'a')).data = false := by
    rw [hc, hdata]
    exact checkExpAlpha_cons_alpha 'a' _ (by decide) ⟨by decide, by decide⟩
  refine ⟨h1, h2, ?_⟩
  apply (rangeValidator_alpha_test rangeTest "k" (repeated 1100 'a') container "").1
    ⟨h1, h2⟩ |>.2
  apply not_fits_of_le
  have hlen := repeated_length 1100 'a'
  rw [← hc] at hlen
  simp only [RangeValidator.alphaReason, String.length_append, hlen, bufferSize]
  omega

/-- C19 (counterexample): `NumericValidator<T>::validate` rejects `"1e+2"`, whose only
alphabetic character is a valid exponent marker, with the reason that names the
alphabetic characters. -/
theorem numericValidator_rejects_exponent :
    ExpMarkerOnly "1e+2".data
    ∧ NumericValidator.validate { sizeofT := 4, _isSigned := true } "k" "1e+2" () ""
        = some (false,
            "Can't set k to 1e+2. Must be a non-decimal number without alphabetic characters.") :=
  ⟨⟨['1'], 'e', '+', ['2'], by decide, by decide, by decide, by decide, by decide⟩, by decide⟩

/-- C19 (amended): numeric validators do not tolerate an exponent marker: where the
reason fits the buffer of 1024 bytes, every `NumericValidator<T>` rejects a candidate
whose only alphabetic character (in its C string) is a valid exponent marker, with
the reason that names the alphabetic characters. -/
theorem exponent_marker_rejected_by_numeric {Properties : Type} (v : NumericValidator)
    (keyname s : String) (container : Properties) (whyNot : String)
    (h : ExpMarkerOnly (cStr s).data)
    (hfit : FitsBuffer (NumericValidator.scanReason keyname s)) :
    v.validate keyname s container whyNot
      = some (false, "Can't set " ++ cStr keyname ++ " to " ++ cStr s
          ++ ". Must be a non-decimal number without alphabetic characters.") := by
  have hbreak : NumericValidator.scanEnd (cStr s).data ≠ (cStr s).data.length := by
    apply NumericValidator.scanEnd_ne_of_alpha _ _ (expMarkerOnly_alpha _ h).1
    rw [← Bool.not_eq_true, NumericValidator.isHexLiteral_iff]
    exact expMarkerOnly_not_hexPrefixed _ h
  rw [NumericValidator.validate_of_scan_break v keyname s container whyNot hbreak]
  exact rejectWith_of_fits _ hfit

/-- C19 (witness): the candidate `"1e+2"` for a signed 4-byte type. -/
theorem exponent_marker_rejected_by_numeric_witness :
    ExpMarkerOnly (cStr "1e+2").data
    ∧ FitsBuffer (NumericValidator.scanReason "k" "1e+2")
    ∧ NumericValidator.validate { sizeofT := 4, _isSigned := true } "k" "1e+2" () ""
        = some (false, "Can't set " ++ cStr "k" ++ " to " ++ cStr "1e+2"
            ++ ". Must be a non-decimal number without alphabetic characters.") :=
  have h : ExpMarkerOnly (cStr "1e+2").data :=
    ⟨['1'], 'e', '+', ['2'], by decide, by decide, by decide, by decide, by decide⟩
  ⟨h, by decide,
   exponent_marker_rejected_by_numeric { sizeofT := 4, _isSigned := true } "k" "1e+2" () "" h
     (by decide)⟩

/-- C20 (the code on the candidates whose reason fits the buffer):
`BooleanValidator(pos, neg).validate` accepts a candidate if and only if it equals `pos`
or equals `neg`; a candidate that equals neither is rejected if the reason fits the
buffer, and the call overruns the buffer if it does not.  So `TrueFalseValidator`
accepts exactly `"true"` and `"false"`, and with a key such as `k` it rejects `"True"`,
`"1"` and the empty string. -/
theorem booleanValidator_accepts_iff {Properties : Type} (pos neg keyname s : String)
    (container : Properties) (whyNot : String) :
    ((BooleanValidator.new pos neg).validate keyname s container whyNot = some (true, "")
        ↔ s = pos ∨ s = neg)
    ∧ (¬ (s = pos ∨ s = neg) → FitsBuffer (BooleanValidator.reason keyname s pos neg) →
        (BooleanValidator.new pos neg).validate keyname s container whyNot
          = some (false, BooleanValidator.reason keyname s pos neg))
    ∧ (¬ (s = pos ∨ s = neg) → ¬ FitsBuffer (BooleanValidator.reason keyname s pos neg) →
        (BooleanValidator.new pos neg).validate keyname s container whyNot = none)
    ∧ (TrueFalseValidator.validate keyname s container whyNot = some (true, "")
        ↔ s = "true" ∨ s = "false")
    ∧ (TrueFalseValidator.validate "k" "True" container whyNot).map Prod.fst = some false
    ∧ (TrueFalseValidator.validate "k" "1" container whyNot).map Prod.fst = some false
    ∧ (TrueFalseValidator.validate "k" "" container whyNot).map Prod.fst = some false := by
  have hrej : ∀ k s p n : String, ¬ (s = p ∨ s = n) →
      (BooleanValidator.new p n).validate k s container whyNot
        = rejectWith (BooleanValidator.reason k s p n) := by
    intro k s p n hno
    have h0 : ¬ p = s := fun e => hno (Or.inl e.symm)
    have h1 : ¬ n = s := fun e => hno (Or.inr e.symm)
    simp only [BooleanValidator.validate, BooleanValidator.new, List.nil_append,
      List.cons_append, List.getElem?_cons_zero, List.getElem?_cons_succ, h0, h1, if_false]
  have hacc : ∀ p n : String,
      ((BooleanValidator.new p n).validate keyname s container whyNot = some (true, "")
        ↔ s = p ∨ s = n) := by
    intro p n
    by_cases hpn : s = p ∨ s = n
    · simp only [hpn, iff_true]
      simp only [BooleanValidator.validate, BooleanValidator.new, List.nil_append,
        List.cons_append, List.getElem?_cons_zero, List.getElem?_cons_succ]
      rcases hpn with e | e
      · simp [e]
      · by_cases h0 : p = s
        · simp [h0]
        · simp [h0, e]
    · simp only [hpn, iff_false]
      rw [hrej keyname s p n hpn]
      intro e
      have := (rejectWith_eq_some _ _ e).1
      simp at this
  refine ⟨hacc pos neg, ?_, ?_, hacc "true" "false", ?_, ?_, ?_⟩
  · intro hno hfit
    rw [hrej keyname s pos neg hno]
    exact rejectWith_of_fits _ hfit
  · intro hno hfit
    rw [hrej keyname s pos neg hno]
    exact rejectWith_of_overrun _ hfit
  · rw [show TrueFalseValidator = BooleanValidator.new "true" "false" from rfl,
      hrej "k" "True" "true" "false" (by decide)]
    decide
  · rw [show TrueFalseValidator = BooleanValidator.new "true" "false" from rfl,
      hrej "k" "1" "true" "false" (by decide)]
    decide
  · rw [show TrueFalseValidator = BooleanValidator.new "true" "false" from rfl,
      hrej "k" "" "true" "false" (by decide)]
    decide

/-- C20 (the code at the failing input): the candidate of 1100 letters `a` equals
neither `"true"` nor `"false"`, and the call of `TrueFalseValidator.validate` on it does
not return false: the reason does not fit the buffer that `sprintf` writes it to. -/
theorem booleanValidator_reason_overruns :
    repeated 1100 'a' ≠ "true" ∧ repeated 1100 'a' ≠ "false"
    ∧ TrueFalseValidator.validate "k" (repeated 1100 'a') () "" = none := by
  have hlen := repeated_length 1100 'a'
  have n1 : repeated 1100 'a' ≠ "true" := by
    intro e
    rw [e] at hlen
    revert hlen
    decide
  have n2 : repeated 1100 'a' ≠ "false" := by
    intro e
    rw [e] at hlen
    revert hlen
    decide
  refine ⟨n1, n2, ?_⟩
  apply (booleanValidator_accepts_iff "true" "false" "k" (repeated 1100 'a') () "").2.2.1
  · rintro (e | e)
    · exact n1 e
    · exact n2 e
  · apply not_fits_of_le
    rw [← cStr_repeated 1100 'a' (by decide)] at hlen
    simp only [BooleanValidator.reason, String.length_append, hlen, bufferSize]
    omega

/-! ## Lemmas on the order of the code-to-name map -/

theorem mapAssign_isMap (l : IntToStr) (k : Int) (v : String) (h : IsMap l) :
    IsMap (mapAssign intLess l k v) := by
  induction l with
  | nil => simp [mapAssign, IsMap]
  | cons q t ih =>
    obtain ⟨k', v'⟩ := q
    unfold IsMap at h ih ⊢
    rw [List.pairwise_cons] at h
    simp only [mapAssign, intLess]
    split_ifs with h1 h2
    · rw [List.pairwise_cons]
      exact h
    · rw [List.pairwise_cons, List.pairwise_cons]
      simp only [decide_eq_true_eq] at h2
      refine ⟨?_, h⟩
      intro a ha
      rcases List.mem_cons.1 ha with e | ha
      · rw [e]
        exact h2
      · have := h.1 a ha
        simp only at this ⊢
        omega
    · rw [List.pairwise_cons]
      simp only [decide_eq_true_eq] at h2
      refine ⟨?_, ih h.2⟩
      intro a ha
      rcases mem_mapAssign intLess t k v a ha with hm | e
      · exact h.1 a hm
      · rw [e]
        simp only
        omega

theorem foldl_append_map {α β : Type} (g : α → β) (L : List α) (acc : List β) :
    L.foldl (fun l it => l ++ [g it]) acc = acc ++ L.map g := by
  induction L generalizing acc with
  | nil => simp
  | cons a t ih => simp [ih]

theorem isMap_nodup_keys (l : IntToStr) (h : IsMap l) : (l.map Prod.fst).Nodup := by
  unfold IsMap at h
  unfold List.Nodup
  rw [List.pairwise_map]
  exact h.imp (fun hab => by omega)

theorem isMap_mapFind_head (k : Int) (v : String) (t : IntToStr) (h : IsMap ((k, v) :: t)) :
    mapFind t k = none := by
  rw [mapFind_eq_none_iff]
  intro x hx
  unfold IsMap at h
  rw [List.pairwise_cons] at h
  have := h.1 (k, x) hx
  simp at this

theorem isMap_ext (l1 l2 : IntToStr) (h1 : IsMap l1) (h2 : IsMap l2)
    (h : ∀ c, mapFind l1 c = mapFind l2 c) : l1 = l2 := by
  induction l1 generalizing l2 with
  | nil =>
    cases l2 with
    | nil => rfl
    | cons q t =>
      have := h q.1
      simp [mapFind] at this
  | cons p t1 ih =>
    obtain ⟨k1, v1⟩ := p
    cases l2 with
    | nil =>
      have := h k1
      simp [mapFind] at this
    | cons q t2 =>
      obtain ⟨k2, v2⟩ := q
      have hk : k1 = k2 := by
        have a1 := h k1
        have a2 := h k2
        simp only [mapFind, if_true] at a1 a2
        by_contra hne
        have hne' : ¬ k2 = k1 := fun e => hne e.symm
        simp only [hne, hne', if_false] at a1 a2
        have m1 := mapFind_mem _ _ _ a1.symm
        have m2 := mapFind_mem _ _ _ a2
        unfold IsMap at h1 h2
        rw [List.pairwise_cons] at h1 h2
        have := h1.1 _ m2
        have := h2.1 _ m1
        simp only at *
        omega
      subst hk
      have hv : v1 = v2 := by
        have a1 := h k1
        simpa [mapFind] using a1
      subst hv
      have ht : t1 = t2 := by
        apply ih t2
        · unfold IsMap at h1 ⊢
          exact (List.pairwise_cons.1 h1).2
        · unfold IsMap at h2 ⊢
          exact (List.pairwise_cons.1 h2).2
        · intro c
          by_cases hc : c = k1
          · rw [hc, isMap_mapFind_head k1 v1 t1 h1, isMap_mapFind_head k1 v1 t2 h2]
          · have := h c
            simpa [mapFind, hc] using this
      rw [ht]

namespace EnumDictionary

theorem init_isMap (d : EnumDictionary) (m : IntToStr) (f : Bool) (hd : IsMap d._intToStr) :
    IsMap (d.init m f)._intToStr := by
  unfold init
  refine foldl_preserves (fun s : EnumDictionary => IsMap s._intToStr) _ _ ?_ _ ?_
  · intro s it _ hs
    exact mapAssign_isMap _ _ _ hs
  · exact hd

theorem reset_isMap (d : EnumDictionary) : IsMap d.reset._intToStr := by
  unfold reset
  refine foldl_preserves (fun s : EnumDictionary => IsMap s._intToStr) _ _ ?_ _ ?_
  · intro s it _ hs
    exact mapAssign_isMap _ _ _ hs
  · simp [IsMap]

theorem append_isMap (d : EnumDictionary) (m : IntToStr) (f : Bool) (hd : IsMap d._intToStr) :
    IsMap (d.append m f)._intToStr := by
  unfold append
  split
  · exact hd
  · refine foldl_preserves (fun s : EnumDictionary => IsMap s._intToStr) _ _ ?_ _ ?_
    · intro s it _ hs
      show IsMap (if mapFind s._intToStr it.1 = none then _ else s)._intToStr
      split
      · exact mapAssign_isMap _ _ _ hs
      · exact hs
    · exact hd

theorem run_isMap (m : IntToStr) (f : Bool) (cs : List Call) :
    IsMap ((new.init m f).run cs)._intToStr := by
  unfold run
  refine foldl_preserves (fun s : EnumDictionary => IsMap s._intToStr) _ _ ?_ _ ?_
  · intro s c _ hs
    cases c with
    | append m f => exact append_isMap s m f hs
    | reset => exact reset_isMap s
  · exact init_isMap new m f (by simp [new, IsMap])

theorem getListInts_eq (d : EnumDictionary) (l : List Int) :
    d.getListInts l = l ++ d._intToStr.map Prod.fst :=
  foldl_append_map Prod.fst d._intToStr l

theorem getListStr_eq (d : EnumDictionary) (l : List String) :
    d.getListStr l = l ++ d._intToStr.map Prod.snd :=
  foldl_append_map Prod.snd d._intToStr l

theorem names_eq_lookup (d : EnumDictionary) (h : IsMap d._intToStr) :
    d._intToStr.map Prod.snd = (d._intToStr.map Prod.fst).map d.indexInt := by
  rw [List.map_map]
  apply List.map_congr_left
  intro p hp
  simp only [Function.comp, indexInt]
  rw [mapFind_of_mem d._intToStr p.1 p.2 (isMap_nodup_keys _ h) hp]

end EnumDictionary

/-- C30: for every dictionary reached by `init` on a fresh object followed by `append`
and `reset` calls, `getListInts` appends to the given list the codes of the
code-to-name map, each code once, in strictly ascending order; `getListStr` appends
the names in that same order, the i-th name being the lookup of the i-th code;
neither removes what the list held; and two such dictionaries with the same
code-to-name map give the same lists, whatever calls built them. -/
theorem getList_ascending_order_independent (m1 m2 : IntToStr) (f1 f2 : Bool)
    (cs1 cs2 : List EnumDictionary.Call) (l : List Int) (ls : List String)
    (h : ∀ c, mapFind ((EnumDictionary.new.init m1 f1).run cs1)._intToStr c
      = mapFind ((EnumDictionary.new.init m2 f2).run cs2)._intToStr c) :
    ((EnumDictionary.new.init m1 f1).run cs1).getListInts l
        = l ++ ((EnumDictionary.new.init m1 f1).run cs1)._intToStr.map Prod.fst
    ∧ (((EnumDictionary.new.init m1 f1).run cs1)._intToStr.map Prod.fst).Pairwise
        (fun a b => a < b)
    ∧ (∀ c, c ∈ ((EnumDictionary.new.init m1 f1).run cs1)._intToStr.map Prod.fst
        ↔ mapFind ((EnumDictionary.new.init m1 f1).run cs1)._intToStr c ≠ none)
    ∧ ((EnumDictionary.new.init m1 f1).run cs1).getListStr ls
        = ls ++ (((EnumDictionary.new.init m1 f1).run cs1)._intToStr.map Prod.fst).map
            ((EnumDictionary.new.init m1 f1).run cs1).indexInt
    ∧ ((EnumDictionary.new.init m1 f1).run cs1).getListInts l
        = ((EnumDictionary.new.init m2 f2).run cs2).getListInts l
    ∧ ((EnumDictionary.new.init m1 f1).run cs1).getListStr ls
        = ((EnumDictionary.new.init m2 f2).run cs2).getListStr ls := by
  have i1 := EnumDictionary.run_isMap m1 f1 cs1
  have i2 := EnumDictionary.run_isMap m2 f2 cs2
  have e := isMap_ext _ _ i1 i2 h
  generalize (EnumDictionary.new.init m1 f1).run cs1 = d1 at *
  generalize (EnumDictionary.new.init m2 f2).run cs2 = d2 at *
  refine ⟨EnumDictionary.getListInts_eq d1 l, ?_, ?_, ?_, ?_, ?_⟩
  · rw [List.pairwise_map]
    exact i1
  · intro c
    rw [Ne, mapFind_eq_none_iff, List.mem_map]
    constructor
    · rintro ⟨p, hp, rfl⟩ hall
      exact hall p.2 hp
    · intro hn
      by_contra hc
      apply hn
      intro v hv
      exact hc ⟨(c, v), hv, rfl⟩
  · rw [EnumDictionary.getListStr_eq, EnumDictionary.names_eq_lookup d1 i1]
  · rw [EnumDictionary.getListInts_eq, EnumDictionary.getListInts_eq, e]
  · rw [EnumDictionary.getListStr_eq, EnumDictionary.getListStr_eq, e]

/-- C30 (witness): the appends `2 -> "b"` then `1 -> "a"`, and `1 -> "a"` then
`2 -> "b"`, build the same code-to-name map; both list the codes as `1, 2` and the
names as `"a", "b"`, after what the lists held. -/
theorem getList_ascending_order_independent_witness :
    ((EnumDictionary.new.init [] false).run
        [EnumDictionary.Call.append [(2, "b")] false,
         EnumDictionary.Call.append [(1, "a")] false]).getListInts [7] = [7, 1, 2]
    ∧ ((EnumDictionary.new.init [] false).run
        [EnumDictionary.Call.append [(2, "b")] false,
         EnumDictionary.Call.append [(1, "a")] false]).getListStr ["x"] = ["x", "a", "b"]
    ∧ ((EnumDictionary.new.init [] false).run
        [EnumDictionary.Call.append [(2, "b")] false,
         EnumDictionary.Call.append [(1, "a")] false]).getListInts [7]
      = ((EnumDictionary.new.init [] false).run
        [EnumDictionary.Call.append [(1, "a")] false,
         EnumDictionary.Call.append [(2, "b")] false]).getListInts [7] :=
  ⟨by decide, by decide,
   (getList_ascending_order_independent [] [] false false
      [EnumDictionary.Call.append [(2, "b")] false, EnumDictionary.Call.append [(1, "a")] false]
      [EnumDictionary.Call.append [(1, "a")] false, EnumDictionary.Call.append [(2, "b")] false]
      [7] ["x"] (by
        intro c
        have e : ((EnumDictionary.new.init [] false).run
            [EnumDictionary.Call.append [(2, "b")] false,
             EnumDictionary.Call.append [(1, "a")] false])._intToStr
          = ((EnumDictionary.new.init [] false).run
            [EnumDictionary.Call.append [(1, "a")] false,
             EnumDictionary.Call.append [(2, "b")] false])._intToStr := by decide
        rw [e])).2.2.2.2.1⟩

/-! ## Lemmas on reason strings -/

theorem string_ne_empty_of_data (a : String) (h : a.data ≠ []) : a ≠ "" := by
  intro e
  apply h
  rw [e]

theorem append_ne_empty (a b : String) (h : a ≠ "") : a ++ b ≠ "" := by
  intro e
  apply h
  have hd : (a ++ b).data = [] := by rw [e]
  rw [String.data_append] at hd
  have ha : a.data = [] := (List.append_eq_nil.1 hd).1
  exact String.ext ha

theorem startsVisible_append (a b : String) (h : StartsVisible a) : StartsVisible (a ++ b) := by
  obtain ⟨c, t, hd, hc⟩ := h
  exact ⟨c, t ++ b.data, by rw [String.data_append, hd]; rfl, hc⟩

theorem cStr_ne_empty (a : String) (h : StartsVisible a) : cStr a ≠ "" := by
  obtain ⟨c, t, hd, hc⟩ := h
  apply string_ne_empty_of_data
  simp [cStr, hd, List.takeWhile_cons, hc]

theorem startsVisible_cant_set : StartsVisible "can't set " :=
  ⟨'c', "an't set ".data, by decide, by decide⟩

namespace ExactNamesValidator

theorem findName_iff (l : List String) (val : String) : findName l val = true ↔ val ∈ l := by
  induction l with
  | nil => simp [findName]
  | cons a t ih =>
    by_cases h : a = val
    · simp [findName, h]
    · have h' : ¬ val = a := fun e => h e.symm
      simp [findName, h, h', ih]

theorem ctorLoop_itemsList (names : List String) (index : Nat) (v : ExactNamesValidator) :
    (ctorLoop names index v)._itemsList = v._itemsList ++ names := by
  induction names generalizing index v with
  | nil => simp [ctorLoop]
  | cons a t ih => simp [ctorLoop, ih]

theorem intercalate_go_append (p a s : String) (l : List String) :
    String.intercalate.go (p ++ a) s l = p ++ String.intercalate.go a s l := by
  induction l generalizing a with
  | nil => simp [String.intercalate.go]
  | cons b t ih =>
    simp only [String.intercalate.go]
    rw [String.append_assoc, String.append_assoc, ih, String.append_assoc]

theorem ctorLoop_range_succ (names : List String) (index : Nat) (v : ExactNamesValidator) :
    (ctorLoop names (index + 1) v)._InTheRange
      = String.intercalate.go v._InTheRange " " names := by
  induction names generalizing index v with
  | nil => simp [ctorLoop, String.intercalate.go]
  | cons a t ih =>
    simp only [ctorLoop, String.intercalate.go]
    rw [ih]
    simp

theorem new_itemsList (names : List String) : (new names)._itemsList = names := by
  simp [new, ctorLoop_itemsList]

theorem new_range_cons (a : String) (t : List String) :
    (new (a :: t))._InTheRange
      = ". value must be in the range of <" ++ String.intercalate " " (a :: t) ++ ">" := by
  simp only [new, ctorLoop, String.intercalate]
  rw [ctorLoop_range_succ]
  simp only [ne_eq, not_true_eq_false, if_false]
  rw [intercalate_go_append]
  have : (". value must be in the range of " : String) ++ "<"
      = ". value must be in the range of <" := by decide
  rw [this]

end ExactNamesValidator

/-- Support for C21: `ExactNamesValidator(names, len).validate` accepts a candidate if and
only if it equals one of the names, and for a list of one or more names the reason
of a rejection is `can't set <key> to <val>. value must be in the range of`, a
space, and the names in construction order, separated by single spaces and enclosed
in angle brackets. -/
theorem exactNamesValidator_nonempty_list {Properties : Type} (a : String) (t : List String)
    (names : List String) (key val : String) (container : Properties) (whyNot : String) :
    ((ExactNamesValidator.validate (ExactNamesValidator.new names) key val container
        whyNot).1 = true ↔ val ∈ names)
    ∧ (val ∉ a :: t →
        ExactNamesValidator.validate (ExactNamesValidator.new (a :: t)) key val container whyNot
          = (false, "can't set " ++ key ++ " to " ++ val
              ++ (". value must be in the range of <" ++ String.intercalate " " (a :: t)
                ++ ">"))) := by
  constructor
  · unfold ExactNamesValidator.validate
    rw [ExactNamesValidator.new_itemsList]
    by_cases h : val ∈ names
    · simp [(ExactNamesValidator.findName_iff names val).2 h, h]
    · have : ExactNamesValidator.findName names val = false := by
        rw [← Bool.not_eq_true, ExactNamesValidator.findName_iff]
        exact h
      simp [this, h]
  · intro h
    have : ExactNamesValidator.findName (a :: t) val = false := by
      rw [← Bool.not_eq_true, ExactNamesValidator.findName_iff]
      exact h
    unfold ExactNamesValidator.validate
    rw [ExactNamesValidator.new_itemsList, this, ExactNamesValidator.new_range_cons]
    simp

/-- C21 (the code at the failing input): for the empty list of names the reason of a
rejection ends in `in the range of >`: the opening angle bracket is missing. -/
theorem exactNamesValidator_empty_list_reason :
    ExactNamesValidator.validate (ExactNamesValidator.new []) "mode" "fast" () ""
      = (false, "can't set mode to fast. value must be in the range of >") := by
  decide

theorem CharacterValidator.validate_of_length {Properties : Type} (keyname s : String)
    (container : Properties) (whyNot : String) (h : (cStr s).length ≠ 1) :
    CharacterValidator.validate keyname s container whyNot
      = rejectWith (CharacterValidator.lengthReason keyname s) := by
  unfold CharacterValidator.validate
  simp only [String.length] at h ⊢
  rw [if_pos (by omega)]

theorem CharacterValidator.lengthReason_length (keyname s : String) :
    (CharacterValidator.lengthReason keyname s).length
      = (cStr keyname).length + (cStr s).length + 46 := by
  have l1 : "Can't set ".length = 10 := by decide
  have l2 : " to ".length = 4 := by decide
  have l3 : ". Value must be 1 character long".length = 32 := by decide
  simp only [CharacterValidator.lengthReason, String.length_append, l1, l2, l3]
  omega

/-- C22 (counterexample): the candidate made of `a`, a NUL character and `b` is three
characters long and is accepted; the candidate made of one NUL character is one
character long and is rejected. -/
theorem characterValidator_counts_c_string :
    (String.mk ['a', Char.ofNat 0, 'b']).length = 3
    ∧ CharacterValidator.validate "k" (String.mk ['a', Char.ofNat 0, 'b']) () ""
        = some (true, "")
    ∧ (String.mk [Char.ofNat 0]).length = 1
    ∧ CharacterValidator.validate "k" (String.mk [Char.ofNat 0]) () ""
        = some (false, "Can't set k to . Value must be 1 character long") := by
  decide

/-- C22 (amended): `CharacterValidator.validate` accepts a candidate if and only if its
text before the first NUL character is exactly one character long; where the reason
fits the buffer of 1024 bytes, the empty string is rejected, and so is every
candidate with two or more characters before any NUL character.  For a candidate
without a NUL character, that text is the candidate. -/
theorem characterValidator_accepts_iff {Properties : Type} (keyname s : String)
    (container : Properties) (whyNot : String) :
    (CharacterValidator.validate keyname s container whyNot = some (true, "")
      ↔ (cStr s).length = 1)
    ∧ (FitsBuffer (CharacterValidator.lengthReason keyname "") →
        CharacterValidator.validate keyname "" container whyNot
          = some (false, CharacterValidator.lengthReason keyname ""))
    ∧ ((cStr s).length ≥ 2 → FitsBuffer (CharacterValidator.lengthReason keyname s) →
        CharacterValidator.validate keyname s container whyNot
          = some (false, CharacterValidator.lengthReason keyname s))
    ∧ ((∀ c ∈ s.data, c ≠ Char.ofNat 0) →
        (CharacterValidator.validate keyname s container whyNot = some (true, "")
          ↔ s.length = 1)) := by
  have h1 : CharacterValidator.validate keyname s container whyNot = some (true, "")
      ↔ (cStr s).length = 1 := by
    unfold CharacterValidator.validate
    simp only [String.length]
    split_ifs with h
    · constructor
      · intro e
        have := (rejectWith_eq_some _ _ e).1
        simp at this
      · intro e
        omega
    · simp only [true_iff]
      omega
  refine ⟨h1, ?_, ?_, ?_⟩
  · intro hfit
    have hv : CharacterValidator.validate keyname "" container whyNot
        = rejectWith (CharacterValidator.lengthReason keyname "") := by
      simp [CharacterValidator.validate, cStr]
    rw [hv]
    exact rejectWith_of_fits _ hfit
  · intro hlen hfit
    have hv : CharacterValidator.validate keyname s container whyNot
        = rejectWith (CharacterValidator.lengthReason keyname s) := by
      unfold CharacterValidator.validate
      simp only [String.length] at hlen ⊢
      rw [if_pos (Or.inl (by omega))]
    rw [hv]
    exact rejectWith_of_fits _ hfit
  · intro hn
    rw [h1, cStr_of_no_nul s hn]

/-- C22 (witness): with the key `k`, the empty string and `ab` are rejected and `a` is
accepted. -/
theorem characterValidator_accepts_iff_witness :
    CharacterValidator.validate "k" "" () ""
      = some (false, "Can't set k to . Value must be 1 character long")
    ∧ CharacterValidator.validate "k" "ab" () ""
      = some (false, "Can't set k to ab. Value must be 1 character long")
    ∧ CharacterValidator.validate "k" "a" () "" = some (true, "") :=
  have w := characterValidator_accepts_iff "k" "ab" () ""
  have w1 := characterValidator_accepts_iff "k" "a" () ""
  ⟨w.2.1 (by decide), w.2.2.1 (by decide) (by decide), w1.1.2 (by decide)⟩

/-! ## Reasons and independence of the key and the container -/

theorem cant_set_ne_empty (x : String) : "Can't set " ++ x ≠ "" :=
  append_ne_empty _ _ (by decide)

theorem cant_set_lower_ne_empty (x : String) : "can't set " ++ x ≠ "" :=
  append_ne_empty _ _ (by decide)

theorem rejectWith_flag (text : String) (r : Bool × String) (hne : text ≠ "")
    (h : rejectWith text = some r) : r.1 = false ∧ (r.2 = "" ↔ r.1 = true) := by
  have e := (rejectWith_eq_some text r h).1
  rw [e]
  simp [hne]

theorem NumericValidator.reasons_ne_empty (v : NumericValidator) (keyname s : String) :
    NumericValidator.emptyReason keyname ≠ ""
    ∧ NumericValidator.scanReason keyname s ≠ ""
    ∧ v.overBoundReason keyname s ≠ "" := by
  refine ⟨?_, ?_, ?_⟩
  · simp only [NumericValidator.emptyReason, String.append_assoc]
    exact cant_set_ne_empty _
  · simp only [NumericValidator.scanReason, String.append_assoc]
    exact cant_set_ne_empty _
  · unfold NumericValidator.overBoundReason
    split_ifs <;> simp only [NumericValidator.boundReason, String.append_assoc] <;>
      exact cant_set_ne_empty _

theorem numericValidator_flag (v : NumericValidator) (s : String) :
    ∃ d : Bool, ∀ {Properties : Type} (keyname : String) (container : Properties)
      (whyNot : String) (r : Bool × String),
      v.validate keyname s container whyNot = some r → r.1 = d ∧ (r.2 = "" ↔ r.1 = true) := by
  have hacc : ∀ r : Bool × String, some ((true, "") : Bool × String) = some r →
      r.1 = true ∧ (r.2 = "" ↔ r.1 = true) := by
    intro r e
    simp only [Option.some.injEq] at e
    rw [← e]
    simp
  by_cases hs : s = ""
  · refine ⟨false, ?_⟩
    intro P keyname container whyNot r h
    rw [hs, NumericValidator.validate_empty] at h
    exact rejectWith_flag _ r (v.reasons_ne_empty keyname s).1 h
  · by_cases hscan : NumericValidator.scanEnd (cStr s).data = (cStr s).data.length
    · cases hb : extractLongLong (cStr s).data with
      | none =>
        refine ⟨true, ?_⟩
        intro P keyname container whyNot r h
        rw [NumericValidator.validate_of_unwritten v keyname s container whyNot hs hscan hb]
          at h
        split_ifs at h
        exact hacc r h
      | some b =>
        by_cases ho : v.overBound b
        · refine ⟨false, ?_⟩
          intro P keyname container whyNot r h
          rw [NumericValidator.validate_of_scan_end_reject v keyname s container whyNot hs
            hscan b hb ho] at h
          exact rejectWith_flag _ r (v.reasons_ne_empty keyname s).2.2 h
        · refine ⟨true, ?_⟩
          intro P keyname container whyNot r h
          rw [NumericValidator.validate_of_scan_end_accept v keyname s container whyNot hs
            hscan b hb ho] at h
          exact hacc r h
    · refine ⟨false, ?_⟩
      intro P keyname container whyNot r h
      rw [NumericValidator.validate_of_scan_break v keyname s container whyNot hscan] at h
      exact rejectWith_flag _ r (v.reasons_ne_empty keyname s).2.1 h

theorem characterValidator_flag (s : String) :
    ∃ d : Bool, ∀ {Properties : Type} (keyname : String) (container : Properties)
      (whyNot : String) (r : Bool × String),
      CharacterValidator.validate keyname s container whyNot = some r →
        r.1 = d ∧ (r.2 = "" ↔ r.1 = true) := by
  by_cases hl : (cStr s).length = 1
  · refine ⟨true, ?_⟩
    intro P keyname container whyNot r h
    unfold CharacterValidator.validate at h
    simp only [String.length] at hl h
    rw [if_neg (by omega)] at h
    simp only [Option.some.injEq] at h
    rw [← h]
    simp
  · refine ⟨false, ?_⟩
    intro P keyname container whyNot r h
    rw [CharacterValidator.validate_of_length keyname s container whyNot hl] at h
    refine rejectWith_flag _ r ?_ h
    simp only [CharacterValidator.lengthReason, String.append_assoc]
    exact cant_set_ne_empty _

theorem enumerationValidator_reason_iff {Properties : Type} (ttoaList : List String → String)
    (v : EnumerationValidator) (keyname s : String) (container : Properties)
    (whyNot : String) :
    (v.validate ttoaList keyname s container whyNot).2 = ""
      ↔ (v.validate ttoaList keyname s container whyNot).1 = true := by
  unfold EnumerationValidator.validate
  simp only
  split_ifs
  · simp
  · simp only [Bool.false_eq_true, iff_false]
    apply cStr_ne_empty
    repeat apply startsVisible_append
    exact startsVisible_cant_set

theorem finiteRangeValidator_reason_iff {Properties : Type} (v : FiniteRangeValidator)
    (keyname s : String) (container : Properties) (whyNot : String) :
    (v.validate keyname s container whyNot).2 = ""
      ↔ (v.validate keyname s container whyNot).1 = true := by
  unfold FiniteRangeValidator.validate
  simp only
  split_ifs with h1 h2
  · simp
  · simp only [Bool.not_eq_true', decide_eq_false_iff_not] at h2
    simp only [h2, decide_False, Bool.false_eq_true, iff_false]
    apply cStr_ne_empty
    repeat apply startsVisible_append
    exact startsVisible_cant_set
  · simp only [Bool.not_eq_true', decide_eq_false_iff_not, not_not] at h2
    simp [h2]

theorem fileValidator_reason_iff {Properties : Type} (v : FileValidator)
    (keyname s : String) (container : Properties) (whyNot : String) :
    (v.validate keyname s container whyNot).2 = ""
      ↔ (v.validate keyname s container whyNot).1 = true := by
  unfold FileValidator.validate
  simp only
  split_ifs with h1 h2
  · simp
  · simp only [Bool.not_eq_true', decide_eq_false_iff_not] at h2
    simp only [h2, decide_False, Bool.false_eq_true, iff_false]
    apply cStr_ne_empty
    repeat apply startsVisible_append
    exact startsVisible_cant_set
  · simp only [Bool.not_eq_true', decide_eq_false_iff_not, not_not] at h2
    simp [h2]

theorem booleanValidator_flag (v : BooleanValidator) (s : String) :
    ∃ d : Bool, ∀ {Properties : Type} (keyname : String) (container : Properties)
      (whyNot : String) (r : Bool × String),
      v.validate keyname s container whyNot = some r → r.1 = d ∧ (r.2 = "" ↔ r.1 = true) := by
  have hacc : ∀ r : Bool × String, some ((true, "") : Bool × String) = some r →
      r.1 = true ∧ (r.2 = "" ↔ r.1 = true) := by
    intro r e
    simp only [Option.some.injEq] at e
    rw [← e]
    simp
  cases h0 : v._itemsList[0]? with
  | none =>
    refine ⟨true, ?_⟩
    intro P keyname container whyNot r h
    simp [BooleanValidator.validate, h0] at h
  | some i0 =>
    by_cases e0 : i0 = s
    · refine ⟨true, ?_⟩
      intro P keyname container whyNot r h
      simp only [BooleanValidator.validate, h0, e0, if_true] at h
      exact hacc r h
    · cases h1 : v._itemsList[1]? with
      | none =>
        refine ⟨true, ?_⟩
        intro P keyname container whyNot r h
        simp [BooleanValidator.validate, h0, e0, h1] at h
      | some i1 =>
        by_cases e1 : i1 = s
        · refine ⟨true, ?_⟩
          intro P keyname container whyNot r h
          simp only [BooleanValidator.validate, h0, e0, h1, e1, if_true, if_false] at h
          exact hacc r h
        · refine ⟨false, ?_⟩
          intro P keyname container whyNot r h
          simp only [BooleanValidator.validate, h0, e0, h1, e1, if_false] at h
          refine rejectWith_flag _ r ?_ h
          simp only [BooleanValidator.reason, String.append_assoc]
          exact cant_set_ne_empty _

/-- C23 (the code on the calls that return): for `HexStringValidator`, `BooleanValidator`,
`CharacterValidator`, `ExactNamesValidator`, `EnumerationValidator`, `FiniteRangeValidator`,
`FileValidator` and `NumericValidator`, for every configuration, key, candidate,
container and previous content of the reason string, when `validate` returns, the
reason string after it is empty if and only if it returned true. -/
theorem reason_empty_iff_accepted {Properties : Type} (keyname s : String)
    (container : Properties) (whyNot : String) :
    ((HexStringValidator.validate keyname s container whyNot).2 = ""
      ↔ (HexStringValidator.validate keyname s container whyNot).1 = true)
    ∧ (∀ (v : BooleanValidator) (r : Bool × String),
        v.validate keyname s container whyNot = some r → (r.2 = "" ↔ r.1 = true))
    ∧ (∀ r : Bool × String, CharacterValidator.validate keyname s container whyNot = some r →
        (r.2 = "" ↔ r.1 = true))
    ∧ (∀ v : ExactNamesValidator, (v.validate keyname s container whyNot).2 = ""
      ↔ (v.validate keyname s container whyNot).1 = true)
    ∧ (∀ (ttoaList : List String → String) (v : EnumerationValidator),
        (v.validate ttoaList keyname s container whyNot).2 = ""
          ↔ (v.validate ttoaList keyname s container whyNot).1 = true)
    ∧ (∀ v : FiniteRangeValidator, (v.validate keyname s container whyNot).2 = ""
      ↔ (v.validate keyname s container whyNot).1 = true)
    ∧ (∀ v : FileValidator, (v.validate keyname s container whyNot).2 = ""
      ↔ (v.validate keyname s container whyNot).1 = true)
    ∧ (∀ (v : NumericValidator) (r : Bool × String),
        v.validate keyname s container whyNot = some r → (r.2 = "" ↔ r.1 = true)) := by
  refine ⟨?_, ?_, ?_, ?_, ?_, ?_, ?_, ?_⟩
  · unfold HexStringValidator.validate
    simp only
    split_ifs <;>
      simp only [Bool.false_eq_true, iff_false, iff_true, String.append_assoc] <;>
      exact cant_set_ne_empty _
  · intro v r h
    obtain ⟨d, hd⟩ := booleanValidator_flag v s
    exact (hd keyname container whyNot r h).2
  · intro r h
    obtain ⟨d, hd⟩ := characterValidator_flag s
    exact (hd keyname container whyNot r h).2
  · intro v
    unfold ExactNamesValidator.validate
    split_ifs <;>
      simp only [Bool.false_eq_true, iff_false, iff_true, String.append_assoc]
    exact cant_set_lower_ne_empty _
  · intro ttoaList v
    exact enumerationValidator_reason_iff ttoaList v keyname s container whyNot
  · intro v
    exact finiteRangeValidator_reason_iff v keyname s container whyNot
  · intro v
    exact fileValidator_reason_iff v keyname s container whyNot
  · intro v r h
    obtain ⟨d, hd⟩ := numericValidator_flag v s
    exact (hd keyname container whyNot r h).2

/-- C23 (the code at the failing input): the candidate of 1100 letters `a` is not one
character long, and the call of `CharacterValidator.validate` on it returns neither a
flag nor a reason: the reason does not fit the buffer that `sprintf` writes it
to. -/
theorem characterValidator_reason_overruns :
    (cStr (repeated 1100 'a')).length ≠ 1
    ∧ CharacterValidator.validate "k" (repeated 1100 'a') () "" = none := by
  have hlen : (cStr (repeated 1100 'a')).length = 1100 := by
    rw [cStr_repeated 1100 'a' (by decide)]
    exact repeated_length 1100 'a'
  have hne : (cStr (repeated 1100 'a')).length ≠ 1 := by omega
  refine ⟨hne, ?_⟩
  rw [CharacterValidator.validate_of_length "k" (repeated 1100 'a') () "" hne]
  apply rejectWith_of_overrun
  apply not_fits_of_le
  rw [CharacterValidator.lengthReason_length, hlen]
  unfold bufferSize
  omega

/-- C24 (the code on the calls that return): for `HexStringValidator`, `BooleanValidator`,
`CharacterValidator`, `ExactNamesValidator`, `EnumerationValidator`, `FiniteRangeValidator`,
`FileValidator` and `NumericValidator`, two `validate` calls with the same candidate and
the same validator configuration (and dictionary) that both return, return the same
flag, whatever the two keys, the two containers and the two previous reason
strings are.  The container is an argument that the functions only receive: they
return no container. -/
theorem decision_independent_of_key_and_container {P1 P2 : Type} (s k1 k2 w1 w2 : String)
    (c1 : P1) (c2 : P2) :
    (HexStringValidator.validate k1 s c1 w1).1 = (HexStringValidator.validate k2 s c2 w2).1
    ∧ (∀ (v : BooleanValidator) (r1 r2 : Bool × String),
        v.validate k1 s c1 w1 = some r1 → v.validate k2 s c2 w2 = some r2 → r1.1 = r2.1)
    ∧ (∀ r1 r2 : Bool × String, CharacterValidator.validate k1 s c1 w1 = some r1 →
        CharacterValidator.validate k2 s c2 w2 = some r2 → r1.1 = r2.1)
    ∧ (∀ v : ExactNamesValidator, (v.validate k1 s c1 w1).1 = (v.validate k2 s c2 w2).1)
    ∧ (∀ (ttoaList : List String → String) (v : EnumerationValidator),
        (v.validate ttoaList k1 s c1 w1).1 = (v.validate ttoaList k2 s c2 w2).1)
    ∧ (∀ v : FiniteRangeValidator, (v.validate k1 s c1 w1).1 = (v.validate k2 s c2 w2).1)
    ∧ (∀ v : FileValidator, (v.validate k1 s c1 w1).1 = (v.validate k2 s c2 w2).1)
    ∧ (∀ (v : NumericValidator) (r1 r2 : Bool × String),
        v.validate k1 s c1 w1 = some r1 → v.validate k2 s c2 w2 = some r2 → r1.1 = r2.1) := by
  refine ⟨?_, ?_, ?_, ?_, ?_, ?_, ?_, ?_⟩
  · unfold HexStringValidator.validate
    simp only
    split_ifs <;> rfl
  · intro v r1 r2 h1 h2
    obtain ⟨d, hd⟩ := booleanValidator_flag v s
    rw [(hd k1 c1 w1 r1 h1).1, (hd k2 c2 w2 r2 h2).1]
  · intro r1 r2 h1 h2
    obtain ⟨d, hd⟩ := characterValidator_flag s
    rw [(hd k1 c1 w1 r1 h1).1, (hd k2 c2 w2 r2 h2).1]
  · intro v
    unfold ExactNamesValidator.validate
    split_ifs <;> rfl
  · intro ttoaList v
    unfold EnumerationValidator.validate
    simp only
    split_ifs <;> rfl
  · intro v
    unfold FiniteRangeValidator.validate
    simp only
    split_ifs <;> rfl
  · intro v
    unfold FileValidator.validate
    simp only
    split_ifs <;> rfl
  · intro v r1 r2 h1 h2
    obtain ⟨d, hd⟩ := numericValidator_flag v s
    rw [(hd k1 c1 w1 r1 h1).1, (hd k2 c2 w2 r2 h2).1]

/-- C24 (the code at the failing inputs): on the candidate made of one space the
extraction writes nothing to `bigint`, so for a 1-byte type the bound test of
`NumericValidator<T>::validate` reads a variable that was never written and the call
has no defined flag, while for an 8-byte type, which has no bound test, the
candidate is accepted; and on the candidate of 900 letters `a`
`CharacterValidator.validate` returns false with the key `k` and overruns its buffer
with a key of 100 letters. -/
theorem numericValidator_reads_unwritten_bigint :
    extractLongLong (cStr " ").data = none
    ∧ NumericValidator.validate { sizeofT := 1, _isSigned := true } "k" " " () "" = none
    ∧ NumericValidator.validate { sizeofT := 8, _isSigned := true } "k" " " () ""
        = some (true, "")
    ∧ CharacterValidator.validate "k" (repeated 900 'a') () ""
        = some (false, CharacterValidator.lengthReason "k" (repeated 900 'a'))
    ∧ CharacterValidator.validate (repeated 100 'k') (repeated 900 'a') () "" = none := by
  have hlen : (cStr (repeated 900 'a')).length = 900 := by
    rw [cStr_repeated 900 'a' (by decide)]
    exact repeated_length 900 'a'
  have hklen : (cStr (repeated 100 'k')).length = 100 := by
    rw [cStr_repeated 100 'k' (by decide)]
    exact repeated_length 100 'k'
  have hk1 : (cStr "k").length = 1 := by decide
  have hne : (cStr (repeated 900 'a')).length ≠ 1 := by omega
  refine ⟨by decide, by decide, by decide, ?_, ?_⟩
  · rw [CharacterValidator.validate_of_length "k" (repeated 900 'a') () "" hne]
    apply rejectWith_of_fits
    unfold FitsBuffer bufferSize
    rw [CharacterValidator.lengthReason_length, hlen, hk1]
    omega
  · rw [CharacterValidator.validate_of_length (repeated 100 'k') (repeated 900 'a') () "" hne]
    apply rejectWith_of_overrun
    apply not_fits_of_le
    rw [CharacterValidator.lengthReason_length, hlen, hklen]
    unfold bufferSize
    omega

/-! ## Theorems on `Property`, `ProperT`, `RWProperT<bool>` and `Properties::getProperty` -/

/-- C25: `requiresVerification()` is true iff `getVerification()` is not null, and
`verifyValIfRequired()` returns true iff verification is not required or `verifyVal()`
is `E_VERIFICATION_SUCCEEDED`; when verification is required it returns false for
`E_VERIFICATION_FAILED`, `E_VERIFICATION_INACTIVE` and
`E_VERIFICATION_MANUALLY_DEACTIVATED`. -/
theorem verifyValIfRequired_iff (getVerification : Option Nat)
    (verifyVal : Unit → VerificationStatus_e) (a : Nat) :
    (Property.requiresVerification getVerification = true ↔ getVerification ≠ none)
    ∧ (Property.verifyValIfRequired getVerification verifyVal = true
        ↔ (Property.requiresVerification getVerification = false
            ∨ verifyVal () = VerificationStatus_e.E_VERIFICATION_SUCCEEDED))
    ∧ Property.requiresVerification (some a) = true
    ∧ Property.verifyValIfRequired (some a)
        (fun _ => VerificationStatus_e.E_VERIFICATION_SUCCEEDED) = true
    ∧ Property.verifyValIfRequired (some a)
        (fun _ => VerificationStatus_e.E_VERIFICATION_FAILED) = false
    ∧ Property.verifyValIfRequired (some a)
        (fun _ => VerificationStatus_e.E_VERIFICATION_INACTIVE) = false
    ∧ Property.verifyValIfRequired (some a)
        (fun _ => VerificationStatus_e.E_VERIFICATION_MANUALLY_DEACTIVATED) = false := by
  refine ⟨?_, ?_, ?_, ?_, ?_, ?_, ?_⟩
  · cases getVerification <;> simp [Property.requiresVerification]
  · cases getVerification with
    | none => simp [Property.verifyValIfRequired, Property.requiresVerification]
    | some x =>
      simp only [Property.verifyValIfRequired, Property.requiresVerification, ne_eq,
        reduceCtorEq, not_false_eq_true, decide_True, if_true, decide_eq_true_eq,
        Bool.true_eq_false, false_or]
      exact eq_comm
  all_goals simp [Property.verifyValIfRequired, Property.requiresVerification]

/-- C26: `ProperT<T>::operator()(hasValue)` returns the current value `_val`; when
`hasValue` is supplied it stores true iff `loaded != NOT_LOADED` or `modified` is
true, and false exactly for a never-loaded, unmodified property; when `hasValue`
is null nothing is stored; and with the default verifier the property is the same
after the call (value, default value, `loaded`, `modified`, `flags`). -/
theorem properT_call_reads_value {T : Type} (p : ProperT T) (hasValue : Option Bool)
    (b : Bool) :
    (p.call hasValue).1.1 = p._val
    ∧ ((p.call (some b)).1.2 = some true
        ↔ (p.loaded ≠ Property.NOT_LOADED ∨ p.modified = true))
    ∧ ((p.call (some b)).1.2 = some false
        ↔ (p.loaded = Property.NOT_LOADED ∧ p.modified = false))
    ∧ (p.call none).1.2 = none
    ∧ (p.call hasValue).2 = p
    ∧ (p.call hasValue).2._val = p._val
    ∧ (p.call hasValue).2._defaultVal = p._defaultVal
    ∧ (p.call hasValue).2.loaded = p.loaded
    ∧ (p.call hasValue).2.modified = p.modified
    ∧ (p.call hasValue).2.flags = p.flags := by
  refine ⟨rfl, ?_, ?_, rfl, rfl, rfl, rfl, rfl, rfl, rfl⟩
  · simp only [ProperT.call]
    by_cases h1 : Property.NOT_LOADED = p.loaded <;> cases h2 : p.modified <;>
      simp [h1, eq_comm]
  · simp only [ProperT.call]
    by_cases h1 : Property.NOT_LOADED = p.loaded <;> cases h2 : p.modified <;>
      simp [h1, eq_comm]

/-- C27: `RWProperT<bool>::operator()(const int& val)` passes to `setProperty`, under the
name of the property, the boolean `val > 0`, and returns what `setProperty` returns:
0 and every negative integer are set as false, every integer from 1 on as true. -/
theorem rwProperTBool_callInt_coerces {Properties : Type}
    (setProperty : Properties → String → Bool → Bool × Properties) (container : Properties)
    (p : ProperT Bool) (val : Int) :
    RWProperTBool.callInt setProperty container p val
        = setProperty container p.name (decide (val > 0))
    ∧ (val ≤ 0 → RWProperTBool.callInt setProperty container p val
        = setProperty container p.name false)
    ∧ (val ≥ 1 → RWProperTBool.callInt setProperty container p val
        = setProperty container p.name true)
    ∧ RWProperTBool.callInt setProperty container p (-1) = setProperty container p.name false
    ∧ RWProperTBool.callInt setProperty container p 0 = setProperty container p.name false
    ∧ RWProperTBool.callInt setProperty container p 1 = setProperty container p.name true := by
  have key : ∀ v : Int, RWProperTBool.callInt setProperty container p v
      = setProperty container p.name (decide (v > 0)) := by
    intro v
    unfold RWProperTBool.callInt
    by_cases h : v ≤ 0
    · have h' : ¬ v > 0 := by omega
      simp [h, h']
    · have h' : v > 0 := by omega
      simp [h, h']
  refine ⟨key val, ?_, ?_, ?_, ?_, ?_⟩
  · intro h
    have h' : ¬ val > 0 := by omega
    rw [key]
    simp [h']
  · intro h
    have h' : val > 0 := by omega
    rw [key]
    simp [h']
  · rw [key]
    rfl
  · rw [key]
    rfl
  · rw [key]
    rfl

/-- C28: `Properties::getProperty<T>` returns `defaultVal` when `var` has no stored string,
and when a validator is supplied and rejects the stored string; otherwise it
returns the decoding of the stored string into a copy of `defaultVal`.  When
`pexist` is supplied it receives true iff `var` has a stored string, whatever the
validator says; when `pexist` is null nothing is stored. -/
theorem getProperty_default_or_decoded {Registry T : Type}
    (_getProperty : Registry → String → Option String)
    (atotT : T → String → T × List String) (this : Registry) (var : String)
    (defaultVal : T) (pexist : Option Bool) (b : Bool)
    (validator : Option (String → String → Registry → String → Bool × String)) :
    (_getProperty this var = none →
        (Properties.getProperty _getProperty atotT this var defaultVal pexist validator).1.1
          = defaultVal)
    ∧ (∀ validate vs, _getProperty this var = some vs →
        (validate var vs this "").1 = false →
        (Properties.getProperty _getProperty atotT this var defaultVal pexist
          (some validate)).1.1 = defaultVal)
    ∧ (∀ validate vs, _getProperty this var = some vs →
        (validate var vs this "").1 = true →
        (Properties.getProperty _getProperty atotT this var defaultVal pexist
          (some validate)).1.1 = (atotT defaultVal vs).1)
    ∧ (∀ vs, _getProperty this var = some vs →
        (Properties.getProperty _getProperty atotT this var defaultVal pexist none).1.1
          = (atotT defaultVal vs).1)
    ∧ (Properties.getProperty _getProperty atotT this var defaultVal (some b) validator).1.2
        = some (_getProperty this var).isSome
    ∧ (Properties.getProperty _getProperty atotT this var defaultVal none validator).1.2
        = none := by
  refine ⟨?_, ?_, ?_, ?_, ?_, ?_⟩
  · intro h
    cases validator <;> simp [Properties.getProperty, h]
  · intro validate vs h hr
    simp [Properties.getProperty, h, hr]
  · intro validate vs h hr
    simp [Properties.getProperty, h, hr]
  · intro vs h
    simp [Properties.getProperty, h]
  · simp only [Properties.getProperty]
    split_ifs
    · rfl
    · cases _getProperty this var <;> rfl
  · simp only [Properties.getProperty]
    split_ifs
    · rfl
    · cases _getProperty this var <;> rfl

/-- C29 (the code at the failing input): a property built from the validator pointer 7,
which it does not own, returns that pointer, not `nullptr`, from `getValidator`, and
stores false in `*owns`; the same happens after `setValidator` with that pointer. -/
theorem getValidator_returns_borrowed_pointer :
    (Property.newFromPointer none "mode" "" 0 false none (some 7) false).getValidator (some true)
        = (some 7, some false)
    ∧ ((Property.newWithoutValidator none "mode" "" 0 false false).setValidatorPointer
        (some 7)).1.getValidator (some true) = (some 7, some false) := by
  decide

/-- Support for C29: `getValidator` returns the stored pointer whatever the ownership
flag is, and stores the flag in `*owns` when `owns` is not null; the flag is true
after construction from, or `setValidator` with, a validator object, and false after
construction from, or `setValidator` with, a validator pointer. -/
theorem getValidator_and_ownership (p : Property) (b : Bool) (container_ : Option Nat)
    (name_ desc_ : String) (flags_ : Nat) (tboolshit_ : Bool) (data_ : Option Nat)
    (newValidator : Nat) (validator_ : Option Nat) (mandatory_ : Bool) :
    (p.getValidator (some b)) = (p._validator, some p._ownsValidator)
    ∧ (p.getValidator none) = (p._validator, none)
    ∧ (Property.newFromObject container_ name_ desc_ flags_ tboolshit_ data_ newValidator
        mandatory_).getValidator (some b) = (some newValidator, some true)
    ∧ (p.setValidatorObject newValidator).1.getValidator (some b)
        = (some newValidator, some true)
    ∧ (Property.newFromPointer container_ name_ desc_ flags_ tboolshit_ data_ validator_
        mandatory_).getValidator (some b) = (validator_, some false)
    ∧ (p.setValidatorPointer validator_).1.getValidator (some b) = (validator_, some false) :=
  ⟨rfl, rfl, rfl, rfl, rfl, rfl⟩

/-! ## Lemmas on the decimal point, signs and hexadecimal literals -/

namespace NumericValidator

theorem scanFrom_le (isHex : Bool) (l : List Char) (i : Nat) (cd : Bool) :
    scanFrom isHex l i cd ≤ i + l.length := by
  induction l generalizing i cd with
  | nil => simp [scanFrom]
  | cons a t ih =>
    have r1 := ih (i + 1) cd
    have r2 := ih (i + 1) true
    simp only [scanFrom, List.length_cons]
    split_ifs <;> omega

theorem scanFrom_decimal_iff (l : List Char) (i : Nat) :
    scanFrom false l i true = i + l.length ↔ ∀ c ∈ l, c = '0' := by
  induction l generalizing i with
  | nil => simp [scanFrom]
  | cons a t ih =>
    simp only [scanFrom, List.length_cons, List.mem_cons, forall_eq_or_imp]
    by_cases h0 : a = '0'
    · subst h0
      have ha : isalpha '0' = false := by decide
      simp only [ha, Bool.false_and, Bool.not_false, Bool.and_false, Bool.false_eq_true,
        if_false, if_true, ne_eq, not_true_eq_false, true_and]
      rw [← ih (i + 1)]
      omega
    · simp only [h0, false_and, iff_false]
      split_ifs <;> omega

theorem scanFrom_point_iff (l : List Char) (i : Nat)
    (h : ∀ c ∈ l, isdigit c = true ∨ c = '.') :
    scanFrom false l i false = i + l.length ↔ ZerosAfterPoint l := by
  induction l generalizing i with
  | nil => simp [scanFrom, ZerosAfterPoint]
  | cons a t ih =>
    have ht : ∀ c ∈ t, isdigit c = true ∨ c = '.' := fun c hc => h c (List.mem_cons_of_mem _ hc)
    rcases h a (List.mem_cons_self _ _) with hd | hp
    · obtain ⟨_, ha, _, hdot, _⟩ := isdigit_facts a hd
      simp only [scanFrom, ha, hdot, Bool.false_and, Bool.not_false, Bool.and_false,
        Bool.false_eq_true, if_false, List.length_cons]
      have := ih (i + 1) ht
      unfold ZerosAfterPoint at this ⊢
      simp only [List.dropWhile_cons, ne_eq, hdot, not_false_eq_true, decide_True, if_true]
      rw [← this]
      omega
    · subst hp
      have ha : isalpha '.' = false := by decide
      simp only [scanFrom, ha, Bool.false_and, Bool.not_false, Bool.and_false,
        Bool.false_eq_true, if_false, if_true, List.length_cons]
      have := scanFrom_decimal_iff t (i + 1)
      unfold ZerosAfterPoint
      simp only [List.dropWhile_cons, ne_eq, not_true_eq_false, decide_False,
        Bool.false_eq_true, if_false, List.drop_succ_cons, List.drop_zero]
      rw [← this]
      omega

theorem isHexLiteral_of_no_x (l : List Char) (h : ∀ c ∈ l, c ≠ 'x' ∧ c ≠ 'X') :
    isHexLiteral l = false := by
  unfold isHexLiteral
  cases h1 : l[1]? with
  | none => simp
  | some c =>
    have hc : c ∈ l := List.getElem?_mem h1
    simp [(h c hc).1, (h c hc).2]

end NumericValidator

theorem extractLongLong_isSome (l : List Char) (h : l.dropWhile isspace ≠ []) :
    ∃ b, extractLongLong l = some b := by
  unfold extractLongLong
  simp only [h, if_false]
  split_ifs <;> exact ⟨_, rfl⟩

/-- C33 (the code on the candidates whose reason fits the buffer): for a candidate
made of decimal digits and `.` characters, the scan of `NumericValidator<T>::validate`
ends at the end of the text if and only if every character after the first `.` is
the digit `0`.  When the scan does not, the candidate is rejected if the reason fits
the buffer and the call overruns the buffer if it does not; when it does and the
candidate is not empty, a value is extracted and the candidate is accepted unless
that value is over the bound.  So `"3.0"` and `"3."` are accepted, and `"3.5"`, `"3.05"`
and `"1.0.0"` are rejected where the reason fits the buffer. -/
theorem numericValidator_decimal_point {Properties : Type} (v : NumericValidator)
    (keyname s : String) (container : Properties) (whyNot : String)
    (h : ∀ c ∈ s.data, isdigit c = true ∨ c = '.') :
    (NumericValidator.scanEnd (cStr s).data = (cStr s).data.length ↔ ZerosAfterPoint s.data)
    ∧ (¬ ZerosAfterPoint s.data → FitsBuffer (NumericValidator.scanReason keyname s) →
        v.validate keyname s container whyNot
          = some (false, NumericValidator.scanReason keyname s))
    ∧ (¬ ZerosAfterPoint s.data → ¬ FitsBuffer (NumericValidator.scanReason keyname s) →
        v.validate keyname s container whyNot = none)
    ∧ (ZerosAfterPoint s.data → s ≠ "" →
        ∃ b, extractLongLong s.data = some b
          ∧ (v.validate keyname s container whyNot = some (true, "") ↔ ¬ v.overBound b))
    ∧ NumericValidator.validate { sizeofT := 4, _isSigned := true } keyname "3.0" container
        whyNot = some (true, "")
    ∧ NumericValidator.validate { sizeofT := 4, _isSigned := true } keyname "3." container
        whyNot = some (true, "")
    ∧ (FitsBuffer (NumericValidator.scanReason keyname "3.5") →
        v.validate keyname "3.5" container whyNot
          = some (false, NumericValidator.scanReason keyname "3.5"))
    ∧ (FitsBuffer (NumericValidator.scanReason keyname "3.05") →
        v.validate keyname "3.05" container whyNot
          = some (false, NumericValidator.scanReason keyname "3.05"))
    ∧ (FitsBuffer (NumericValidator.scanReason keyname "1.0.0") →
        v.validate keyname "1.0.0" container whyNot
          = some (false, NumericValidator.scanReason keyname "1.0.0")) := by
  have hnul : ∀ c ∈ s.data, c ≠ Char.ofNat 0 := by
    intro c hc
    rcases h c hc with hd | hp
    · exact (isdigit_facts c hd).1
    · rw [hp]
      decide
  have hx : ∀ c ∈ s.data, c ≠ 'x' ∧ c ≠ 'X' := by
    intro c hc
    rcases h c hc with hd | hp
    · exact ⟨(isdigit_facts c hd).2.2.2.2.2.2.1, (isdigit_facts c hd).2.2.2.2.2.2.2⟩
    · rw [hp]
      exact ⟨by decide, by decide⟩
  have hc : cStr s = s := cStr_of_no_nul s hnul
  have hscan : NumericValidator.scanEnd s.data = s.data.length ↔ ZerosAfterPoint s.data := by
    unfold NumericValidator.scanEnd
    rw [NumericValidator.isHexLiteral_of_no_x s.data hx]
    simp only [Bool.false_eq_true, if_false, List.drop_zero]
    have := NumericValidator.scanFrom_point_iff s.data 0 h
    rw [← this]
    omega
  have hbreak : ¬ ZerosAfterPoint s.data →
      v.validate keyname s container whyNot
        = rejectWith (NumericValidator.scanReason keyname s) := by
    intro hz
    apply NumericValidator.validate_of_scan_break
    rw [hc]
    exact fun e => hz (hscan.1 e)
  refine ⟨by rw [hc]; exact hscan, ?_, ?_, ?_, ?_, ?_, ?_, ?_, ?_⟩
  · intro hz hfit
    rw [hbreak hz]
    exact rejectWith_of_fits _ hfit
  · intro hz hfit
    rw [hbreak hz]
    exact rejectWith_of_overrun _ hfit
  · intro hz hs
    have hdrop : s.data.dropWhile isspace ≠ [] := by
      have hne : s.data ≠ [] := fun e => hs (String.ext e)
      obtain ⟨c, t, hct⟩ := List.exists_cons_of_ne_nil hne
      have hsp : isspace c = false := by
        rcases h c (by rw [hct]; exact List.mem_cons_self _ _) with hd | hp
        · exact (isdigit_facts c hd).2.2.1
        · rw [hp]
          decide
      rw [hct, List.dropWhile_cons, hsp]
      simp
    obtain ⟨b, hb⟩ := extractLongLong_isSome s.data hdrop
    have hb' : extractLongLong (cStr s).data = some b := by rw [hc]; exact hb
    have hscan' : NumericValidator.scanEnd (cStr s).data = (cStr s).data.length := by
      rw [hc]
      exact hscan.2 hz
    refine ⟨b, hb, ?_⟩
    constructor
    · intro hacc ho
      rw [NumericValidator.validate_of_scan_end_reject v keyname s container whyNot hs hscan'
        b hb' ho] at hacc
      have := (rejectWith_eq_some _ _ hacc).1
      simp at this
    · intro hno
      exact NumericValidator.validate_of_scan_end_accept v keyname s container whyNot hs
        hscan' b hb' hno
  · exact NumericValidator.validate_of_scan_end_accept _ keyname "3.0" container whyNot
      (by decide) (by decide) 3 (by decide) (by unfold NumericValidator.overBound; decide)
  · exact NumericValidator.validate_of_scan_end_accept _ keyname "3." container whyNot
      (by decide) (by decide) 3 (by decide) (by unfold NumericValidator.overBound; decide)
  · intro hfit
    rw [NumericValidator.validate_of_scan_break _ _ _ _ _ (by decide)]
    exact rejectWith_of_fits _ hfit
  · intro hfit
    rw [NumericValidator.validate_of_scan_break _ _ _ _ _ (by decide)]
    exact rejectWith_of_fits _ hfit
  · intro hfit
    rw [NumericValidator.validate_of_scan_break _ _ _ _ _ (by decide)]
    exact rejectWith_of_fits _ hfit

/-- C33 (the example values): with the key `k`, `"3.00"` is accepted for an unsigned
1-byte type and `"3.5"`, `"3.05"` and `"1.0.0"` are rejected. -/
theorem numericValidator_decimal_point_examples :
    NumericValidator.validate { sizeofT := 1, _isSigned := false } "k" "3.00" () ""
      = some (true, "")
    ∧ (NumericValidator.validate { sizeofT := 1, _isSigned := false } "k" "3.5" () "").map
        Prod.fst = some false
    ∧ (NumericValidator.validate { sizeofT := 1, _isSigned := false } "k" "3.05" () "").map
        Prod.fst = some false
    ∧ (NumericValidator.validate { sizeofT := 1, _isSigned := false } "k" "1.0.0" () "").map
        Prod.fst = some false := by
  refine ⟨by decide, by decide, by decide, by decide⟩

/-- C33 (the code at the failing input): the candidate `3.` followed by 1100 digits `5`
is made of decimal digits and `.`, and a character after its first `.` is not `0`, yet
the call of `NumericValidator<T>::validate` on it does not return false: the reason does
not fit the buffer that `sprintf` writes it to. -/
theorem numericValidator_scan_reason_overruns :
    (∀ c ∈ longDecimal.data, isdigit c = true ∨ c = '.')
    ∧ ¬ ZerosAfterPoint longDecimal.data
    ∧ NumericValidator.validate { sizeofT := 4, _isSigned := true } "k" longDecimal () ""
        = none := by
  have hd : ∀ c ∈ longDecimal.data, isdigit c = true ∨ c = '.' := by
    intro c hc
    simp only [longDecimal, List.mem_cons, List.mem_replicate] at hc
    rcases hc with e | e | e
    · rw [e]
      exact Or.inl (by decide)
    · exact Or.inr e
    · rw [e.2]
      exact Or.inl (by decide)
  have hz : ¬ ZerosAfterPoint longDecimal.data := by
    intro hz
    have hmem : '5' ∈ (longDecimal.data.dropWhile (fun ch => ch ≠ '.')).drop 1 := by
      have e : (longDecimal.data.dropWhile (fun ch => decide (ch ≠ '.'))).drop 1
          = List.replicate 1100 '5' := by
        show ((('3' :: '.' :: List.replicate 1100 '5').dropWhile
          (fun ch => decide (ch ≠ '.'))).drop 1) = List.replicate 1100 '5'
        rw [List.dropWhile_cons_of_pos (by decide), List.dropWhile_cons_of_neg (by decide)]
        rfl
      rw [e]
      exact List.mem_replicate.2 ⟨by decide, rfl⟩
    exact absurd (hz '5' hmem) (by decide)
  refine ⟨hd, hz, ?_⟩
  apply (numericValidator_decimal_point { sizeofT := 4, _isSigned := true } "k" longDecimal
    () "" hd).2.2.1 hz
  apply not_fits_of_le
  have hc : cStr longDecimal = longDecimal := by
    apply cStr_of_no_nul
    intro c hc
    rcases hd c hc with h | h
    · exact (isdigit_facts c h).1
    · rw [h]
      decide
  have hlen : (cStr longDecimal).length = 1102 := by
    rw [hc]
    simp only [longDecimal, String.length, List.length_cons, List.length_replicate]
  simp only [NumericValidator.scanReason, String.length_append, hlen, bufferSize]
  omega

theorem NumericValidator.not_overBound_of_nonpos (v : NumericValidator) (b : Int) (h : b ≤ 0) :
    ¬ v.overBound b := by
  unfold NumericValidator.overBound
  rintro (⟨_, h2⟩ | ⟨_, h2⟩ | ⟨_, h2⟩) <;> split_ifs at h2 <;> omega

theorem isxdigit_facts (c : Char) (h : isxdigit c = true) : c ≠ Char.ofNat 0 ∧ c ≠ '.' := by
  simp only [isxdigit, decide_eq_true_eq] at h
  constructor
  · intro e; rw [e] at h; revert h; decide
  · intro e; rw [e] at h; revert h; decide

theorem NumericValidator.scanFrom_xdigits (l : List Char) (i : Nat)
    (h : ∀ c ∈ l, isxdigit c = true) :
    NumericValidator.scanFrom true l i false = i + l.length := by
  induction l generalizing i with
  | nil => rfl
  | cons c t ih =>
    have hx := h c (List.mem_cons_self _ _)
    have hdot := (isxdigit_facts c hx).2
    simp only [NumericValidator.scanFrom, hx, hdot]
    simp only [Bool.not_true, Bool.and_false, Bool.false_and, Bool.false_eq_true, if_false,
      Bool.and_true]
    rw [ih (i + 1) (fun c hc => h c (List.mem_cons_of_mem _ hc))]
    simp only [List.length_cons]
    omega

theorem extractLongLong_minus_digits (ds : List Char) (hne : ds ≠ [])
    (h : ∀ c ∈ ds, isdigit c = true) :
    extractLongLong ('-' :: ds)
      = some (if -(digitsValue ds : Int) < LLONG_MIN then LLONG_MIN
          else -(digitsValue ds : Int)) := by
  have htw : ds.takeWhile isdigit = ds := by
    rw [List.takeWhile_eq_self_iff]
    exact h
  have hsp : isspace '-' = false := by decide
  unfold extractLongLong
  simp only [List.dropWhile_cons, hsp, Bool.false_eq_true, if_false, List.head?_cons,
    beq_self_eq_true, Bool.true_or, if_true, List.tail_cons, htw, hne]
  simp

theorem extractLongLong_hex (x : Char) (hs : List Char) (hx : x = 'x' ∨ x = 'X') :
    extractLongLong ('0' :: x :: hs) = some 0 := by
  have hsp : isspace '0' = false := by decide
  have hd0 : isdigit '0' = true := by decide
  have hdx : isdigit x = false := by
    rcases hx with e | e <;> subst e <;> decide
  have e1 : (some '0' == some '-') = false := by decide
  have e2 : (some '0' == some '+') = false := by decide
  unfold extractLongLong
  simp only [List.dropWhile_cons, hsp, Bool.false_eq_true, if_false, List.head?_cons, e1, e2,
    Bool.or_self, List.takeWhile_cons, hd0, hdx, if_true]
  have hv : digitsValue ['0'] = 0 := by decide
  simp [hv, LLONG_MAX]

/-- C37: `NumericValidator<T>` enforces no lower bound: for every byte width and both sign
settings, every candidate made of `-` followed by one or more decimal digits is
accepted. -/
theorem numericValidator_accepts_negative {Properties : Type} (v : NumericValidator)
    (keyname s : String) (container : Properties) (whyNot : String) (ds : List Char)
    (hs : s.data = '-' :: ds) (hne : ds ≠ []) (hd : ∀ c ∈ ds, isdigit c = true) :
    v.validate keyname s container whyNot = some (true, "") := by
  have hnul : ∀ c ∈ s.data, c ≠ Char.ofNat 0 := by
    intro c hc
    rw [hs] at hc
    rcases List.mem_cons.1 hc with e | hc
    · rw [e]
      decide
    · exact (isdigit_facts c (hd c hc)).1
  have hx : ∀ c ∈ s.data, c ≠ 'x' ∧ c ≠ 'X' := by
    intro c hc
    rw [hs] at hc
    rcases List.mem_cons.1 hc with e | hc
    · rw [e]
      exact ⟨by decide, by decide⟩
    · exact ⟨(isdigit_facts c (hd c hc)).2.2.2.2.2.2.1, (isdigit_facts c (hd c hc)).2.2.2.2.2.2.2⟩
  have hc : cStr s = s := cStr_of_no_nul s hnul
  have hne' : s ≠ "" := by
    apply string_ne_empty_of_data
    rw [hs]
    simp
  have hscan : NumericValidator.scanEnd s.data = s.data.length := by
    unfold NumericValidator.scanEnd
    rw [NumericValidator.isHexLiteral_of_no_x s.data hx, hs]
    have ha : isalpha '-' = false := by decide
    simp only [Bool.false_eq_true, if_false, List.drop_zero, NumericValidator.scanFrom, ha,
      Bool.false_and, Bool.not_false, Bool.and_false, List.length_cons]
    have hdot : ¬ ('-' = '.') := by decide
    simp only [hdot, if_false]
    rw [NumericValidator.scanFrom_digits ds (0 + 1) hd]
    omega
  exact NumericValidator.validate_of_scan_end_accept v keyname s container whyNot hne'
    (by rw [hc]; exact hscan) _
    (by rw [hc, hs]; exact extractLongLong_minus_digits ds hne hd)
    (by
      apply NumericValidator.not_overBound_of_nonpos
      unfold LLONG_MIN
      split_ifs <;> omega)

/-- C37 (witness): `"-129"` for a signed 1-byte type and `"-1"` for an unsigned 1-byte
type are accepted. -/
theorem numericValidator_accepts_negative_witness :
    "-129".data = '-' :: ['1', '2', '9']
    ∧ NumericValidator.validate { sizeofT := 1, _isSigned := true } "k" "-129" () ""
        = some (true, "")
    ∧ NumericValidator.validate { sizeofT := 1, _isSigned := false } "k" "-1" () ""
        = some (true, "") :=
  ⟨by decide,
   numericValidator_accepts_negative { sizeofT := 1, _isSigned := true } "k" "-129" () ""
     ['1', '2', '9'] (by decide) (by decide) (by decide),
   by decide⟩

/-- C38: every candidate made of `0x` or `0X` followed by one or more hexadecimal
digits is accepted by `NumericValidator<T>` for every byte width and sign setting,
whatever its magnitude: the value tested against the bounds is the decimal
extraction of the text, which reads the leading `0`, stops at the `x` and is 0. -/
theorem numericValidator_accepts_hex_literal {Properties : Type} (v : NumericValidator)
    (keyname s : String) (container : Properties) (whyNot : String) (x : Char)
    (hs : List Char) (hdata : s.data = '0' :: x :: hs) (hx : x = 'x' ∨ x = 'X')
    (hne : hs ≠ []) (hd : ∀ c ∈ hs, c ∈ hexDigitChars) :
    v.validate keyname s container whyNot = some (true, "")
    ∧ extractLongLong (cStr s).data = some 0 := by
  have hd' : ∀ c ∈ hs, isxdigit c = true := fun c hc => (isxdigit_iff_mem c).2 (hd c hc)
  have hxn : x ≠ Char.ofNat 0 := by
    rcases hx with e | e <;> subst e <;> decide
  have hnul : ∀ c ∈ s.data, c ≠ Char.ofNat 0 := by
    intro c hc
    rw [hdata] at hc
    simp only [List.mem_cons] at hc
    rcases hc with e | e | hc
    · rw [e]
      decide
    · rw [e]
      exact hxn
    · exact (isxdigit_facts c (hd' c hc)).1
  have hc : cStr s = s := cStr_of_no_nul s hnul
  have hne' : s ≠ "" := by
    apply string_ne_empty_of_data
    rw [hdata]
    simp
  have hlen : hs.length > 0 := List.length_pos.2 hne
  have hhex : NumericValidator.isHexLiteral s.data = true := by
    rw [NumericValidator.isHexLiteral_iff, hdata]
    refine ⟨by simp only [List.length_cons]; omega, ?_⟩
    rcases hx with e | e <;> subst e <;> simp
  have hscan : NumericValidator.scanEnd s.data = s.data.length := by
    unfold NumericValidator.scanEnd
    rw [hhex, hdata]
    simp only [if_true, List.drop_succ_cons, List.drop_zero, List.length_cons]
    rw [NumericValidator.scanFrom_xdigits hs 2 hd']
    omega
  have hval : extractLongLong (cStr s).data = some 0 := by
    rw [hc, hdata]
    exact extractLongLong_hex x hs hx
  exact ⟨NumericValidator.validate_of_scan_end_accept v keyname s container whyNot hne'
    (by rw [hc]; exact hscan) 0 hval
    (NumericValidator.not_overBound_of_nonpos v 0 (le_refl 0)), hval⟩

/-- C38 (witness): `"0xFFFF"` is accepted for an unsigned 1-byte type. -/
theorem numericValidator_accepts_hex_literal_witness :
    "0xFFFF".data = '0' :: 'x' :: ['F', 'F', 'F', 'F']
    ∧ NumericValidator.validate { sizeofT := 1, _isSigned := false } "k" "0xFFFF" () ""
        = some (true, "")
    ∧ extractLongLong (cStr "0xFFFF").data = some 0 :=
  have w := numericValidator_accepts_hex_literal { sizeofT := 1, _isSigned := false } "k"
    "0xFFFF" () "" 'x' ['F', 'F', 'F', 'F'] (by decide) (Or.inl rfl) (by decide) (by decide)
  ⟨by decide, w.1, w.2⟩

/-! ## Lemmas on names that several codes carry -/

theorem lastWith_eq_none_iff (L : IntToStr) (n : String) :
    lastWith L n = none ↔ ∀ c, (c, n) ∉ L := by
  induction L with
  | nil => simp [lastWith]
  | cons p t ih =>
    obtain ⟨k, x⟩ := p
    simp only [lastWith]
    cases ht : lastWith t n with
    | some c' =>
      simp only [reduceCtorEq, false_iff, not_forall, not_not]
      have : ¬ ∀ c, (c, n) ∉ t := fun hall => by
        rw [ih.2 hall] at ht
        exact Option.noConfusion ht
      simp only [not_forall, not_not] at this
      obtain ⟨c, hc⟩ := this
      exact ⟨c, List.mem_cons_of_mem _ hc⟩
    | none =>
      have hnone := ih.1 ht
      by_cases hx : x = n
      · subst hx
        simp only [if_true, reduceCtorEq, false_iff, not_forall, not_not]
        exact ⟨k, List.mem_cons_self _ _⟩
      · simp only [hx, if_false, true_iff]
        intro c hc
        rcases List.mem_cons.1 hc with e | hc
        · simp only [Prod.mk.injEq] at e
          exact hx e.2.symm
        · exact hnone c hc

theorem lastWith_spec (L : IntToStr) (n : String) (c : Int) (hL : IsMap L)
    (h : lastWith L n = some c) : (c, n) ∈ L ∧ ∀ c', (c', n) ∈ L → c' ≤ c := by
  induction L with
  | nil => simp [lastWith] at h
  | cons p t ih =>
    obtain ⟨k, x⟩ := p
    unfold IsMap at hL ih
    rw [List.pairwise_cons] at hL
    simp only [lastWith] at h
    cases ht : lastWith t n with
    | some c' =>
      rw [ht] at h
      simp only [Option.some.injEq] at h
      subst h
      obtain ⟨hmem, hmax⟩ := ih hL.2 ht
      refine ⟨List.mem_cons_of_mem _ hmem, ?_⟩
      intro c'' hc''
      rcases List.mem_cons.1 hc'' with e | hc''
      · simp only [Prod.mk.injEq] at e
        have := hL.1 _ hmem
        simp only at this
        omega
      · exact hmax c'' hc''
    | none =>
      rw [ht] at h
      simp only at h
      split_ifs at h with hx
      simp only [Option.some.injEq] at h
      subst h
      subst hx
      refine ⟨List.mem_cons_self _ _, ?_⟩
      intro c'' hc''
      rcases List.mem_cons.1 hc'' with e | hc''
      · simp only [Prod.mk.injEq] at e
        omega
      · exact absurd hc'' ((lastWith_eq_none_iff t x).1 ht c'')

theorem foldl_strToInt_find (L : IntToStr) (s : StrToInt) (n : String) :
    mapFind (L.foldl (fun l it => mapAssign strLess l it.2 it.1) s) n
      = match lastWith L n with
        | some c => some c
        | none => mapFind s n := by
  induction L generalizing s with
  | nil => simp [lastWith]
  | cons p t ih =>
    obtain ⟨k, x⟩ := p
    rw [List.foldl_cons, ih]
    simp only [lastWith]
    cases lastWith t n with
    | some c' => rfl
    | none =>
      simp only [mapFind_mapAssign]
      by_cases hx : x = n
      · subst hx
        simp
      · have hx' : ¬ n = x := fun e => hx e.symm
        simp [hx, hx']

/-! ## Theorems on verification, name lookups, `AlwaysTrueValidator` and loading -/

/-- C34: for every `ProperT<T, DefaultVerifier>`, `getVerification()` is null,
`requiresVerification()` is false, `verifyVal()` and `getLastVerificationStatus()` both
return `E_VERIFICATION_INACTIVE`, and `verifyValIfRequired()` returns true. -/
theorem defaultVerifier_is_inactive {T : Type} (p : ProperT T) :
    p.getVerification = none
    ∧ p.requiresVerification = false
    ∧ p.verifyVal = VerificationStatus_e.E_VERIFICATION_INACTIVE
    ∧ p.getLastVerificationStatus = VerificationStatus_e.E_VERIFICATION_INACTIVE
    ∧ p.verifyValIfRequired = true := by
  refine ⟨rfl, ?_, rfl, rfl, ?_⟩
  · simp [ProperT.requiresVerification, ProperT.getVerification,
      DefaultVerifier.getPropVerification, Property.requiresVerification]
  · simp [ProperT.verifyValIfRequired, ProperT.getVerification,
      DefaultVerifier.getPropVerification, Property.verifyValIfRequired,
      Property.requiresVerification]

/-- C35: in every state reached by `init` on a fresh dictionary followed by `append`
and `reset` calls, every name `n` that is a key of the name-to-code map has its
code present in the code-to-name map and mapped back to `n`:
`lookup(lookup(n)) = n`. -/
theorem name_round_trip (m : IntToStr) (f : Bool) (cs : List EnumDictionary.Call)
    (n : String) (c : Int) (hm : IsMap m)
    (hn : mapFind ((EnumDictionary.new.init m f).run cs)._strToInt n = some c) :
    ((EnumDictionary.new.init m f).run cs).indexStr n = c
    ∧ mapFind ((EnumDictionary.new.init m f).run cs)._intToStr c = some n
    ∧ ((EnumDictionary.new.init m f).run cs).indexInt
        (((EnumDictionary.new.init m f).run cs).indexStr n) = n := by
  have h1 := (EnumDictionary.run_linked m f cs hm).1 n c hn
  have e : ((EnumDictionary.new.init m f).run cs).indexStr n = c := by
    simp [EnumDictionary.indexStr, hn]
  refine ⟨e, h1, ?_⟩
  rw [e]
  simp [EnumDictionary.indexInt, h1]

/-- C35 (witness): after `init` with `1 -> "a", 2 -> "a"`, an `append` of `3 -> "b"` and
a `reset()`, the name `"a"` is looked up as 2, and 2 as `"a"`. -/
theorem name_round_trip_witness :
    IsMap [((1 : Int), "a"), (2, "a")]
    ∧ ((EnumDictionary.new.init [(1, "a"), (2, "a")] false).run
        [EnumDictionary.Call.append [(3, "b")] false, EnumDictionary.Call.reset]).indexStr "a"
        = 2
    ∧ ((EnumDictionary.new.init [(1, "a"), (2, "a")] false).run
        [EnumDictionary.Call.append [(3, "b")] false, EnumDictionary.Call.reset]).indexInt
        (((EnumDictionary.new.init [(1, "a"), (2, "a")] false).run
          [EnumDictionary.Call.append [(3, "b")] false, EnumDictionary.Call.reset]).indexStr
          "a") = "a" :=
  have w := name_round_trip [(1, "a"), (2, "a")] false
    [EnumDictionary.Call.append [(3, "b")] false, EnumDictionary.Call.reset] "a" 2
    (by decide) (by decide)
  ⟨by decide, w.1, w.2.2⟩

/-- C36: after `init(m, f)` on a fresh dictionary, for every name `n` that occurs as a
value of `m`, the lookup of `n` is the largest code of `m` that carries `n`, while
every code of `m` that carries `n` is still looked up as `n`. -/
theorem init_name_resolves_to_greatest_code (m : IntToStr) (f : Bool) (n : String) (c' : Int)
    (hm : IsMap m) (hmem : (c', n) ∈ m) :
    (∃ c, mapFind (EnumDictionary.new.init m f)._strToInt n = some c
      ∧ (EnumDictionary.new.init m f).indexStr n = c
      ∧ (c, n) ∈ m ∧ ∀ c'', (c'', n) ∈ m → c'' ≤ c)
    ∧ (EnumDictionary.new.init m f).indexInt c' = n := by
  constructor
  · cases hl : lastWith m n with
    | none => exact absurd hmem ((lastWith_eq_none_iff m n).1 hl c')
    | some c =>
      have hfind : mapFind (EnumDictionary.new.init m f)._strToInt n = some c := by
        rw [EnumDictionary.init_strToInt, foldl_strToInt_find, hl]
      obtain ⟨h1, h2⟩ := lastWith_spec m n c hm hl
      exact ⟨c, hfind, by simp [EnumDictionary.indexStr, hfind], h1, h2⟩
  · unfold EnumDictionary.indexInt
    rw [EnumDictionary.init_new_intToStr m f hm,
      mapFind_of_mem m c' n (isMap_nodup_keys m hm) hmem]

/-- C36 (witness): with `1 -> "a", 2 -> "b", 3 -> "a"` the name `"a"` is looked up as 3,
and code 1 is still looked up as `"a"`. -/
theorem init_name_resolves_to_greatest_code_witness :
    IsMap [((1 : Int), "a"), (2, "b"), (3, "a")]
    ∧ (EnumDictionary.new.init [(1, "a"), (2, "b"), (3, "a")] true).indexStr "a" = 3
    ∧ (EnumDictionary.new.init [(1, "a"), (2, "b"), (3, "a")] true).indexInt 1 = "a" :=
  ⟨by decide, by decide,
   (init_name_resolves_to_greatest_code [(1, "a"), (2, "b"), (3, "a")] true "a" 1
      (by decide) (by decide)).2⟩

/-- C39: `AlwaysTrueValidator.validate` returns true for every key, candidate and
container and leaves the reason string as the caller passed it, so a reason that
was not empty is not empty after the acceptance; `HexStringValidator`, for one,
clears it when it accepts. -/
theorem alwaysTrueValidator_keeps_reason {Properties : Type} (v : AlwaysTrueValidator)
    (keyname s : String) (container : Properties) (whyNot : String) :
    v.validate keyname s container whyNot = (true, whyNot)
    ∧ (v.validate keyname s container "stale").2 = "stale"
    ∧ HexStringValidator.validate keyname "0" container "stale" = (true, "") :=
  ⟨rfl, rfl, by simp [HexStringValidator.validate]⟩

/-! ## Lemmas and theorem on the load protocol -/

namespace LoadRegistry

theorem findProperty_some {V : Type} (r : LoadRegistry V) (k : String) (q : LoadProperty V)
    (h : r.findProperty k = some q) : q.name = k ∧ q ∈ r._properTies := by
  unfold findProperty at h
  have h1 := List.find?_some h
  have h2 := List.mem_of_find?_eq_some h
  simp only [beq_iff_eq] at h1
  exact ⟨h1, h2⟩

theorem commitProperty_name {V : Type} (k v : String) (source : Nat) (prev : Option String)
    (q : LoadProperty V) :
    (commitProperty k v source prev q).name = q.name
    ∧ (commitProperty k v source prev q).validator = q.validator := by
  unfold commitProperty
  split_ifs <;> exact ⟨rfl, rfl⟩

theorem commitProperty_other {V : Type} (k v : String) (source : Nat) (prev : Option String)
    (q : LoadProperty V) (h : q.name ≠ k) : commitProperty k v source prev q = q := by
  unfold commitProperty
  rw [if_neg h]

theorem find_map_commitProperty {V : Type} (l : List (LoadProperty V)) (k v key : String)
    (source : Nat) (prev : Option String) (p : LoadProperty V) (hk : k ≠ key)
    (h : l.find? (fun q => q.name == key) = some p) :
    (l.map (commitProperty k v source prev)).find? (fun q => q.name == key) = some p := by
  induction l with
  | nil => simp at h
  | cons a t ih =>
    simp only [List.map_cons, List.find?_cons]
    rw [(commitProperty_name k v source prev a).1]
    simp only [List.find?_cons] at h
    by_cases ha : (a.name == key) = true
    · simp only [ha] at h ⊢
      have hak : a.name ≠ k := by
        intro e
        simp only [beq_iff_eq] at ha
        exact hk (e.symm.trans ha)
      rw [commitProperty_other k v source prev a hak]
      exact h
    · simp only [Bool.not_eq_true] at ha
      simp only [ha] at h ⊢
      exact ih h

theorem commitEntry_keeps {V : Type} (r rs : LoadRegistry V) (p : LoadProperty V)
    (key k v : String) (source : Nat) (hk : k ≠ key) (h : Keeps r p key rs) :
    Keeps r p key (rs.commitEntry k v source).1 := by
  obtain ⟨h1, h2, h3, h4⟩ := h
  unfold commitEntry
  cases hq : rs.findProperty k with
  | none => exact ⟨h1, h2, h3, h4⟩
  | some q =>
    simp only
    split_ifs with hacc
    · refine ⟨?_, ?_, h3, ?_⟩
      · exact find_map_commitProperty rs._properTies k v key source _ p hk h1
      · simp only
        rw [mapFind_mapAssign_ne strLess rs._map k key v (fun e => hk e.symm)]
        exact h2
      · intro q' hq'
        simp only [List.mem_map] at hq'
        obtain ⟨q1, hq1, rfl⟩ := hq'
        obtain ⟨q0, hq0, hn, hv⟩ := h4 q1 hq1
        refine ⟨q0, hq0, ?_, ?_⟩
        · rw [hn, (commitProperty_name k v source _ q1).1]
        · rw [hv, (commitProperty_name k v source _ q1).2]
    · refine ⟨h1, h2, ?_, h4⟩
      simp only [List.filter_append, List.filter_cons, List.filter_nil]
      have : decide (k = key) = false := by simpa using hk
      simp only [this, Bool.false_eq_true, if_false, List.append_nil]
      exact h3

theorem commitEntry_accepts {V : Type} (r rs : LoadRegistry V) (p : LoadProperty V)
    (key k v : String) (source : Nat) (h : Keeps r p key rs)
    (hacc : ∀ q ∈ r._properTies, q.name = k →
      ∀ f, q.validator = some f → ∀ mirror, (f k v mirror).1 = true) :
    (rs.commitEntry k v source).1._rejectedFields = rs._rejectedFields
    ∧ (rs.commitEntry k v source).2 = true := by
  obtain ⟨_, _, _, h4⟩ := h
  unfold commitEntry
  cases hq : rs.findProperty k with
  | none => exact ⟨rfl, rfl⟩
  | some q =>
    obtain ⟨hqn, hqm⟩ := findProperty_some rs k q hq
    obtain ⟨q0, hq0, hn, hv⟩ := h4 q hqm
    have hyes : (match q.validator with
        | some validate => (validate k v rs._map).1
        | none => true) = true := by
      cases hf : q.validator with
      | none => rfl
      | some f =>
        simp only
        exact hacc q0 hq0 (hn.trans hqn) f (hv.trans hf) rs._map
    simp only [hyes, if_true, and_self]

theorem commitEntry_rejects {V : Type} (rs : LoadRegistry V) (p : LoadProperty V)
    (key value : String) (source : Nat)
    (validate : String → String → List (String × String) → Bool × String)
    (hfind : rs.findProperty key = some p) (hval : p.validator = some validate)
    (hrej : (validate key value rs._map).1 = false) :
    rs.commitEntry key value source
      = ({ rs with _rejectedFields := rs._rejectedFields ++ [(key, value)] }, false) := by
  simp [commitEntry, hfind, hval, hrej]

theorem loadLines_append {V : Type} (source : Nat) (filter : Option String)
    (l1 l2 : List LoadLine) (current : String) (r : LoadRegistry V) (ok : Bool) :
    loadLines source filter (l1 ++ l2) current r ok
      = loadLines source filter l2 (sectionAfter l1 current)
          (loadLines source filter l1 current r ok).1
          (loadLines source filter l1 current r ok).2 := by
  induction l1 generalizing current r ok with
  | nil => rfl
  | cons a t ih =>
    cases a with
    | blank => exact ih current r ok
    | sectionHeader name => exact ih name r ok
    | pair k v =>
      simp only [List.cons_append, loadLines, sectionAfter]
      split_ifs
      · exact ih current r ok
      · exact ih current _ _

theorem loadLines_keeps {V : Type} (source : Nat) (filter : Option String)
    (r : LoadRegistry V) (p : LoadProperty V) (key : String) (lines : List LoadLine)
    (current : String) (rs : LoadRegistry V) (ok : Bool)
    (hlines : ∀ v, LoadLine.pair key v ∉ lines) (h : Keeps r p key rs) :
    Keeps r p key (loadLines source filter lines current rs ok).1 := by
  induction lines generalizing current rs ok with
  | nil => exact h
  | cons a t ih =>
    have ht : ∀ v, LoadLine.pair key v ∉ t := fun v hv => hlines v (List.mem_cons_of_mem _ hv)
    cases a with
    | blank => exact ih current rs ok ht h
    | sectionHeader name => exact ih name rs ok ht h
    | pair k v =>
      have hk : k ≠ key := by
        intro e
        apply hlines v
        rw [e]
        exact List.mem_cons_self _ _
      simp only [loadLines]
      split_ifs
      · exact ih current rs ok ht h
      · exact ih current _ _ ht (commitEntry_keeps r rs p key k v source hk h)

theorem loadLines_accepts {V : Type} (source : Nat) (filter : Option String)
    (r : LoadRegistry V) (p : LoadProperty V) (key : String) (lines : List LoadLine)
    (current : String) (rs : LoadRegistry V) (ok : Bool)
    (hlines : ∀ v, LoadLine.pair key v ∉ lines) (h : Keeps r p key rs)
    (hacc : AcceptsPairs r lines) :
    (loadLines source filter lines current rs ok).1._rejectedFields = rs._rejectedFields := by
  induction lines generalizing current rs ok with
  | nil => rfl
  | cons a t ih =>
    have ht : ∀ v, LoadLine.pair key v ∉ t := fun v hv => hlines v (List.mem_cons_of_mem _ hv)
    have hat : AcceptsPairs r t := fun k v hkv => hacc k v (List.mem_cons_of_mem _ hkv)
    cases a with
    | blank => exact ih current rs ok ht h hat
    | sectionHeader name => exact ih name rs ok ht h hat
    | pair k v =>
      have hk : k ≠ key := by
        intro e
        apply hlines v
        rw [e]
        exact List.mem_cons_self _ _
      simp only [loadLines]
      split_ifs
      · exact ih current rs ok ht h hat
      · rw [ih current _ _ ht (commitEntry_keeps r rs p key k v source hk h) hat]
        exact (commitEntry_accepts r rs p key k v source h
          (hacc k v (List.mem_cons_self _ _))).1

theorem loadLines_false {V : Type} (source : Nat) (filter : Option String)
    (lines : List LoadLine) (current : String) (rs : LoadRegistry V) :
    (loadLines source filter lines current rs false).2 = false := by
  induction lines generalizing current rs with
  | nil => rfl
  | cons a t ih =>
    cases a with
    | blank => exact ih current rs
    | sectionHeader name => exact ih name rs
    | pair k v =>
      simp only [loadLines]
      split_ifs
      · exact ih current rs
      · simp only [Bool.false_and]
        exact ih current _

end LoadRegistry

/-- C31: in the load protocol of the specification, for every registry with a
registered property `p` whose validator rejects a candidate value, loading an input
that has one pair setting `p` to that value, in a section that the load reads, and
before and after it any lines that do not set `p`, leaves `p`, its typed value
included, and the string mirror entry of `p` unchanged, adds exactly one entry for
`p`, the pair, to the list that `rejectedFields()` returns, and reports failure;
when every other pair of the input has a value that the validators accept, that
entry is the only one added. -/
theorem load_rejected_value_not_committed {V : Type} (r : LoadRegistry V) (p : LoadProperty V)
    (key value : String) (source : Nat) (filter : Option String) (pre post : List LoadLine)
    (validate : String → String → List (String × String) → Bool × String)
    (hfind : r.findProperty key = some p) (hval : p.validator = some validate)
    (hrej : ∀ mirror, (validate key value mirror).1 = false)
    (hactive : filter = none ∨ filter = some (LoadRegistry.sectionAfter pre ""))
    (hpre : ∀ v, LoadLine.pair key v ∉ pre) (hpost : ∀ v, LoadLine.pair key v ∉ post) :
    (r.load (pre ++ LoadLine.pair key value :: post) filter source).1.findProperty key = some p
    ∧ mapFind (r.load (pre ++ LoadLine.pair key value :: post) filter source).1._map key
        = mapFind r._map key
    ∧ (r.load (pre ++ LoadLine.pair key value :: post) filter source).1.rejectedFields.filter
          (fun e => decide (e.1 = key))
        = r.rejectedFields.filter (fun e => decide (e.1 = key)) ++ [(key, value)]
    ∧ (r.load (pre ++ LoadLine.pair key value :: post) filter source).2 = false
    ∧ (LoadRegistry.AcceptsPairs r (pre ++ post) →
        (r.load (pre ++ LoadLine.pair key value :: post) filter source).1.rejectedFields
          = r.rejectedFields ++ [(key, value)]) := by
  have hk0 : LoadRegistry.Keeps r p key r := ⟨hfind, rfl, rfl, fun q hq => ⟨q, hq, rfl, rfl⟩⟩
  have hk1 := LoadRegistry.loadLines_keeps source filter r p key pre "" r true hpre hk0
  have hact : (filter.isSome && filter != some (LoadRegistry.sectionAfter pre "")) = false := by
    rcases hactive with e | e <;> rw [e] <;> simp
  have hce := LoadRegistry.commitEntry_rejects
    (LoadRegistry.loadLines source filter pre "" r true).1 p key value source validate
    hk1.1 hval (hrej _)
  have hload : r.load (pre ++ LoadLine.pair key value :: post) filter source
      = LoadRegistry.loadLines source filter post (LoadRegistry.sectionAfter pre "")
          { (LoadRegistry.loadLines source filter pre "" r true).1 with
            _rejectedFields :=
              (LoadRegistry.loadLines source filter pre "" r true).1._rejectedFields
                ++ [(key, value)] } false := by
    unfold LoadRegistry.load
    rw [LoadRegistry.loadLines_append]
    simp only [LoadRegistry.loadLines, hact, Bool.false_eq_true, if_false, hce, Bool.and_false]
  have hk2 : LoadRegistry.Keeps
      { r with _rejectedFields := r._rejectedFields ++ [(key, value)] } p key
      { (LoadRegistry.loadLines source filter pre "" r true).1 with
        _rejectedFields :=
          (LoadRegistry.loadLines source filter pre "" r true).1._rejectedFields
            ++ [(key, value)] } := by
    refine ⟨hk1.1, hk1.2.1, ?_, hk1.2.2.2⟩
    simp only [List.filter_append]
    rw [hk1.2.2.1]
  have hk3 := LoadRegistry.loadLines_keeps source filter _ p key post
    (LoadRegistry.sectionAfter pre "") _ false hpost hk2
  rw [hload]
  refine ⟨hk3.1, hk3.2.1, ?_, LoadRegistry.loadLines_false _ _ _ _ _, ?_⟩
  · unfold LoadRegistry.rejectedFields
    rw [hk3.2.2.1]
    simp [List.filter_append]
  · intro hacc
    have hpreAcc : LoadRegistry.AcceptsPairs r pre :=
      fun k v hkv => hacc k v (List.mem_append_left _ hkv)
    have hpostAcc : LoadRegistry.AcceptsPairs
        { r with _rejectedFields := r._rejectedFields ++ [(key, value)] } post :=
      fun k v hkv => hacc k v (List.mem_append_right _ hkv)
    unfold LoadRegistry.rejectedFields
    rw [LoadRegistry.loadLines_accepts source filter _ p key post _ _ false hpost hk2 hpostAcc]
    simp only
    rw [LoadRegistry.loadLines_accepts source filter r p key pre "" r true hpre hk0 hpreAcc]

/-- C31 (witness): the scenario of section 8 of the specification: the lines `[net]`,
`retries=3` and `mode=turbo` are loaded with the section `net`; `retries` becomes 3,
`mode` stays `fast`, and the one rejected field is `mode=turbo`. -/
theorem load_rejected_value_not_committed_witness :
    ((LoadRegistry.scenario.load
        ([LoadLine.sectionHeader "net", LoadLine.pair "retries" "3"]
          ++ LoadLine.pair "mode" "turbo" :: []) (some "net") 1).1._properTies.map
        (fun q => (q.name, q.val))) = [("retries", "3"), ("mode", "fast")]
    ∧ (LoadRegistry.scenario.load
        ([LoadLine.sectionHeader "net", LoadLine.pair "retries" "3"]
          ++ LoadLine.pair "mode" "turbo" :: []) (some "net") 1).1.rejectedFields
        = [("mode", "turbo")]
    ∧ (LoadRegistry.scenario.load
        ([LoadLine.sectionHeader "net", LoadLine.pair "retries" "3"]
          ++ LoadLine.pair "mode" "turbo" :: []) (some "net") 1).2 = false :=
  have w := load_rejected_value_not_committed LoadRegistry.scenario
    { name := "mode",
      validator := some (fun _ v _ => (decide (v = "fast" ∨ v = "slow"), "")),
      decode := fun _ v => v, val := "fast", loaded := 0, modified := false }
    "mode" "turbo" 1 (some "net") [LoadLine.sectionHeader "net", LoadLine.pair "retries" "3"] []
    (fun _ v _ => (decide (v = "fast" ∨ v = "slow"), ""))
    rfl rfl (fun _ => by simp) (Or.inr rfl) (by simp) (by simp)
  ⟨by decide, w.2.2.2.2 (by
      intro k v hkv q hq hn f hf mirror
      have hkv' : k = "retries" ∧ v = "3" := by
        simp only [List.append_nil, List.mem_cons, List.mem_singleton, LoadLine.pair.injEq,
          List.not_mem_nil, or_false] at hkv
        rcases hkv with e | e
        · exact LoadLine.noConfusion e
        · exact e
      simp only [LoadRegistry.scenario, List.mem_cons, List.mem_singleton,
        List.not_mem_nil, or_false] at hq
      rcases hq with e | e
      · rw [e] at hf
        simp only [Option.some.injEq] at hf
        rw [← hf, hkv'.2]
        simp
      · rw [e, hkv'.1] at hn
        exact absurd hn (by decide)), w.2.2.2.1⟩

/-! ## `EnumDictionary::set` under every schedule of its threads -/

namespace SetWorld

theorem setThread_newVal (w : SetWorld) (i : Nat) (t : SetThread)
    (ht : t.newVal = (w.threads i).newVal) (j : Nat) :
    (setThread w i t j).newVal = (w.threads j).newVal := by
  unfold setThread
  split_ifs with hj
  · rw [ht, hj]
  · rfl

theorem start_inv (args : Nat → IntToStr × Bool) : Inv args start := by
  constructor <;> simp [start]

theorem step_inv (args : Nat → IntToStr × Bool) (w : SetWorld) (i : Nat) (h : Inv args w) :
    Inv args (step args w i) := by
  cases hpc : (w.threads i).pc with
  | build =>
    have hnv : (w.threads i).newVal = none := (h.build_newVal i).1 hpc
    simp only [step, hpc]
    constructor
    · intro j
      by_cases hj : j = i
      · simp [setThread, hj]
      · simp only [setThread, hj, if_false]
        exact h.build_newVal j
    · intro j a hja
      by_cases hj : j = i
      · simp only [setThread, hj, if_true, Option.some.injEq] at hja
        simp only
        omega
      · simp only [setThread, hj, if_false] at hja
        have := h.lt_next j a hja
        simp only
        omega
    · intro j k a hja hka
      by_cases hj : j = i <;> by_cases hk : k = i
      · rw [hj, hk]
      · simp only [setThread, hj, if_true, Option.some.injEq] at hja
        simp only [setThread, hk, if_false] at hka
        have := h.lt_next k a hka
        omega
      · simp only [setThread, hk, if_true, Option.some.injEq] at hka
        simp only [setThread, hj, if_false] at hja
        have := h.lt_next j a hja
        omega
      · simp only [setThread, hj, hk, if_false] at hja hka
        exact h.distinct j k a hja hka
    · intro j hjp
      by_cases hj : j = i
      · simp [setThread, hj]
      · simp only [setThread, hj, if_false] at hjp ⊢
        exact h.exchange_expected j hjp
    · intro hs j
      by_cases hj : j = i
      · simp [setThread, hj]
      · simp only [setThread, hj, if_false]
        exact h.empty_slot hs j
    · intro j hjp
      by_cases hj : j = i
      · simp [setThread, hj] at hjp
      · simp only [setThread, hj, if_false] at hjp ⊢
        exact h.installed_slot j hjp
    · intro a hs
      obtain ⟨j, hjp, hjn⟩ := h.slot_installed a hs
      have hj : j ≠ i := by
        intro e
        rw [e, hpc] at hjp
        exact SetPc.noConfusion hjp
      exact ⟨j, by simp only [setThread, hj, if_false]; exact hjp,
        by simp only [setThread, hj, if_false]; exact hjn⟩
    · intro p hp
      simp only [List.mem_append, List.mem_singleton] at hp
      rcases hp with hp | hp
      · have hown := h.accesses_owner p hp
        have hj : p.1 ≠ i := by
          intro e
          rw [e, hnv] at hown
          exact Option.noConfusion hown
        simp only [setThread, hj, if_false]
        exact hown
      · rw [hp]
        simp [setThread]
    · intro j a hja hjp
      by_cases hj : j = i
      · simp only [setThread, hj, if_true, Option.some.injEq] at hja
        simp [hja, hj]
      · simp only [setThread, hj, if_false] at hja hjp
        have hlt := h.lt_next j a hja
        have hne : a ≠ w.next := by omega
        simp only [hne, if_false]
        exact h.live j a hja hjp
    · intro j a hja hjp
      by_cases hj : j = i
      · simp [setThread, hj] at hjp
      · simp only [setThread, hj, if_false] at hja hjp
        have hlt := h.lt_next j a hja
        have hne : a ≠ w.next := by omega
        have := h.dead j a hja hjp
        simp only [hne, if_false, List.mem_append]
        exact ⟨this.1, Or.inl this.2⟩
  | exchange =>
    have hexp : (w.threads i).expected = none := h.exchange_expected i hpc
    have hnb : (w.threads i).newVal ≠ none := by
      intro e
      have := (h.build_newVal i).2 e
      rw [hpc] at this
      exact SetPc.noConfusion this
    obtain ⟨ai, hai⟩ := Option.ne_none_iff_exists'.1 hnb
    simp only [step, hpc, hexp]
    by_cases hs : w.slot = none
    · simp only [hs, if_true]
      constructor
      · intro j
        by_cases hj : j = i
        · simp [setThread, hj, hai]
        · simp only [setThread, hj, if_false]
          exact h.build_newVal j
      · intro j a hja
        have hja' : (w.threads j).newVal = some a := by
          refine (setThread_newVal w i _ ?_ j).symm.trans hja
          rfl
        exact h.lt_next j a hja'
      · intro j k a hja hka
        have hja' : (w.threads j).newVal = some a := by
          refine (setThread_newVal w i _ ?_ j).symm.trans hja
          rfl
        have hka' : (w.threads k).newVal = some a := by
          refine (setThread_newVal w i _ ?_ k).symm.trans hka
          rfl
        exact h.distinct j k a hja' hka'
      · intro j hjp
        by_cases hj : j = i
        · simp [setThread, hj] at hjp
        · simp only [setThread, hj, if_false] at hjp ⊢
          exact h.exchange_expected j hjp
      · intro hs2
        simp only [hai] at hs2
        exact Option.noConfusion hs2
      · intro j hjp
        by_cases hj : j = i
        · simp [setThread, hj]
        · simp only [setThread, hj, if_false] at hjp
          rcases h.empty_slot hs j with e | e <;> rw [e] at hjp <;> exact SetPc.noConfusion hjp
      · intro a hs2
        refine ⟨i, by simp [setThread], ?_⟩
        simp only [setThread, if_true]
        exact hs2
      · intro p hp
        have hown := h.accesses_owner p hp
        by_cases hj : p.1 = i
        · simp only [setThread, hj, if_true]
          rw [← hj]
          exact hown
        · simp only [setThread, hj, if_false]
          exact hown
      · intro j a hja hjp
        by_cases hj : j = i
        · simp only [setThread, hj, if_true] at hja
          rw [hj]
          exact h.live i a hja (by rw [hpc]; intro e; exact SetPc.noConfusion e)
        · simp only [setThread, hj, if_false] at hja hjp
          exact h.live j a hja hjp
      · intro j a hja hjp
        by_cases hj : j = i
        · simp [setThread, hj] at hjp
        · simp only [setThread, hj, if_false] at hja hjp
          exact h.dead j a hja hjp
    · have hs' : ¬ (w.slot = (none : Option Nat)) := hs
      simp only [hs', if_false]
      constructor
      · intro j
        by_cases hj : j = i
        · simp [setThread, hj, hai]
        · simp only [setThread, hj, if_false]
          exact h.build_newVal j
      · intro j a hja
        have hja' : (w.threads j).newVal = some a := by
          refine (setThread_newVal w i _ ?_ j).symm.trans hja
          rfl
        exact h.lt_next j a hja'
      · intro j k a hja hka
        have hja' : (w.threads j).newVal = some a := by
          refine (setThread_newVal w i _ ?_ j).symm.trans hja
          rfl
        have hka' : (w.threads k).newVal = some a := by
          refine (setThread_newVal w i _ ?_ k).symm.trans hka
          rfl
        exact h.distinct j k a hja' hka'
      · intro j hjp
        by_cases hj : j = i
        · simp [setThread, hj] at hjp
        · simp only [setThread, hj, if_false] at hjp ⊢
          exact h.exchange_expected j hjp
      · intro hs2
        exact absurd hs2 hs
      · intro j hjp
        by_cases hj : j = i
        · simp [setThread, hj] at hjp
        · simp only [setThread, hj, if_false] at hjp ⊢
          exact h.installed_slot j hjp
      · intro a hs2
        obtain ⟨j, hjp, hjn⟩ := h.slot_installed a hs2
        have hj : j ≠ i := by
          intro e
          rw [e, hpc] at hjp
          exact SetPc.noConfusion hjp
        exact ⟨j, by simp only [setThread, hj, if_false]; exact hjp,
          by simp only [setThread, hj, if_false]; exact hjn⟩
      · intro p hp
        have hown := h.accesses_owner p hp
        by_cases hj : p.1 = i
        · simp only [setThread, hj, if_true]
          rw [← hj]
          exact hown
        · simp only [setThread, hj, if_false]
          exact hown
      · intro j a hja hjp
        by_cases hj : j = i
        · simp only [setThread, hj, if_true] at hja
          rw [hj]
          exact h.live i a hja (by rw [hpc]; intro e; exact SetPc.noConfusion e)
        · simp only [setThread, hj, if_false] at hja hjp
          exact h.live j a hja hjp
      · intro j a hja hjp
        by_cases hj : j = i
        · simp [setThread, hj] at hjp
        · simp only [setThread, hj, if_false] at hja hjp
          exact h.dead j a hja hjp
  | load =>
    have hs : w.slot ≠ none := by
      intro e
      rcases h.empty_slot e i with e' | e' <;> rw [hpc] at e' <;> exact SetPc.noConfusion e'
    have hnb : (w.threads i).newVal ≠ none := by
      intro e
      have := (h.build_newVal i).2 e
      rw [hpc] at this
      exact SetPc.noConfusion this
    obtain ⟨ai, hai⟩ := Option.ne_none_iff_exists'.1 hnb
    simp only [step, hpc, hs, ne_eq, not_false_eq_true, if_true]
    constructor
    · intro j
      by_cases hj : j = i
      · simp [setThread, hj, hai]
      · simp only [setThread, hj, if_false]
        exact h.build_newVal j
    · intro j a hja
      have hja' : (w.threads j).newVal = some a := by
        refine (setThread_newVal w i _ ?_ j).symm.trans hja
        rfl
      exact h.lt_next j a hja'
    · intro j k a hja hka
      have hja' : (w.threads j).newVal = some a := by
        refine (setThread_newVal w i _ ?_ j).symm.trans hja
        rfl
      have hka' : (w.threads k).newVal = some a := by
        refine (setThread_newVal w i _ ?_ k).symm.trans hka
        rfl
      exact h.distinct j k a hja' hka'
    · intro j hjp
      by_cases hj : j = i
      · simp [setThread, hj] at hjp
      · simp only [setThread, hj, if_false] at hjp ⊢
        exact h.exchange_expected j hjp
    · intro hs2
      exact absurd hs2 hs
    · intro j hjp
      by_cases hj : j = i
      · simp [setThread, hj] at hjp
      · simp only [setThread, hj, if_false] at hjp ⊢
        exact h.installed_slot j hjp
    · intro a hs2
      obtain ⟨j, hjp, hjn⟩ := h.slot_installed a hs2
      have hj : j ≠ i := by
        intro e
        rw [e, hpc] at hjp
        exact SetPc.noConfusion hjp
      exact ⟨j, by simp only [setThread, hj, if_false]; exact hjp,
        by simp only [setThread, hj, if_false]; exact hjn⟩
    · intro p hp
      have hown := h.accesses_owner p hp
      by_cases hj : p.1 = i
      · simp only [setThread, hj, if_true]
        rw [← hj]
        exact hown
      · simp only [setThread, hj, if_false]
        exact hown
    · intro j a hja hjp
      by_cases hj : j = i
      · simp only [setThread, hj, if_true] at hja
        rw [hj]
        exact h.live i a hja (by rw [hpc]; intro e; exact SetPc.noConfusion e)
      · simp only [setThread, hj, if_false] at hja hjp
        exact h.live j a hja hjp
    · intro j a hja hjp
      by_cases hj : j = i
      · simp [setThread, hj] at hjp
      · simp only [setThread, hj, if_false] at hja hjp
        exact h.dead j a hja hjp
  | discard =>
    have hs : w.slot ≠ none := by
      intro e
      rcases h.empty_slot e i with e' | e' <;> rw [hpc] at e' <;> exact SetPc.noConfusion e'
    have hnb : (w.threads i).newVal ≠ none := by
      intro e
      have := (h.build_newVal i).2 e
      rw [hpc] at this
      exact SetPc.noConfusion this
    obtain ⟨ai, hai⟩ := Option.ne_none_iff_exists'.1 hnb
    simp only [step, hpc, hai]
    constructor
    · intro j
      by_cases hj : j = i
      · simp [setThread, hj, hai]
      · simp only [setThread, hj, if_false]
        exact h.build_newVal j
    · intro j a hja
      have hja' : (w.threads j).newVal = some a := by
        refine (setThread_newVal w i _ ?_ j).symm.trans hja
        exact hai.symm
      exact h.lt_next j a hja'
    · intro j k a hja hka
      have hja' : (w.threads j).newVal = some a := by
        refine (setThread_newVal w i _ ?_ j).symm.trans hja
        exact hai.symm
      have hka' : (w.threads k).newVal = some a := by
        refine (setThread_newVal w i _ ?_ k).symm.trans hka
        exact hai.symm
      exact h.distinct j k a hja' hka'
    · intro j hjp
      by_cases hj : j = i
      · simp [setThread, hj] at hjp
      · simp only [setThread, hj, if_false] at hjp ⊢
        exact h.exchange_expected j hjp
    · intro hs2
      exact absurd hs2 hs
    · intro j hjp
      by_cases hj : j = i
      · simp [setThread, hj] at hjp
      · simp only [setThread, hj, if_false] at hjp ⊢
        exact h.installed_slot j hjp
    · intro a hs2
      obtain ⟨j, hjp, hjn⟩ := h.slot_installed a hs2
      have hj : j ≠ i := by
        intro e
        rw [e, hpc] at hjp
        exact SetPc.noConfusion hjp
      exact ⟨j, by simp only [setThread, hj, if_false]; exact hjp,
        by simp only [setThread, hj, if_false]; exact hjn⟩
    · intro p hp
      simp only [List.mem_append, List.mem_singleton] at hp
      have hown : (w.threads p.1).newVal = some p.2 := by
        rcases hp with hp | hp
        · exact h.accesses_owner p hp
        · rw [hp]
          exact hai
      by_cases hj : p.1 = i
      · simp only [setThread, hj, if_true]
        rw [hj, hai] at hown
        exact hown
      · simp only [setThread, hj, if_false]
        exact hown
    · intro j a hja hjp
      by_cases hj : j = i
      · simp [setThread, hj] at hjp
      · simp only [setThread, hj, if_false] at hja hjp
        have hne : a ≠ ai := by
          intro e
          rw [e] at hja
          exact hj (h.distinct j i ai hja hai)
        simp only [hne, if_false]
        exact h.live j a hja hjp
    · intro j a hja hjp
      by_cases hj : j = i
      · simp only [setThread, hj, if_true, Option.some.injEq] at hja
        simp [hja, hj]
      · simp only [setThread, hj, if_false] at hja hjp
        have hne : a ≠ ai := by
          intro e
          rw [e] at hja
          exact hj (h.distinct j i ai hja hai)
        have := h.dead j a hja hjp
        simp only [hne, if_false, List.mem_append]
        exact ⟨this.1, Or.inl this.2⟩
  | installed =>
    simp only [step, hpc]
    exact h
  | discarded =>
    simp only [step, hpc]
    exact h

theorem run_inv (args : Nat → IntToStr × Bool) (schedule : List Nat) (w : SetWorld)
    (h : Inv args w) : Inv args (run args w schedule) := by
  induction schedule generalizing w with
  | nil => exact h
  | cons i rest ih => exact ih (step args w i) (step_inv args w i h)

theorem step_other (args : Nat → IntToStr × Bool) (w : SetWorld) (i j : Nat) (hj : j ≠ i) :
    (step args w i).threads j = w.threads j := by
  unfold step
  split
  · simp [setThread, hj]
  · split_ifs <;> simp [setThread, hj]
  · split_ifs <;> simp [setThread, hj]
  · split <;> simp [setThread, hj]
  · rfl
  · rfl

theorem step_stepsLeft (args : Nat → IntToStr × Bool) (w : SetWorld) (i : Nat)
    (h : Inv args w) :
    ((step args w i).threads i).pc.stepsLeft ≤ (w.threads i).pc.stepsLeft - 1 := by
  cases hpc : (w.threads i).pc with
  | build => simp [step, hpc, setThread, SetPc.stepsLeft]
  | exchange =>
    simp only [step, hpc]
    split_ifs <;> simp [setThread, SetPc.stepsLeft]
  | load =>
    have hs : w.slot ≠ none := by
      intro e
      rcases h.empty_slot e i with e' | e' <;> rw [hpc] at e' <;> exact SetPc.noConfusion e'
    simp [step, hpc, hs, setThread, SetPc.stepsLeft]
  | discard =>
    simp only [step, hpc]
    split <;> simp [setThread, SetPc.stepsLeft]
  | installed => simp [step, hpc, SetPc.stepsLeft]
  | discarded => simp [step, hpc, SetPc.stepsLeft]

theorem run_stepsLeft (args : Nat → IntToStr × Bool) (schedule : List Nat) (w : SetWorld)
    (i : Nat) (h : Inv args w) :
    ((run args w schedule).threads i).pc.stepsLeft
      ≤ (w.threads i).pc.stepsLeft - schedule.count i := by
  induction schedule generalizing w with
  | nil => simp [run]
  | cons j rest ih =>
    have hrec := ih (step args w j) (step_inv args w j h)
    have hrun : run args w (j :: rest) = run args (step args w j) rest := rfl
    rw [hrun]
    by_cases hj : j = i
    · subst hj
      have := step_stepsLeft args w j h
      simp only [List.count_cons_self]
      omega
    · have hne : i ≠ j := fun e => hj e.symm
      rw [step_other args w j i hne] at hrec
      rw [List.count_cons_of_ne hne]
      exact hrec

theorem stepsLeft_eq_zero (pc : SetPc) (h : pc.stepsLeft = 0) :
    pc = SetPc.installed ∨ pc = SetPc.discarded := by
  cases pc <;> simp [SetPc.stepsLeft] at h ⊢

end SetWorld

/-- C32: when any number of threads run `EnumDictionary::set` on a slot that is `NULL`
at the start, then after the steps of every schedule: at most one thread has
installed its candidate; the slot holds a candidate if and only if its thread has
installed it, and that candidate is live and is what `init` made of the thread's
arguments; a thread that has returned without installing has deleted its own
candidate, which is not the one in the slot; every read or write of a candidate was
made by the thread that built it; a thread that has taken four steps has returned;
and as soon as one thread has returned, exactly one candidate is installed. -/
theorem set_concurrent_installs_one (args : Nat → IntToStr × Bool) (schedule : List Nat)
    (w : SetWorld) (hw : w = SetWorld.run args SetWorld.start schedule) :
    (∀ i j, (w.threads i).pc = SetPc.installed → (w.threads j).pc = SetPc.installed → i = j)
    ∧ (∀ i, (w.threads i).pc = SetPc.installed →
        ∃ a, (w.threads i).newVal = some a ∧ w.slot = some a
          ∧ w.heap a = some (EnumDictionary.new.init (args i).1 (args i).2))
    ∧ (∀ a, w.slot = some a →
        ∃ i, (w.threads i).pc = SetPc.installed ∧ (w.threads i).newVal = some a)
    ∧ (∀ i, (w.threads i).pc = SetPc.discarded →
        ∃ a, (w.threads i).newVal = some a ∧ w.heap a = none ∧ (i, a) ∈ w.accesses
          ∧ w.slot ≠ some a ∧ w.slot ≠ none)
    ∧ (∀ i a, (i, a) ∈ w.accesses →
        (w.threads i).newVal = some a ∧ ∀ j, (w.threads j).newVal = some a → j = i)
    ∧ (∀ i, 4 ≤ schedule.count i →
        (w.threads i).pc = SetPc.installed ∨ (w.threads i).pc = SetPc.discarded)
    ∧ (∀ i, (w.threads i).pc = SetPc.installed ∨ (w.threads i).pc = SetPc.discarded →
        ∃! j, (w.threads j).pc = SetPc.installed) := by
  have h : SetWorld.Inv args w := by
    rw [hw]
    exact SetWorld.run_inv args schedule SetWorld.start (SetWorld.start_inv args)
  have hsome : ∀ i, (w.threads i).pc ≠ SetPc.build → ∃ a, (w.threads i).newVal = some a := by
    intro i hi
    apply Option.ne_none_iff_exists'.1
    intro e
    exact hi ((h.build_newVal i).2 e)
  have huniq : ∀ i j, (w.threads i).pc = SetPc.installed →
      (w.threads j).pc = SetPc.installed → i = j := by
    intro i j hi hj
    obtain ⟨a, ha⟩ := hsome i (by rw [hi]; intro e; exact SetPc.noConfusion e)
    have h1 := h.installed_slot i hi
    have h2 := h.installed_slot j hj
    rw [h1, ha] at h2
    exact h.distinct i j a ha h2.symm
  have hslot : ∀ i, (w.threads i).pc = SetPc.discarded → w.slot ≠ none := by
    intro i hi e
    rcases h.empty_slot e i with e' | e' <;> rw [hi] at e' <;> exact SetPc.noConfusion e'
  refine ⟨huniq, ?_, h.slot_installed, ?_, ?_, ?_, ?_⟩
  · intro i hi
    obtain ⟨a, ha⟩ := hsome i (by rw [hi]; intro e; exact SetPc.noConfusion e)
    refine ⟨a, ha, ?_, h.live i a ha (by rw [hi]; intro e; exact SetPc.noConfusion e)⟩
    rw [h.installed_slot i hi, ha]
  · intro i hi
    obtain ⟨a, ha⟩ := hsome i (by rw [hi]; intro e; exact SetPc.noConfusion e)
    refine ⟨a, ha, (h.dead i a ha hi).1, (h.dead i a ha hi).2, ?_, hslot i hi⟩
    intro e
    obtain ⟨j, hjp, hjn⟩ := h.slot_installed a e
    have := h.distinct i j a ha hjn
    rw [← this, hi] at hjp
    exact SetPc.noConfusion hjp
  · intro i a hia
    have hown := h.accesses_owner (i, a) hia
    exact ⟨hown, fun j hj => h.distinct j i a hj hown⟩
  · intro i hi
    apply SetWorld.stepsLeft_eq_zero
    have := SetWorld.run_stepsLeft args schedule SetWorld.start i (SetWorld.start_inv args)
    rw [← hw] at this
    have h4 : (SetWorld.start.threads i).pc.stepsLeft = 4 := rfl
    omega
  · intro i hi
    have hex : ∃ j, (w.threads j).pc = SetPc.installed := by
      rcases hi with hi | hi
      · exact ⟨i, hi⟩
      · obtain ⟨a, ha⟩ := Option.ne_none_iff_exists'.1 (hslot i hi)
        obtain ⟨j, hj, _⟩ := h.slot_installed a ha
        exact ⟨j, hj⟩
    obtain ⟨j, hj⟩ := hex
    exact ⟨j, hj, fun k hk => huniq k j hk hj⟩

/-- C32 (witness): three threads; each builds its candidate, thread 1 is the first to
exchange, threads 0 and 2 fail to exchange, load the slot and delete their candidates. -/
theorem set_concurrent_installs_one_witness :
    (SetWorld.run (fun i => ([((i : Int), "a")], true)) SetWorld.start
        [0, 1, 2, 1, 0, 2, 0, 2, 2, 0]).slot = some 1
    ∧ (SetWorld.run (fun i => ([((i : Int), "a")], true)) SetWorld.start
        [0, 1, 2, 1, 0, 2, 0, 2, 2, 0]).accesses = [(0, 0), (1, 1), (2, 2), (2, 2), (0, 0)]
    ∧ ((SetWorld.run (fun i => ([((i : Int), "a")], true)) SetWorld.start
        [0, 1, 2, 1, 0, 2, 0, 2, 2, 0]).threads 0).pc = SetPc.discarded
    ∧ ((SetWorld.run (fun i => ([((i : Int), "a")], true)) SetWorld.start
        [0, 1, 2, 1, 0, 2, 0, 2, 2, 0]).threads 1).pc = SetPc.installed
    ∧ ((SetWorld.run (fun i => ([((i : Int), "a")], true)) SetWorld.start
        [0, 1, 2, 1, 0, 2, 0, 2, 2, 0]).threads 2).pc = SetPc.discarded
    ∧ ∃! j, ((SetWorld.run (fun i => ([((i : Int), "a")], true)) SetWorld.start
        [0, 1, 2, 1, 0, 2, 0, 2, 2, 0]).threads j).pc = SetPc.installed :=
  ⟨by decide, by decide, by decide, by decide, by decide,
   (set_concurrent_installs_one (fun i => ([((i : Int), "a")], true))
      [0, 1, 2, 1, 0, 2, 0, 2, 2, 0] _ rfl).2.2.2.2.2.2 1 (Or.inl (by decide))⟩

end CodeFormat
